import Mathlib

/-!
Verification development for the `polygonum` face-extraction library.

The Rust source (src/point.rs, src/plane.rs, src/polygon.rs, src/pipeline.rs,
src/graph.rs, src/traversal.rs, src/lib.rs) is shallowly embedded here.

Modelling conventions:
* `f64` coordinates are idealised as exact rationals `ℚ`.  All comparisons the
  program performs on coordinates, areas (via their squares), coplanarity
  volumes and `theta` angles (via exact `atan2`-order on the cross/dot pair of
  the projected direction vectors) are decidable over `ℚ`.  The machine-epsilon
  test `norm <= f64::EPSILON` of `Vector::normalize` is idealised to the exact
  zero test, and `NaN`/`-0.0` bit-level artefacts do not exist in the model
  (the claims under study assume finite inputs).
* `HashMap`/`HashSet` are modelled as association lists / lists in insertion
  order (a legitimate fixed instance of the arbitrary iteration order of the
  hash containers); `BTreeSet<Point>` is modelled as a strictly sorted list in
  the lexicographic point order, which matches its iteration order.
* The recursive traversal is given explicit fuel; an `ok` flag in the traversal
  state records that no panicking operation (missing map index, fuel
  exhaustion) was ever reached, so panic-freedom is the statement `ok = true`.
* Real-valued quantities that the program only ever compares (norms, `theta`)
  additionally get an exact `ℝ`-level definition (`Real.sqrt`, `arctan`-based
  `atan2`) used for the claims that talk about the values themselves.
-/

namespace Polygonum

/-- Three dimensional point (src/point.rs `Point`), coordinates idealised as `ℚ`. -/
structure Point where
  x : ℚ
  y : ℚ
  z : ℚ
deriving DecidableEq, Repr

instance : Inhabited Point := ⟨⟨0, 0, 0⟩⟩

/-- Oriented segment connecting two points (src/point.rs `Segment`). -/
abbrev Segment := Point × Point

/-- Lexicographic strict order on points, mirroring `impl Ord for Point`
(src/point.rs lines 21-40): coordinate-wise comparison on (x, y, z). -/
def Point.ltB (p q : Point) : Bool :=
  if p.x < q.x then true
  else if q.x < p.x then false
  else if p.y < q.y then true
  else if q.y < p.y then false
  else if p.z < q.z then true
  else false

/-- A three dimensional vector (src/plane.rs `Vector`). -/
structure Vector where
  x : ℚ
  y : ℚ
  z : ℚ
deriving DecidableEq, Repr

/-- The zero vector (src/plane.rs `Vector::zero`). -/
def Vector.zero : Vector := ⟨0, 0, 0⟩

/-- Vector from a point (src/plane.rs `Vector::from`). -/
def Vector.fromPoint (p : Point) : Vector := ⟨p.x, p.y, p.z⟩

/-- Oriented vector of a segment (src/plane.rs `Vector::between`): end minus start. -/
def Vector.between (s : Segment) : Vector :=
  ⟨s.2.x - s.1.x, s.2.y - s.1.y, s.2.z - s.1.z⟩

/-- Squared euclidean norm; the source's `Vector::norm` is `sqrt` of this. -/
def Vector.normSq (v : Vector) : ℚ := v.x * v.x + v.y * v.y + v.z * v.z

/-- Cross product (src/plane.rs `Vector::cross`). -/
def Vector.cross (v w : Vector) : Vector :=
  ⟨v.y * w.z - v.z * w.y, v.z * w.x - v.x * w.z, v.x * w.y - v.y * w.x⟩

/-- Dot product (src/plane.rs `Vector::dot`). -/
def Vector.dot (v w : Vector) : ℚ := v.x * w.x + v.y * w.y + v.z * w.z

/-- Vector addition (src/plane.rs `Vector::add`). -/
def Vector.add (v w : Vector) : Vector := ⟨v.x + w.x, v.y + w.y, v.z + w.z⟩

/-- Vector subtraction (src/plane.rs `Vector::subtract`). -/
def Vector.subtract (v w : Vector) : Vector := ⟨v.x - w.x, v.y - w.y, v.z - w.z⟩

/-- Scaling (src/plane.rs `Vector::scale`). -/
def Vector.scale (v : Vector) (factor : ℚ) : Vector := ⟨v.x * factor, v.y * factor, v.z * factor⟩

/-- Coplanarity of four points as the tetrahedron volume
(src/plane.rs `coplanarity`): `|((b-a) x (c-a)) . (d-a)| / 6`. -/
def coplanarity (a b c d : Point) : ℚ :=
  |((Vector.between (a, b)).cross (Vector.between (a, c))).dot (Vector.between (a, d))| / 6

/-- Unweighted centre of a closed vertex list (src/plane.rs `center`): the first
vertex is skipped because it is repeated as the last one; the source `unwrap`s
the reduce, which is only reached on lists of length at least 2 in the program —
the `[]` branch returns the zero vector in the model. -/
def center (vertices : List Point) : Vector :=
  match vertices.drop 1 with
  | [] => Vector.zero
  | v :: t =>
      (t.foldl (fun acc p => acc.add (Vector.fromPoint p)) (Vector.fromPoint v)).scale
        (1 / ((vertices.length - 1 : ℕ) : ℚ))

/-- Plane normal of a closed vertex list (src/plane.rs `normal`): vertices are
translated by the centre, then consecutive cross products are summed.  The
source folds over indices `0 .. len-2`; `zip` with the tail produces exactly the
same consecutive pairs, and folding from `Vector.zero` agrees with the source's
`reduce` because vector addition has `zero` as an exact identity on `ℚ`. -/
def normalV (vertices : List Point) : Vector :=
  let offset := center vertices
  ((vertices.zip (vertices.drop 1)).map fun ab =>
      ((Vector.fromPoint ab.1).subtract offset).cross
        ((Vector.fromPoint ab.2).subtract offset)).foldl
    Vector.add Vector.zero

/-!
Theta comparisons.  The source computes
`theta(a,b) = pi + atan2(v.y*u.x - v.x*u.y, u.x*v.x + u.y*v.y)` on the 3D-unit
vectors `u, v` of the two segments (src/plane.rs `Vector::theta`, `theta`), and
only ever compares such values.  Both `atan2` arguments scale by the positive
factor `1/(|u||v|)` under normalisation (and are `(0,0)` exactly when either
segment has zero length, where `normalize` returns the zero vector), and
`atan2` is invariant under positive scaling of its argument pair, so the order
of the `theta` values is exactly the `atan2`-order of the raw pairs
`(S, C) = (cross_z(u_xy, v_xy), dot(u_xy, v_xy))` of the unnormalised
difference vectors.  `thetaKey` computes that pair and
`thetaLtB`/`thetaEqB` decide the `atan2`-order exactly over `ℚ`.
-/

/-- The pair of `atan2` arguments determining `theta` of two consecutive
segments, computed from the raw (unnormalised) difference vectors. -/
def thetaKey (a b : Segment) : ℚ × ℚ :=
  let u := Vector.between a
  let v := Vector.between b
  (v.y * u.x - v.x * u.y, u.x * v.x + u.y * v.y)

/-- Which of the four monotone bands of `atan2 S C` the pair lies in, listed in
increasing order of the angle: `0` for `S < 0` (angles in `(-pi, 0)`), `1` for
`S = 0, C >= 0` (angle `0`, including the `(0,0)` convention `atan2 0 0 = 0`),
`2` for `S > 0` (angles in `(0, pi)`), `3` for `S = 0, C < 0` (angle `pi`). -/
def atan2Class (S C : ℚ) : ℕ :=
  if S < 0 then 0 else if 0 < S then 2 else if 0 ≤ C then 1 else 3

/-- Decides `atan2 p.1 p.2 < atan2 q.1 q.2` exactly: first by band, then inside
an open half-plane band by the sign of the cross product `C_p*S_q - S_p*C_q`
(two vectors in the same open half-plane differ by less than a half-turn, so a
positive cross product means the first angle is smaller). -/
def thetaLtB (p q : ℚ × ℚ) : Bool :=
  let cp := atan2Class p.1 p.2
  let cq := atan2Class q.1 q.2
  if cp ≠ cq then decide (cp < cq)
  else if cp = 0 ∨ cp = 2 then decide (0 < p.2 * q.1 - p.1 * q.2)
  else false

/-- Decides `atan2 p.1 p.2 = atan2 q.1 q.2` exactly. -/
def thetaEqB (p q : ℚ × ℚ) : Bool :=
  let cp := atan2Class p.1 p.2
  let cq := atan2Class q.1 q.2
  if cp ≠ cq then false
  else if cp = 0 ∨ cp = 2 then decide (p.2 * q.1 - p.1 * q.2 = 0)
  else true

/-- The first election criterion (src/graph.rs lines 66-71 and
src/traversal.rs lines 180-185): the pair `(theta(current, next),
coplanarity(previous.0, current.0, current.1, next.1))`, with `theta`
represented by its comparison key. -/
def crit1 (previous current next : Segment) : (ℚ × ℚ) × ℚ :=
  (thetaKey current next, coplanarity previous.1 current.1 current.2 next.2)

/-- Lexicographic strict comparison of `crit1` values, mirroring `PartialOrd`
on an `(f64, f64)` pair whose first component is a `theta` value. -/
def crit1Lt (a b : (ℚ × ℚ) × ℚ) : Bool :=
  thetaLtB a.1 b.1 || (thetaEqB a.1 b.1 && decide (a.2 < b.2))

/-- The second election criterion (src/graph.rs lines 86-91 and
src/traversal.rs lines 187-192): the swapped pair `(coplanarity, theta)`. -/
def crit2 (previous current next : Segment) : ℚ × (ℚ × ℚ) :=
  (coplanarity previous.1 current.1 current.2 next.2, thetaKey current next)

/-- Lexicographic strict comparison of `crit2` values. -/
def crit2Lt (a b : ℚ × (ℚ × ℚ)) : Bool :=
  decide (a.1 < b.1) || (decide (a.1 = b.1) && thetaLtB a.2 b.2)

/-!
Real-valued kernel, used by the claims about the values of `norm`, `normalize`
and `theta` themselves (the program only branches on comparisons, which the
`ℚ`-level comparators above decide).
-/

/-- A vector with real components, the codomain of `Vector::normalize`. -/
structure RVector where
  x : ℝ
  y : ℝ
  z : ℝ

/-- The zero real vector. -/
def RVector.zero : RVector := ⟨0, 0, 0⟩

/-- Euclidean norm (src/plane.rs `Vector::norm`): square root of the sum of
squared components. -/
noncomputable def Vector.norm (v : Vector) : ℝ := Real.sqrt (v.normSq : ℝ)

/-- Normalisation (src/plane.rs `Vector::normalize`): the zero vector when the
norm is at most machine epsilon — idealised to the exact zero test, which over
`ℚ` is `normSq = 0` — otherwise the vector divided by its norm. -/
noncomputable def Vector.normalize (v : Vector) : RVector :=
  if v.normSq = 0 then RVector.zero
  else ⟨(v.x : ℝ) / v.norm, (v.y : ℝ) / v.norm, (v.z : ℝ) / v.norm⟩

/-- Unit vector of a segment (src/plane.rs `Vector::unit`). -/
noncomputable def unitOfSegment (s : Segment) : RVector :=
  (Vector.between s).normalize

/-- Two-argument arctangent with the standard conventions used by
`f64::atan2` on non-NaN input (idealised: signed zero does not exist):
range `(-pi, pi]`, `atan2 0 0 = 0`. -/
noncomputable def atan2 (y x : ℝ) : ℝ :=
  if 0 < x then Real.arctan (y / x)
  else if x < 0 then
    (if 0 ≤ y then Real.arctan (y / x) + Real.pi else Real.arctan (y / x) - Real.pi)
  else
    (if 0 < y then Real.pi / 2 else if y < 0 then -(Real.pi / 2) else 0)

/-- Clockwise xy-projected angle between two real vectors
(src/plane.rs `Vector::theta`): `pi + atan2(v.y*u.x - v.x*u.y, u.x*v.x + u.y*v.y)`. -/
noncomputable def RVector.theta (u v : RVector) : ℝ :=
  Real.pi + atan2 (v.y * u.x - v.x * u.y) (u.x * v.x + u.y * v.y)

/-- Clockwise angle between two consecutive segments (src/plane.rs `theta`). -/
noncomputable def theta (a b : Segment) : ℝ :=
  (unitOfSegment a).theta (unitOfSegment b)

/-!
Polygons (src/polygon.rs).
-/

/-- Insertion into a strictly sorted point list, the model of
`BTreeSet<Point>::insert`: keeps the list sorted in `Point.ltB` order and drops
duplicates. -/
def insertSortedPoint (p : Point) (l : List Point) : List Point :=
  match l with
  | [] => [p]
  | q :: t => if Point.ltB p q then p :: q :: t else if p = q then q :: t else q :: insertSortedPoint p t

/-- The strictly sorted duplicate-free list of the elements of `l`, the model
of `l.iter().copied().collect::<BTreeSet<Point>>()`. -/
def btreeOfList (l : List Point) : List Point :=
  l.foldl (fun acc p => insertSortedPoint p acc) []

/-- A polygon (src/polygon.rs `Polygon`): the unique vertex set (as the sorted
list a `BTreeSet` iterates as), the closed oriented vertex sequence with
`sequence.first() == sequence.last()`, and the xy bounding box. -/
structure Polygon where
  set : List Point
  sequence : List Point
  boundary : Point × Point
deriving DecidableEq, Repr

/-- Bounding box of a vertex list (src/polygon.rs `Polygon::boundary`):
componentwise min/max of x and y.  The source initialises with infinities and
stores `NaN` in the unused z slots; the model folds from the first vertex (the
function is only applied to non-empty sequences in the program; the `[]` branch
returns a degenerate box) and stores `0` for z. -/
def polygonBoundary (vertices : List Point) : Point × Point :=
  match vertices with
  | [] => (⟨0, 0, 0⟩, ⟨0, 0, 0⟩)
  | v :: t =>
      t.foldl
        (fun mm p =>
          (⟨min mm.1.x p.x, min mm.1.y p.y, 0⟩, ⟨max mm.2.x p.x, max mm.2.y p.y, 0⟩))
        (⟨v.x, v.y, 0⟩, ⟨v.x, v.y, 0⟩)

/-- Constructs a polygon from an ordered path of vertices
(src/polygon.rs `Polygon::from`): the opening vertex is replicated at the end,
the sequence is reversed when the plane normal has negative z, and the set and
bounding box are derived from the resulting sequence. -/
def Polygon.fromVertices (vertices : List Point) : Polygon :=
  let closed :=
    match vertices.head? with
    | some root => vertices ++ [root]
    | none => vertices
  let seq := if (normalV closed).z < 0 then closed.reverse else closed
  { set := btreeOfList seq
    sequence := seq
    boundary := polygonBoundary seq }

/-- Bounding box dominance (src/polygon.rs `Polygon::contains_boundary_of`). -/
def Polygon.containsBoundaryOf (p other : Polygon) : Bool :=
  decide (p.boundary.1.x ≤ other.boundary.1.x) &&
  decide (other.boundary.2.x ≤ p.boundary.2.x) &&
  decide (p.boundary.1.y ≤ other.boundary.1.y) &&
  decide (other.boundary.2.y ≤ p.boundary.2.y)

/-- Ray-casting point containment (src/polygon.rs `Polygon::contains_point`):
a vertex of the polygon counts as contained; otherwise the crossing-number
parity over the edges decides.  The division is only reached when
`a.y ≠ b.y` (the parity test short-circuits), so total `ℚ` division is
faithful. -/
def Polygon.containsPoint (p : Polygon) (point : Point) : Bool :=
  if point ∈ p.set then true
  else
    let n := p.sequence.length - 1
    (List.range n).foldl
      (fun inside i =>
        let a := p.sequence.getD i default
        let b := p.sequence.getD ((i + 1) % n) default
        if (decide (point.y < a.y) != decide (point.y < b.y)) &&
            decide (point.x < a.x + (point.y - a.y) * (b.x - a.x) / (b.y - a.y)) then
          !inside
        else inside)
      false

/-- Shared-side test (src/polygon.rs `Polygon::shares_sides_with`): some
consecutive vertex pair of one sequence equals a consecutive pair of the other,
in order or reversed. -/
def Polygon.sharesSidesWith (p other : Polygon) : Bool :=
  (List.range (p.sequence.length - 1)).any fun i =>
    (List.range (other.sequence.length - 1)).any fun j =>
      decide
        ((p.sequence.getD i default = other.sequence.getD j default ∧
          p.sequence.getD (i + 1) default = other.sequence.getD (j + 1) default) ∨
        (p.sequence.getD i default = other.sequence.getD (j + 1) default ∧
          p.sequence.getD (i + 1) default = other.sequence.getD j default))

/-- Full containment (src/polygon.rs `Polygon::contains`): bounding box
dominance plus ray-casting containment of every vertex of the other sequence. -/
def Polygon.contains (p other : Polygon) : Bool :=
  p.containsBoundaryOf other && other.sequence.all (fun point => p.containsPoint point)

/-- Squared double in-plane area: `normSq` of the plane normal.  The source's
`Polygon::area` is `sqrt` of this over `2`; since `sqrt` is strictly monotone,
comparing these keys is exactly comparing the areas, which is all the program
does with them. -/
def Polygon.areaKey (p : Polygon) : ℚ := (normalV p.sequence).normSq

/-- In-plane area (src/polygon.rs `Polygon::area`): half the norm of the plane
normal. -/
noncomputable def Polygon.area (p : Polygon) : ℝ := (normalV p.sequence).norm / 2

/-- Projected xy area (src/polygon.rs `Polygon::area_projected`): half the
absolute z component of the plane normal (exact over `ℚ`). -/
def Polygon.areaProjected (p : Polygon) : ℚ := |(normalV p.sequence).z| / 2

/-- Polygon equality (src/polygon.rs `impl PartialEq for Polygon`): equality of
the vertex sets only. -/
def polyEqB (p q : Polygon) : Bool := decide (p.set = q.set)

/-- Stable insertion into a list sorted ascending by `areaKey`: the new element
goes before the first strictly greater element and after equal ones coming from
earlier positions, matching Rust's stable `sort_by` on the area comparator. -/
def insertByArea (p : Polygon) (l : List Polygon) : List Polygon :=
  match l with
  | [] => [p]
  | q :: t => if p.areaKey ≤ q.areaKey then p :: q :: t else q :: insertByArea p t

/-- Stable sort by ascending area (src/polygon.rs `filter`, line 203:
`polygons.sort_by(|a, b| a.area().partial_cmp(&b.area()).unwrap())`). -/
def sortByArea (l : List Polygon) : List Polygon :=
  match l with
  | [] => []
  | p :: t => insertByArea p (sortByArea t)

/-- The greedy selection pass of `filter` (src/polygon.rs lines 205-215): scan
the area-sorted polygons, dropping any that contains and shares sides with an
already accepted one; the surviving polygons are produced in scan order, which
is what the index mask plus the final masked iteration yields. -/
def selectPolygons (sorted : List Polygon) : List Polygon :=
  sorted.foldl
    (fun acc p =>
      if acc.any (fun q => p.contains q && p.sharesSidesWith q) then acc else acc ++ [p])
    []

/-- The polygon filter (src/polygon.rs `filter`): drop polygons with projected
area below the threshold, sort the rest by in-plane area ascending, then apply
the greedy dominance selection. -/
def filterPolygons (polygons : List Polygon) (minimumAreaProjected : ℚ) : List Polygon :=
  selectPolygons (sortByArea (polygons.filter fun p => decide (minimumAreaProjected ≤ p.areaProjected)))

/-!
Association-list maps, the model of `HashMap` with insertion-ordered iteration
(one fixed instance of the hash map's arbitrary iteration order).
-/

/-- Lookup in an association list (first matching key). -/
def alookup {κ ν : Type} [DecidableEq κ] (m : List (κ × ν)) (k : κ) : Option ν :=
  match m with
  | [] => none
  | e :: t => if k = e.1 then some e.2 else alookup t k

/-- The model of `HashMap::entry(k).and_modify(f).or_insert(dflt)`: modify the
value in place when the key is present, otherwise append the key with the
default value at the end (insertion order). -/
def aupdate {κ ν : Type} [DecidableEq κ] (m : List (κ × ν)) (k : κ) (f : ν → ν) (dflt : ν) :
    List (κ × ν) :=
  match m with
  | [] => [(k, dflt)]
  | e :: t => if k = e.1 then (e.1, f e.2) :: t else e :: aupdate t k f dflt

/-- The model of `HashMap::entry(k).and_modify(f)` without insertion. -/
def amodify {κ ν : Type} [DecidableEq κ] (m : List (κ × ν)) (k : κ) (f : ν → ν) :
    List (κ × ν) :=
  m.map fun e => if e.1 = k then (e.1, f e.2) else e

/-- The model of `HashMap::remove(k)`. -/
def aerase {κ ν : Type} [DecidableEq κ] (m : List (κ × ν)) (k : κ) : List (κ × ν) :=
  m.filter fun e => !decide (e.1 = k)

/-- The point graph: adjacency list from points to their neighbour sets
(src/pipeline.rs `Pipeline.adjacencies`), neighbour sets as insertion-ordered
duplicate-free lists. -/
abbrev AdjP := List (Point × List Point)

/-- The model of `HashSet<Point>::insert`: append if not present. -/
def insertNeighbor (q : Point) (l : List Point) : List Point :=
  if q ∈ l then l else l ++ [q]

/-- The model of `HashSet<Point>::remove`. -/
def removeNeighbor (q : Point) (l : List Point) : List Point :=
  l.filter fun p => !decide (p = q)

/-- Builds the undirected point graph from the segments
(src/pipeline.rs `Pipeline::construct_adjacency_list_of_points`): for each
segment `(u,v)`, insert `v` into `adj[u]` and `u` into `adj[v]`. -/
def constructAdjacencyListOfPoints (segments : List Segment) : AdjP :=
  segments.foldl
    (fun adjacencies s =>
      aupdate (aupdate adjacencies s.1 (insertNeighbor s.2) [s.2]) s.2 (insertNeighbor s.1) [s.1])
    []

/-- One leaf-processing step of the pruning loop (src/pipeline.rs lines
93-110): skip the leaf when it was already pruned; otherwise look at its first
remaining neighbour, record that neighbour as a next-round leaf when its degree
before removal is at most 2, remove the leaf from the neighbour's adjacency,
and finally remove the leaf itself. -/
def pruneStep (st : AdjP × List Point) (leaf : Point) : AdjP × List Point :=
  match alookup st.1 leaf with
  | none => st
  | some ns =>
      match ns.head? with
      | none => (aerase st.1 leaf, st.2)
      | some adjacent =>
          let updated :=
            if ((alookup st.1 adjacent).getD []).length ≤ 2 then insertNeighbor adjacent st.2
            else st.2
          (aerase (amodify st.1 adjacent (removeNeighbor leaf)) leaf, updated)

/-- One full round of the pruning loop over the current leaf set
(src/pipeline.rs lines 91-112). -/
def pruneRound (m : AdjP) (leaves : List Point) : AdjP × List Point :=
  leaves.foldl pruneStep (m, [])

/-- A round never grows the map. -/
theorem pruneStep_length_le (st : AdjP × List Point) (leaf : Point) :
    (pruneStep st leaf).1.length ≤ st.1.length := by
  unfold pruneStep
  cases h : alookup st.1 leaf with
  | none => simp
  | some ns =>
      cases hh : ns.head? with
      | none =>
          simp only [hh]
          simpa [aerase] using List.length_filter_le _ st.1
      | some adjacent =>
          simp only [hh]
          calc (aerase (amodify st.1 adjacent (removeNeighbor leaf)) leaf).length
              ≤ (amodify st.1 adjacent (removeNeighbor leaf)).length :=
                List.length_filter_le _ _
            _ = st.1.length := by simp [amodify]

/-- Folding `pruneStep` over a list never grows the map, for any accumulator. -/
theorem pruneStepFoldl_length_le (st : AdjP × List Point) (leaves : List Point) :
    (leaves.foldl pruneStep st).1.length ≤ st.1.length := by
  induction leaves generalizing st with
  | nil => simp
  | cons l t ih => exact le_trans (ih (pruneStep st l)) (pruneStep_length_le st l)

/-- A full round never grows the map. -/
theorem pruneRound_length_le (m : AdjP) (leaves : List Point) :
    (pruneRound m leaves).1.length ≤ m.length :=
  pruneStepFoldl_length_le (m, []) leaves

/-- Erasing a present key strictly shrinks an association list. -/
theorem aerase_length_lt {κ ν : Type} [DecidableEq κ] (m : List (κ × ν)) (k : κ)
    (h : (alookup m k).isSome) : (aerase m k).length < m.length := by
  induction m with
  | nil => simp [alookup] at h
  | cons e t ih =>
      by_cases hk : k = e.1
      · subst hk
        have hdrop : aerase (e :: t) e.1 = t.filter fun x => !decide (x.1 = e.1) := by
          simp [aerase, List.filter_cons]
        rw [hdrop]
        exact lt_of_le_of_lt (List.length_filter_le _ _) (by simp)
      · have h' : (alookup t k).isSome := by
          simpa [alookup, hk] using h
        have := ih h'
        simp only [aerase, List.filter_cons] at *
        have hne : (!decide (e.1 = k)) = true := by
          simp [Ne.symm hk]
        rw [hne]
        simpa using Nat.succ_lt_succ this

/-- Modifying values in place does not change which keys are present. -/
theorem alookup_amodify_isSome {κ ν : Type} [DecidableEq κ] (m : List (κ × ν)) (k k' : κ)
    (f : ν → ν) : (alookup (amodify m k f) k').isSome = (alookup m k').isSome := by
  induction m with
  | nil => simp [amodify, alookup]
  | cons e t ih =>
      have hfst : (if e.1 = k then (e.1, f e.2) else e).1 = e.1 := by
        by_cases he : e.1 = k <;> simp [he]
      by_cases hk : k' = e.1
      · by_cases he : e.1 = k <;> simp [amodify, alookup, hk, he]
      · have ih' := ih
        simp only [amodify] at ih'
        simp [amodify, alookup, hfst, hk, ih']

/-- Processing a leaf that is still present strictly shrinks the map. -/
theorem pruneStep_length_lt (st : AdjP × List Point) (leaf : Point)
    (h : (alookup st.1 leaf).isSome) : (pruneStep st leaf).1.length < st.1.length := by
  unfold pruneStep
  cases hl : alookup st.1 leaf with
  | none => rw [hl] at h; simp at h
  | some ns =>
      cases hh : ns.head? with
      | none =>
          simp only [hh]
          exact aerase_length_lt st.1 leaf (by simp [hl])
      | some adjacent =>
          simp only [hh]
          have hmod : (alookup (amodify st.1 adjacent (removeNeighbor leaf)) leaf).isSome := by
            rw [alookup_amodify_isSome]; simp [hl]
          calc (aerase (amodify st.1 adjacent (removeNeighbor leaf)) leaf).length
              < (amodify st.1 adjacent (removeNeighbor leaf)).length :=
                aerase_length_lt _ _ hmod
            _ = st.1.length := by simp [amodify]

/-- A step on an absent leaf does nothing. -/
theorem pruneStep_absent (st : AdjP × List Point) (leaf : Point)
    (h : alookup st.1 leaf = none) : pruneStep st leaf = st := by
  unfold pruneStep
  rw [h]

/-- A round in which some leaf is still present strictly shrinks the map. -/
theorem pruneFold_length_lt (m : AdjP) (u : List Point) (leaves : List Point)
    (h : ∃ l ∈ leaves, (alookup m l).isSome) :
    (leaves.foldl pruneStep (m, u)).1.length < m.length := by
  induction leaves generalizing m u with
  | nil => simp at h
  | cons l t ih =>
      by_cases hp : (alookup m l).isSome
      · have h1 : (pruneStep (m, u) l).1.length < m.length := pruneStep_length_lt (m, u) l hp
        have h2 := pruneStepFoldl_length_le (pruneStep (m, u) l) t
        simpa using lt_of_le_of_lt h2 h1
      · have hnone : alookup m l = none := by
          cases hx : alookup m l with
          | none => rfl
          | some v => exact absurd (by simp [hx]) hp
        rcases h with ⟨w, hw, hws⟩
        rcases List.mem_cons.mp hw with rfl | hwt
        · exact absurd hws hp
        · simp only [List.foldl_cons, pruneStep_absent (m, u) l hnone]
          exact ih m u ⟨w, hwt, hws⟩

/-- A round in which no leaf is present at all leaves the state untouched and
schedules nothing. -/
theorem pruneFold_stale (m : AdjP) (u : List Point) (leaves : List Point)
    (h : ∀ l ∈ leaves, alookup m l = none) :
    leaves.foldl pruneStep (m, u) = (m, u) := by
  induction leaves with
  | nil => simp
  | cons l t ih =>
      simp only [List.foldl_cons, pruneStep_absent (m, u) l (h l (by simp))]
      exact ih fun l' hl' => h l' (by simp [hl'])

/-- The iterative leaf-pruning loop (src/pipeline.rs lines 89-113): while the
leaf set is non-empty, run a round and continue on the newly scheduled leaves.
Termination: a round with a present leaf shrinks the map; a round with only
stale leaves schedules nothing and the loop stops next. -/
def pruneLoop (m : AdjP) (leaves : List Point) : AdjP :=
  if leaves = [] then m
  else pruneLoop (pruneRound m leaves).1 (pruneRound m leaves).2
termination_by (m.length, leaves.length)
decreasing_by
  rename_i hne
  by_cases hp : ∃ l ∈ leaves, (alookup m l).isSome
  · exact Prod.Lex.left _ _ (pruneFold_length_lt m [] leaves hp)
  · push_neg at hp
    have hnone : ∀ l ∈ leaves, alookup m l = none := by
      intro l hl
      have hthis := hp l hl
      cases hx : alookup m l with
      | none => rfl
      | some v => rw [hx] at hthis; simp at hthis
    have hst : pruneRound m leaves = (m, []) := pruneFold_stale m [] leaves hnone
    rw [hst]
    exact Prod.Lex.right _ (List.length_pos.mpr hne)

/-- The initial leaf set: keys of degree exactly 1
(src/pipeline.rs lines 83-87). -/
def initialLeaves (m : AdjP) : List Point :=
  (m.filter fun e => e.2.length == 1).map (·.1)

/-- Leaf pruning of the point graph
(src/pipeline.rs `Pipeline::prune_adjacency_list_of_points`). -/
def pruneAdjacencyListOfPoints (m : AdjP) : AdjP :=
  pruneLoop m (initialLeaves m)

/-- Pipeline construction (src/pipeline.rs `Pipeline::from`): build the point
graph from the segments and prune it. -/
def pipelineFrom (segments : List Segment) : AdjP :=
  pruneAdjacencyListOfPoints (constructAdjacencyListOfPoints segments)

/-- The segment graph: adjacency from oriented segments to their successor
sets (src/graph.rs `SegmentGraph`). -/
abbrev SegAdj := List (Segment × List Segment)

/-- The model of `HashSet<Segment>::insert`. -/
def insertSegSucc (t : Segment) (l : List Segment) : List Segment :=
  if t ∈ l then l else l ++ [t]

/-- All ordered pairs of neighbours, the model of
`neighbors.iter().flat_map(|x| repeat(x).zip(neighbors))`
(src/pipeline.rs lines 131-133). -/
def neighborPairs (ns : List Point) : List (Point × Point) :=
  ns.foldr (fun x acc => (ns.map fun y => (x, y)) ++ acc) []

/-- Builds the segment graph from a point graph and an optional retained point
set (src/pipeline.rs `Pipeline::build_segment_graph_from_adjacency_list_of_points`):
for every retained point `p` and ordered pair `(from, to)` of distinct
neighbours of `p`, add the directed edge `(from, p) -> (p, to)`. -/
def buildSegmentGraphFromAdjacencyListOfPoints (points : Option (List Point))
    (adjacencies : AdjP) : SegAdj :=
  (adjacencies.filter fun e =>
      match points with
      | none => true
      | some values => decide (e.1 ∈ values)).foldl
    (fun graph e =>
      (neighborPairs e.2).foldl
        (fun g ft =>
          if ft.1 = ft.2 then g
          else aupdate g (ft.1, e.1) (insertSegSucc (e.1, ft.2)) [(e.1, ft.2)])
        graph)
    []

/-- Traversal state (src/graph.rs `SegmentGraph::segment`): the recursion
stack (bottom first; the `depth` map of the source is exactly the map sending
`stack[i]` to `i` and is represented by the stack itself), the set of
discovered polygons in insertion order, and a flag that stays `true` exactly
when no panicking operation (missing map index, fuel exhaustion of the model)
was reached. -/
structure TravState where
  stack : List Segment
  paths : List Polygon
  ok : Bool
deriving Repr

/-- Membership of a polygon in a list up to polygon equality (vertex sets),
the model of `HashSet<Polygon>::contains`. -/
def polyMemB (q : Polygon) (l : List Polygon) : Bool := l.any fun p => polyEqB p q

/-- The model of `HashSet<Polygon>::insert`: a polygon equal (same vertex set)
to a present one is not inserted and the present representative is kept. -/
def insertPath (paths : List Polygon) (p : Polygon) : List Polygon :=
  if polyMemB p paths then paths else paths ++ [p]

/-- The model of `Iterator::min_by` with a total comparison: the first element
realising the minimum (Rust's `min_by` returns the first of equally minimal
elements). -/
def minByFirst {α β : Type} (lt : β → β → Bool) (key : α → β) (l : List α) : Option α :=
  l.foldl
    (fun acc x =>
      match acc with
      | none => some x
      | some m => if lt (key x) (key m) then some x else some m)
    none

/-- Position of a segment in the stack, the value `depth[s]` of the source. -/
def segIndexIn (s : Segment) (l : List Segment) : ℕ := l.findIdx fun x => decide (x = s)

/-- Successor election (the body of the `min_by` expression at
src/graph.rs lines 144-148): look the current segment up in the adjacency (a
missing entry is the source's panicking index, reported in the second
component) and take the criterion-minimal successor. -/
def electG {γ : Type} (g : SegAdj) (crit : Segment → Segment → Segment → γ)
    (lt : γ → γ → Bool) (previous current : Segment) : Option Segment × Bool :=
  match alookup g current with
  | none => (none, false)
  | some succs => (minByFirst lt (crit previous current) succs, true)

/-- The recursive policy-guided traversal (src/graph.rs `SegmentGraph::traverse`):
backtrack when the reversed segment is on the path; close a path (inserting the
polygon of the start points of the stack slice from the first occurrence of
`current`) when `current` is on the path; otherwise push `current` (when the
stack is non-empty, as in the source), elect the criterion-minimal successor,
recurse on it, and pop.  A missing adjacency entry is the source's panicking
index and clears `ok`; the fuel argument only bounds the recursion depth and is
chosen large enough to never run out on the program's calls (running out also
clears `ok`). -/
def traverseRec {γ : Type} (g : SegAdj) (crit : Segment → Segment → Segment → γ)
    (lt : γ → γ → Bool) : ℕ → Segment → Segment → TravState → TravState
  | 0, _, _, st => { st with ok := false }
  | fuel + 1, current, previous, st =>
    if (current.2, current.1) ∈ st.stack then st
    else if current ∈ st.stack then
      { st with
        paths := insertPath st.paths (Polygon.fromVertices
          ((st.stack.drop (segIndexIn current st.stack)).map (·.1))) }
    else
      let st1 :=
        if st.stack.isEmpty then { st with ok := st.ok && (electG g crit lt previous current).2 }
        else
          { st with
            stack := st.stack ++ [current]
            ok := st.ok && (electG g crit lt previous current).2 }
      let st2 :=
        match (electG g crit lt previous current).1 with
        | none => st1
        | some nxt => traverseRec g crit lt fuel nxt current st1
      { st2 with stack := st2.stack.dropLast }

/-- Every segment mentioned by the graph (sources and successors), without
duplicates; its cardinality bounds the recursion stack. -/
def segUniverse (g : SegAdj) : List Segment :=
  (g.map (·.1) ++ (g.map (·.2)).flatten).dedup

/-- Fuel that is always sufficient for `traverseRec` on `g`. -/
def fuelOf (g : SegAdj) : ℕ := (segUniverse g).length + 1

/-- Processing of one source segment in the outer loop of
src/graph.rs `SegmentGraph::segment` (lines 56-104): push the source, run a
traversal from every successor under the first criterion, then one from every
successor under the second criterion, then pop the source. -/
def segmentSource (g : SegAdj) (fuel : ℕ) (st : TravState) (e : Segment × List Segment) :
    TravState :=
  let st0 := { st with stack := st.stack ++ [e.1] }
  let st1 := e.2.foldl (fun s succ => traverseRec g crit1 crit1Lt fuel succ e.1 s) st0
  let st2 := e.2.foldl (fun s succ => traverseRec g crit2 crit2Lt fuel succ e.1 s) st1
  { st2 with stack := st2.stack.dropLast }

/-- The full composite traversal (src/graph.rs `SegmentGraph::segment`). -/
def segmentTraversal (g : SegAdj) : TravState :=
  g.foldl (segmentSource g (fuelOf g)) ⟨[], [], true⟩

/-- Traversal state of the alternative driver in src/traversal.rs: as
`TravState` plus the memoisation caches of the two
`GreedyElectionStrategy` values (keyed by `(previous, current)`). -/
structure TravStateC where
  stack : List Segment
  paths : List Polygon
  cache1 : List ((Segment × Segment) × Option Segment)
  cache2 : List ((Segment × Segment) × Option Segment)
  ok : Bool

/-- Uncached successor election under the first policy
(src/traversal.rs `GreedyElectionStrategy::elect`, cache miss path): look the
current segment up in the graph (a missing entry is the source's panicking
index, reported in the second component) and take the criterion-minimal
successor. -/
def electPure1 (g : SegAdj) (previous current : Segment) : Option Segment × Bool :=
  match alookup g current with
  | none => (none, false)
  | some succs => (minByFirst crit1Lt (crit1 previous current) succs, true)

/-- Uncached successor election under the second policy. -/
def electPure2 (g : SegAdj) (previous current : Segment) : Option Segment × Bool :=
  match alookup g current with
  | none => (none, false)
  | some succs => (minByFirst crit2Lt (crit2 previous current) succs, true)

/-- Cached election under the first policy (src/traversal.rs lines 55-65):
`cache.entry((previous, current)).or_insert_with(compute)`. -/
def electCached1 (g : SegAdj) (previous current : Segment) (st : TravStateC) :
    Option Segment × TravStateC :=
  match alookup st.cache1 (previous, current) with
  | some v => (v, st)
  | none =>
      let r := electPure1 g previous current
      (r.1, { st with cache1 := st.cache1 ++ [((previous, current), r.1)], ok := st.ok && r.2 })

/-- Cached election under the second policy. -/
def electCached2 (g : SegAdj) (previous current : Segment) (st : TravStateC) :
    Option Segment × TravStateC :=
  match alookup st.cache2 (previous, current) with
  | some v => (v, st)
  | none =>
      let r := electPure2 g previous current
      (r.1, { st with cache2 := st.cache2 ++ [((previous, current), r.1)], ok := st.ok && r.2 })

/-- The recursive traversal of src/traversal.rs (`Traversal::traverse`),
identical in shape to `traverseRec` but electing through the memoising
strategy selected by `strat` (`true` selects the theta-first policy). -/
def traverseC (g : SegAdj) (strat : Bool) : ℕ → Segment → Segment → TravStateC → TravStateC
  | 0, _, _, st => { st with ok := false }
  | fuel + 1, current, previous, st =>
    if (current.2, current.1) ∈ st.stack then st
    else if current ∈ st.stack then
      { st with
        paths := insertPath st.paths (Polygon.fromVertices
          ((st.stack.drop (segIndexIn current st.stack)).map (·.1))) }
    else
      let st1 := if st.stack.isEmpty then st else { st with stack := st.stack ++ [current] }
      let er := if strat then electCached1 g previous current st1 else electCached2 g previous current st1
      let st2 :=
        match er.1 with
        | none => er.2
        | some nxt => traverseC g strat fuel nxt current er.2
      { st2 with stack := st2.stack.dropLast }

/-- Processing of one source in src/traversal.rs `Traversal::run` (lines
96-120): push the source and, for every successor, run the traversal with each
strategy in order (theta-first, then coplanarity-first), then pop the source. -/
def runSource (g : SegAdj) (fuel : ℕ) (st : TravStateC) (e : Segment × List Segment) :
    TravStateC :=
  let st0 := { st with stack := st.stack ++ [e.1] }
  let st1 := e.2.foldl
    (fun s succ => traverseC g false fuel succ e.1 (traverseC g true fuel succ e.1 s)) st0
  { st1 with stack := st1.stack.dropLast }

/-- The alternative driver (src/traversal.rs `traverse`): the whole-graph run
with the two memoising greedy strategies. -/
def runTraversal (g : SegAdj) : TravStateC :=
  g.foldl (runSource g (fuelOf g)) ⟨[], [], [], [], true⟩

/-- Depth-first component exploration (src/pipeline.rs
`PartitionPipeline::explore`): mark the point as explored, add it to the
partition, and recurse on all its neighbours.  Fuel bounds the recursion
depth; `adj.length + 1` suffices on the program's (symmetric, closed) graphs. -/
def exploreRec (adj : AdjP) : ℕ → Point → List Point × List Point → List Point × List Point
  | 0, _, st => st
  | fuel + 1, point, st =>
    if point ∈ st.1 then st
    else
      ((alookup adj point).getD []).foldl (fun s q => exploreRec adj fuel q s)
        (st.1 ++ [point], st.2 ++ [point])

/-- The connected components discovered by iterating the keys of the point
graph (src/pipeline.rs `PartitionPipeline::apply`, lines 170-184): every not
yet explored key seeds a new partition. -/
def partitionsOf (adj : AdjP) : List (List Point) :=
  (adj.foldl
      (fun st e =>
        if e.1 ∈ st.1 then st
        else
          let r := exploreRec adj (adj.length + 1) e.1 (st.1, [])
          (r.1, st.2 ++ [r.2]))
      (([] : List Point), ([] : List (List Point)))).2

/-- The library entry point (src/lib.rs `polygonalize`): sequentially, build
the segment graph of the whole pruned point graph, traverse it and filter; in
parallel mode, do the same per connected component and concatenate (the
parallel scheduler's output order is modelled as component discovery order). -/
def polygonalize (segments : List Segment) (parallelize : Bool)
    (minimumAreaProjected : ℚ) : List Polygon :=
  if parallelize then
    let adj := pipelineFrom segments
    ((partitionsOf adj).map fun partition =>
        filterPolygons
          (segmentTraversal (buildSegmentGraphFromAdjacencyListOfPoints (some partition) adj)).paths
          minimumAreaProjected).flatten
  else
    filterPolygons
      (segmentTraversal (buildSegmentGraphFromAdjacencyListOfPoints none (pipelineFrom segments))).paths
      minimumAreaProjected

/-!
Concrete fixtures used by counterexamples and witnesses.
-/

/-- A flat triangle in the z = 0 plane with small in-plane area. -/
def flatTriangleXY : Polygon := Polygon.fromVertices [⟨0, 0, 0⟩, ⟨4, 0, 0⟩, ⟨0, 4, 0⟩]

/-- A steeply tilted triangle sharing the side from the origin to `(4,0,0)`
with `flatTriangleXY`; its xy footprint lies inside that triangle while its
in-plane 3D area is much larger. -/
def steepTriangle : Polygon := Polygon.fromVertices [⟨0, 0, 0⟩, ⟨4, 0, 0⟩, ⟨2, 1, 100⟩]

/-- Two triangles sharing only the origin vertex, with both lobes tilted so
that each lobe's in-plane area exceeds the area of the outer figure-eight
cycle. -/
def bowtieSegments : List Segment :=
  [ (⟨0, 0, 0⟩, ⟨-1, 1, 10⟩), (⟨-1, 1, 10⟩, ⟨-1, -1, 10⟩), (⟨-1, -1, 10⟩, ⟨0, 0, 0⟩),
    (⟨0, 0, 0⟩, ⟨1, 1, 10⟩), (⟨1, 1, 10⟩, ⟨1, -1, 10⟩), (⟨1, -1, 10⟩, ⟨0, 0, 0⟩) ]

/-!
Membership lemmas for the filter pipeline.
-/

/-- Membership after a stable area insertion. -/
theorem mem_insertByArea {x p : Polygon} {l : List Polygon} :
    x ∈ insertByArea p l ↔ x = p ∨ x ∈ l := by
  induction l with
  | nil => simp [insertByArea]
  | cons q t ih =>
      by_cases h : p.areaKey ≤ q.areaKey
      · simp [insertByArea, h]
      · simp only [insertByArea, if_neg h, List.mem_cons, ih]
        tauto

/-- Sorting by area preserves membership. -/
theorem mem_sortByArea {x : Polygon} {l : List Polygon} :
    x ∈ sortByArea l ↔ x ∈ l := by
  induction l with
  | nil => simp [sortByArea]
  | cons p t ih =>
      simp only [sortByArea, mem_insertByArea, List.mem_cons, ih]

/-- The greedy selection only returns polygons of its input (stated for an
arbitrary accumulator of the fold). -/
theorem mem_selectFold {x : Polygon} (l acc : List Polygon)
    (h : x ∈ l.foldl
        (fun acc p =>
          if acc.any (fun q => p.contains q && p.sharesSidesWith q) then acc else acc ++ [p])
        acc) :
    x ∈ acc ∨ x ∈ l := by
  induction l generalizing acc with
  | nil => exact Or.inl h
  | cons p t ih =>
      simp only [List.foldl_cons] at h
      rcases ih _ h with hacc | ht
      · by_cases hb : acc.any (fun q => p.contains q && p.sharesSidesWith q) = true
        · rw [if_pos hb] at hacc
          exact Or.inl hacc
        · rw [if_neg hb] at hacc
          rcases List.mem_append.mp hacc with h1 | h2
          · exact Or.inl h1
          · simp only [List.mem_singleton] at h2
            exact Or.inr (by simp [h2])
      · exact Or.inr (by simp [ht])

/-- The selection pass is a sublist-style restriction: outputs come from the
sorted input. -/
theorem mem_selectPolygons {x : Polygon} {l : List Polygon} (h : x ∈ selectPolygons l) :
    x ∈ l := by
  rcases mem_selectFold l [] h with h0 | h1
  · simp at h0
  · exact h1

/-- C4: every polygon in the output of `filter` satisfies
`area_projected() >= A_min`; polygons below the threshold are absent because
the first pass of `filter` removes them and the later passes only permute and
drop (src/polygon.rs lines 196-199). -/
theorem filter_output_meets_minimum_area (polygons : List Polygon) (amin : ℚ)
    (P : Polygon) (h : P ∈ filterPolygons polygons amin) : amin ≤ P.areaProjected := by
  have h1 : P ∈ sortByArea (polygons.filter fun p => decide (amin ≤ p.areaProjected)) :=
    mem_selectPolygons h
  have h2 : P ∈ polygons.filter fun p => decide (amin ≤ p.areaProjected) :=
    mem_sortByArea.mp h1
  have h3 := (List.mem_filter.mp h2).2
  exact of_decide_eq_true h3

/-- Witness for C4 at a concrete input: the flat triangle passes the filter on
its own and indeed meets the threshold. -/
theorem filter_output_meets_minimum_area_witness :
    flatTriangleXY ∈ filterPolygons [flatTriangleXY] 0 ∧
      (0 : ℚ) ≤ flatTriangleXY.areaProjected := by
  refine ⟨by with_unfolding_all decide, ?_⟩
  exact filter_output_meets_minimum_area [flatTriangleXY] 0 flatTriangleXY
    (by with_unfolding_all decide)

/-- C3 counterexample: the claim quantifies over every ordered pair of distinct
output polygons, but the selection only ever checks a candidate against the
polygons accepted before it (sorted by 3D in-plane area).  The steep triangle
has the larger in-plane area, so the flat triangle is accepted first; the steep
triangle does not contain the flat one and is also accepted — yet the flat
triangle contains the steep one's xy footprint and shares a side with it. -/
theorem filter_dominating_pair_in_output :
    flatTriangleXY ∈ filterPolygons [flatTriangleXY, steepTriangle] 0 ∧
      steepTriangle ∈ filterPolygons [flatTriangleXY, steepTriangle] 0 ∧
      polyEqB flatTriangleXY steepTriangle = false ∧
      flatTriangleXY.contains steepTriangle = true ∧
      flatTriangleXY.sharesSidesWith steepTriangle = true := by
  with_unfolding_all decide

/-- C3 amended: for every accepted polygon `P` and every polygon `Q` accepted
before it, it is not the case that `P.contains(Q)` and `P.shares_sides_with(Q)`
both hold (src/polygon.rs lines 205-215: each candidate is checked against all
previously accepted polygons). -/
theorem filter_no_late_dominator (polygons : List Polygon) (amin : ℚ) :
    List.Pairwise (fun q p => ¬(p.contains q = true ∧ p.sharesSidesWith q = true))
      (filterPolygons polygons amin) := by
  have main : ∀ (l acc : List Polygon),
      List.Pairwise (fun q p => ¬(p.contains q = true ∧ p.sharesSidesWith q = true)) acc →
      List.Pairwise (fun q p => ¬(p.contains q = true ∧ p.sharesSidesWith q = true))
        (l.foldl
          (fun acc p =>
            if acc.any (fun q => p.contains q && p.sharesSidesWith q) then acc else acc ++ [p])
          acc) := by
    intro l
    induction l with
    | nil => intro acc hacc; exact hacc
    | cons p t ih =>
        intro acc hacc
        simp only [List.foldl_cons]
        by_cases hb : acc.any (fun q => p.contains q && p.sharesSidesWith q) = true
        · rw [if_pos hb]
          exact ih acc hacc
        · rw [if_neg hb]
          refine ih _ ?_
          rw [List.pairwise_append]
          refine ⟨hacc, by simp, ?_⟩
          intro q hq b hb'
          simp only [List.mem_singleton] at hb'
          subst hb'
          have hany : acc.any (fun q => b.contains q && b.sharesSidesWith q) = false :=
            Bool.not_eq_true _ |>.mp hb
          have hfalse : (b.contains q && b.sharesSidesWith q) = false := by
            rcases List.any_eq_false.mp hany q hq with h
            simpa using h
          intro hcontra
          rcases hcontra with ⟨h1, h2⟩
          rw [h1, h2] at hfalse
          simp at hfalse
  exact main _ [] (by simp)

/-!
Order lemmas for the lexicographic point order, and canonicity of the sorted
vertex-set representation (the model of `BTreeSet<Point>`).
-/

/-- Characterisation of the boolean lexicographic order. -/
theorem Point.ltB_iff (p q : Point) :
    Point.ltB p q = true ↔
      (p.x < q.x ∨ (p.x = q.x ∧ (p.y < q.y ∨ (p.y = q.y ∧ p.z < q.z)))) := by
  unfold Point.ltB
  split_ifs with h1 h2 h3 h4 h5
  · simpa using Or.inl h1
  · simp only [Bool.false_eq_true, false_iff]
    rintro (hx | ⟨hx, _⟩)
    · exact absurd hx h1
    · exact absurd hx (by rw [hx] at h2; exact absurd h2 (lt_irrefl q.x) : False).elim
  · have hx : p.x = q.x := le_antisymm (not_lt.mp h2) (not_lt.mp h1)
    simp [hx, h3]
  · have hx : p.x = q.x := le_antisymm (not_lt.mp h2) (not_lt.mp h1)
    simp only [Bool.false_eq_true, false_iff]
    rintro (hlt | ⟨_, hy | ⟨hy, _⟩⟩)
    · exact absurd hlt (by simp [hx])
    · exact absurd hy h3
    · exact absurd hy (by rw [hy] at h4; exact absurd h4 (lt_irrefl q.y) : False).elim
  · have hx : p.x = q.x := le_antisymm (not_lt.mp h2) (not_lt.mp h1)
    have hy : p.y = q.y := le_antisymm (not_lt.mp h4) (not_lt.mp h3)
    simp [hx, hy, h5]
  · have hx : p.x = q.x := le_antisymm (not_lt.mp h2) (not_lt.mp h1)
    have hy : p.y = q.y := le_antisymm (not_lt.mp h4) (not_lt.mp h3)
    simp [hx, hy, h5]

/-- The lexicographic order is irreflexive. -/
theorem Point.ltB_irrefl (p : Point) : Point.ltB p p = false := by
  rw [Bool.eq_false_iff]
  intro h
  rcases (Point.ltB_iff p p).mp h with hx | ⟨_, hy | ⟨_, hz⟩⟩
  · exact lt_irrefl _ hx
  · exact lt_irrefl _ hy
  · exact lt_irrefl _ hz

/-- The lexicographic order is asymmetric. -/
theorem Point.ltB_asymm {p q : Point} (h : Point.ltB p q = true) : Point.ltB q p = false := by
  rw [Bool.eq_false_iff]
  intro h'
  rcases (Point.ltB_iff p q).mp h with hx | ⟨hx, hy | ⟨hy, hz⟩⟩ <;>
    rcases (Point.ltB_iff q p).mp h' with hx' | ⟨hx', hy' | ⟨hy', hz'⟩⟩ <;>
      linarith

/-- The lexicographic order is transitive. -/
theorem Point.ltB_trans {p q r : Point} (h1 : Point.ltB p q = true)
    (h2 : Point.ltB q r = true) : Point.ltB p r = true := by
  rw [Point.ltB_iff] at h1 h2 ⊢
  rcases h1 with hx | ⟨hx, hrest⟩
  · rcases h2 with hx' | ⟨hx', _⟩
    · exact Or.inl (hx.trans hx')
    · exact Or.inl (hx' ▸ hx)
  · rcases h2 with hx' | ⟨hx', hrest'⟩
    · exact Or.inl (hx ▸ hx')
    · refine Or.inr ⟨hx.trans hx', ?_⟩
      rcases hrest with hy | ⟨hy, hz⟩
      · rcases hrest' with hy' | ⟨hy', _⟩
        · exact Or.inl (hy.trans hy')
        · exact Or.inl (hy' ▸ hy)
      · rcases hrest' with hy' | ⟨hy', hz'⟩
        · exact Or.inl (hy ▸ hy')
        · exact Or.inr ⟨hy.trans hy', hz.trans hz'⟩

/-- Two points unrelated in either direction are equal (the order is total). -/
theorem Point.eq_of_not_ltB {p q : Point} (h1 : Point.ltB p q = false)
    (h2 : Point.ltB q p = false) : p = q := by
  have h1' : ¬(p.x < q.x ∨ (p.x = q.x ∧ (p.y < q.y ∨ (p.y = q.y ∧ p.z < q.z)))) := by
    intro hcon
    have := (Point.ltB_iff p q).mpr hcon
    rw [h1] at this
    exact Bool.false_ne_true this
  have h2' : ¬(q.x < p.x ∨ (q.x = p.x ∧ (q.y < p.y ∨ (q.y = p.y ∧ q.z < p.z)))) := by
    intro hcon
    have := (Point.ltB_iff q p).mpr hcon
    rw [h2] at this
    exact Bool.false_ne_true this
  have hx : p.x = q.x := by
    rcases lt_trichotomy p.x q.x with h | h | h
    · exact absurd (Or.inl h) h1'
    · exact h
    · exact absurd (Or.inl h) h2'
  have hy : p.y = q.y := by
    rcases lt_trichotomy p.y q.y with h | h | h
    · exact absurd (Or.inr ⟨hx, Or.inl h⟩) h1'
    · exact h
    · exact absurd (Or.inr ⟨hx.symm, Or.inl h⟩) h2'
  have hz : p.z = q.z := by
    rcases lt_trichotomy p.z q.z with h | h | h
    · exact absurd (Or.inr ⟨hx, Or.inr ⟨hy, h⟩⟩) h1'
    · exact h
    · exact absurd (Or.inr ⟨hx.symm, Or.inr ⟨hy.symm, h⟩⟩) h2'
  cases p; cases q
  simp_all

/-- Strict sortedness in the lexicographic order. -/
def PtSorted (l : List Point) : Prop := List.Pairwise (fun a b => Point.ltB a b = true) l

/-- Membership through a sorted insertion. -/
theorem mem_insertSortedPoint {x p : Point} {l : List Point} :
    x ∈ insertSortedPoint p l ↔ x = p ∨ x ∈ l := by
  induction l with
  | nil => simp [insertSortedPoint]
  | cons q t ih =>
      by_cases h1 : Point.ltB p q = true
      · simp [insertSortedPoint, h1]
      · by_cases h2 : p = q
        · subst h2
          have hred : insertSortedPoint p (p :: t) = p :: t := by
            simp [insertSortedPoint, h1]
          rw [hred]
          simp only [List.mem_cons]
          tauto
        · simp only [insertSortedPoint, if_neg h1, if_neg h2, List.mem_cons, ih]
          tauto

/-- Sorted insertion preserves strict sortedness. -/
theorem ptSorted_insertSortedPoint {p : Point} {l : List Point} (h : PtSorted l) :
    PtSorted (insertSortedPoint p l) := by
  induction l with
  | nil => simp [insertSortedPoint, PtSorted]
  | cons q t ih =>
      rcases (List.pairwise_cons.mp h) with ⟨hq, ht⟩
      by_cases h1 : Point.ltB p q = true
      · have hred : insertSortedPoint p (q :: t) = p :: q :: t := by
          simp [insertSortedPoint, h1]
        rw [PtSorted, hred]
        refine List.pairwise_cons.mpr ⟨?_, h⟩
        intro b hb
        rcases List.mem_cons.mp hb with rfl | hbt
        · exact h1
        · exact Point.ltB_trans h1 (hq b hbt)
      · by_cases h2 : p = q
        · subst h2
          have hred : insertSortedPoint p (p :: t) = p :: t := by
            simp [insertSortedPoint, h1]
          rw [PtSorted, hred]
          exact h
        · simp only [insertSortedPoint, if_neg h1, if_neg h2]
          refine List.pairwise_cons.mpr ⟨?_, ih ht⟩
          intro b hb
          rcases mem_insertSortedPoint.mp hb with rfl | hbt
          · have hqp : Point.ltB q b = true := by
              cases hv : Point.ltB q b
              · exact absurd (Point.eq_of_not_ltB (Bool.eq_false_iff.mpr h1) hv) h2
              · rfl
            exact hqp
          · exact hq b hbt

/-- The collected vertex set is sorted. -/
theorem ptSorted_btreeOfList (l : List Point) : PtSorted (btreeOfList l) := by
  have main : ∀ (l acc : List Point), PtSorted acc → PtSorted (l.foldl (fun acc p => insertSortedPoint p acc) acc) := by
    intro l
    induction l with
    | nil => intro acc h; exact h
    | cons p t ih =>
        intro acc h
        exact ih _ (ptSorted_insertSortedPoint h)
  exact main l [] (by simp [PtSorted])

/-- The collected vertex set has the same members as the input list. -/
theorem mem_btreeOfList {x : Point} {l : List Point} :
    x ∈ btreeOfList l ↔ x ∈ l := by
  have main : ∀ (l acc : List Point),
      (x ∈ l.foldl (fun acc p => insertSortedPoint p acc) acc ↔ x ∈ acc ∨ x ∈ l) := by
    intro l
    induction l with
    | nil => intro acc; simp
    | cons p t ih =>
        intro acc
        simp only [List.foldl_cons, ih, mem_insertSortedPoint, List.mem_cons]
        tauto
  simpa using main l []

/-- Two strictly sorted lists with the same members are equal. -/
theorem ptSorted_eq_of_mem_iff : ∀ {l₁ l₂ : List Point}, PtSorted l₁ → PtSorted l₂ →
    (∀ x, x ∈ l₁ ↔ x ∈ l₂) → l₁ = l₂ := by
  intro l₁
  induction l₁ with
  | nil =>
      intro l₂ _ _ hmem
      cases l₂ with
      | nil => rfl
      | cons b t₂ => exact absurd ((hmem b).mpr (by simp)) (by simp)
  | cons a t ih =>
      intro l₂ h₁ h₂ hmem
      cases l₂ with
      | nil => exact absurd ((hmem a).mp (by simp)) (by simp)
      | cons b t₂ =>
          rcases List.pairwise_cons.mp h₁ with ⟨ha, ht⟩
          rcases List.pairwise_cons.mp h₂ with ⟨hb, ht₂⟩
          have hab : a = b := by
            rcases List.mem_cons.mp ((hmem a).mp (by simp)) with h | h
            · exact h
            · rcases List.mem_cons.mp ((hmem b).mpr (by simp)) with h' | h'
              · exact h'.symm
              · have h1 := hb a h
                have h2 := ha b h'
                exact absurd h1 (by simp [Point.ltB_asymm h2])
          subst hab
          have hmem' : ∀ x, x ∈ t ↔ x ∈ t₂ := by
            intro x
            constructor
            · intro hx
              rcases List.mem_cons.mp ((hmem x).mp (by simp [hx])) with rfl | h
              · exact absurd (ha x hx) (by simp [Point.ltB_irrefl])
              · exact h
            · intro hx
              rcases List.mem_cons.mp ((hmem x).mpr (by simp [hx])) with rfl | h
              · exact absurd (hb x hx) (by simp [Point.ltB_irrefl])
              · exact h
          rw [ih ht ht₂ hmem']

/-- The vertex set of a constructed polygon has exactly the members of the
input vertex list. -/
theorem mem_fromVertices_set {x : Point} {vertices : List Point} :
    x ∈ (Polygon.fromVertices vertices).set ↔ x ∈ vertices := by
  unfold Polygon.fromVertices
  cases hv : vertices with
  | nil => simp [btreeOfList]
  | cons a t =>
      simp only [List.head?_cons]
      by_cases hneg : (normalV ((a :: t) ++ [a])).z < 0
      · simp only [if_pos hneg, mem_btreeOfList, List.mem_reverse, List.mem_append,
          List.mem_singleton]
        constructor
        · rintro (h | rfl)
          · exact h
          · simp
        · intro h; exact Or.inl h
      · simp only [if_neg hneg, mem_btreeOfList, List.mem_append, List.mem_singleton]
        constructor
        · rintro (h | rfl)
          · exact h
          · simp
        · intro h; exact Or.inl h

/-- The vertex set of a constructed polygon is sorted. -/
theorem ptSorted_fromVertices_set (vertices : List Point) :
    PtSorted (Polygon.fromVertices vertices).set := by
  unfold Polygon.fromVertices
  cases vertices with
  | nil => by_cases h : (normalV ([] : List Point)).z < 0 <;> simp [h, ptSorted_btreeOfList]
  | cons a t =>
      simp only [List.head?_cons]
      by_cases h : (normalV ((a :: t) ++ [a])).z < 0 <;> simp [h, ptSorted_btreeOfList]

/-- C7: for a non-empty vertex list `V` and any rotation `V.rotate n` or its
reversal, the constructed polygons are equal under the program's equality
(`impl PartialEq for Polygon` compares the vertex sets only, src/polygon.rs
lines 148-153), they feed identical point streams to any hasher (the hash
iterates the sorted set, src/polygon.rs lines 157-162), and polygon equality
depends only on the vertex set. -/
theorem polygon_eq_rotation_reversal (V : List Point) (n : ℕ) (_hV : V ≠ []) :
    polyEqB (Polygon.fromVertices V) (Polygon.fromVertices (V.rotate n)) = true ∧
      polyEqB (Polygon.fromVertices V) (Polygon.fromVertices (V.rotate n).reverse) = true ∧
      (∀ h : Point → ℕ,
        (Polygon.fromVertices V).set.map h =
          (Polygon.fromVertices (V.rotate n)).set.map h ∧
        (Polygon.fromVertices V).set.map h =
          (Polygon.fromVertices (V.rotate n).reverse).set.map h) ∧
      (∀ P Q : Polygon, polyEqB P Q = true ↔ P.set = Q.set) := by
  have hrot : ∀ x, x ∈ V.rotate n ↔ x ∈ V := fun x => (List.rotate_perm V n).mem_iff
  have hset1 : (Polygon.fromVertices V).set = (Polygon.fromVertices (V.rotate n)).set := by
    refine ptSorted_eq_of_mem_iff (ptSorted_fromVertices_set V)
      (ptSorted_fromVertices_set (V.rotate n)) ?_
    intro x
    rw [mem_fromVertices_set, mem_fromVertices_set, hrot]
  have hset2 : (Polygon.fromVertices V).set = (Polygon.fromVertices (V.rotate n).reverse).set := by
    refine ptSorted_eq_of_mem_iff (ptSorted_fromVertices_set V)
      (ptSorted_fromVertices_set (V.rotate n).reverse) ?_
    intro x
    rw [mem_fromVertices_set, mem_fromVertices_set, List.mem_reverse, hrot]
  refine ⟨by simp [polyEqB, hset1], by simp [polyEqB, hset2], ?_, ?_⟩
  · intro h
    exact ⟨by rw [hset1], by rw [hset2]⟩
  · intro P Q
    simp [polyEqB]

/-- Witness for C7 at a concrete non-empty list and rotation amount. -/
theorem polygon_eq_rotation_reversal_witness :
    ([(⟨0, 0, 0⟩ : Point), ⟨4, 0, 0⟩, ⟨0, 4, 0⟩] ≠ []) ∧
      polyEqB (Polygon.fromVertices [⟨0, 0, 0⟩, ⟨4, 0, 0⟩, ⟨0, 4, 0⟩])
        (Polygon.fromVertices ([(⟨0, 0, 0⟩ : Point), ⟨4, 0, 0⟩, ⟨0, 4, 0⟩].rotate 1)) = true := by
  refine ⟨by simp, ?_⟩
  exact (polygon_eq_rotation_reversal [⟨0, 0, 0⟩, ⟨4, 0, 0⟩, ⟨0, 4, 0⟩] 1 (by simp)).1

/-!
Zero-length segments (claim C8).
-/

/-- The `atan2` convention at the origin. -/
theorem atan2_zero_zero : atan2 0 0 = 0 := by
  simp [atan2]

/-- C8: a segment of zero length (idealised: zero squared norm, the exact
reading of the source's `norm <= f64::EPSILON` test) normalises to the zero
vector, and `theta` of any segment pair in which at least one side has zero
length is exactly `pi`, because both `atan2` arguments vanish and
`atan2 0 0 = 0` (src/plane.rs `Vector::normalize` lines 50-63 and
`Vector::theta` lines 107-110). -/
theorem zero_length_theta_pi (a b : Segment)
    (h : (Vector.between a).normSq = 0 ∨ (Vector.between b).normSq = 0) :
    ((Vector.between a).normSq = 0 → unitOfSegment a = RVector.zero) ∧
      ((Vector.between b).normSq = 0 → unitOfSegment b = RVector.zero) ∧
      theta a b = Real.pi := by
  refine ⟨?_, ?_, ?_⟩
  · intro ha
    simp [unitOfSegment, Vector.normalize, ha]
  · intro hb
    simp [unitOfSegment, Vector.normalize, hb]
  · rcases h with ha | hb
    · have hu : unitOfSegment a = RVector.zero := by
        simp [unitOfSegment, Vector.normalize, ha]
      rw [theta, hu]
      simp [RVector.theta, RVector.zero, atan2_zero_zero]
    · have hv : unitOfSegment b = RVector.zero := by
        simp [unitOfSegment, Vector.normalize, hb]
      rw [theta, hv]
      simp [RVector.theta, RVector.zero, atan2_zero_zero]

/-- Witness for C8: a degenerate segment at the origin against a unit segment. -/
theorem zero_length_theta_pi_witness :
    ((Vector.between ((⟨0, 0, 0⟩ : Point), (⟨0, 0, 0⟩ : Point))).normSq = 0 ∨
        (Vector.between ((⟨0, 0, 0⟩ : Point), (⟨1, 0, 0⟩ : Point))).normSq = 0) ∧
      theta ((⟨0, 0, 0⟩ : Point), (⟨0, 0, 0⟩ : Point))
          ((⟨0, 0, 0⟩ : Point), (⟨1, 0, 0⟩ : Point)) = Real.pi := by
  have h : (Vector.between ((⟨0, 0, 0⟩ : Point), (⟨0, 0, 0⟩ : Point))).normSq = 0 ∨
      (Vector.between ((⟨0, 0, 0⟩ : Point), (⟨1, 0, 0⟩ : Point))).normSq = 0 := by
    left
    norm_num [Vector.between, Vector.normSq]
  exact ⟨h, (zero_length_theta_pi _ _ h).2.2⟩

/-!
The segment-graph construction invariant (claim C6).
-/

/-- Lookup through `aupdate`. -/
theorem alookup_aupdate {κ ν : Type} [DecidableEq κ] (m : List (κ × ν)) (k k' : κ)
    (f : ν → ν) (d : ν) :
    alookup (aupdate m k f d) k' =
      if k' = k then
        some (match alookup m k with | some v => f v | none => d)
      else alookup m k' := by
  induction m with
  | nil =>
      by_cases h : k' = k <;> simp [aupdate, alookup, h]
  | cons e t ih =>
      by_cases hke : k = e.1
      · by_cases hk' : k' = e.1
        · have h1 : k' = k := hk'.trans hke.symm
          simp [aupdate, alookup, hke, hk', h1]
        · have h1 : ¬(k' = k) := fun hc => hk' (hc.trans hke)
          simp [aupdate, alookup, hke, hk', h1]
      · by_cases hk' : k' = e.1
        · have h1 : ¬(k' = k) := fun hc => hke (hc.symm.trans hk')
          simp [aupdate, alookup, hke, hk', h1, Ne.symm hke]
        · by_cases hkk : k' = k
          · subst hkk
            simp [aupdate, alookup, hke, hk', ih, Ne.symm hke]
          · simp [aupdate, alookup, hke, hk', hkk, ih]

/-- Membership through a successor insertion. -/
theorem mem_insertSegSucc {x t : Segment} {l : List Segment} :
    x ∈ insertSegSucc t l ↔ x = t ∨ x ∈ l := by
  by_cases h : t ∈ l
  · simp only [insertSegSucc, if_pos h]
    constructor
    · exact fun hx => Or.inr hx
    · rintro (rfl | hx)
      · exact h
      · exact hx
  · simp only [insertSegSucc, if_neg h, List.mem_append, List.mem_singleton]
    tauto

/-- Every pair produced by `neighborPairs` has both components in the
neighbour list. -/
theorem mem_neighborPairs {ft : Point × Point} {ns : List Point}
    (h : ft ∈ neighborPairs ns) : ft.1 ∈ ns ∧ ft.2 ∈ ns := by
  have main : ∀ (l : List Point), (∀ x ∈ l, x ∈ ns) →
      ft ∈ l.foldr (fun x acc => (ns.map fun y => (x, y)) ++ acc) [] → ft.1 ∈ ns ∧ ft.2 ∈ ns := by
    intro l
    induction l with
    | nil => intro _ hm; simp at hm
    | cons x xs ih =>
        intro hsub hm
        simp only [List.foldr_cons, List.mem_append] at hm
        rcases hm with hm | hm
        · rcases List.mem_map.mp hm with ⟨y, hy, hfy⟩
          subst hfy
          exact ⟨hsub x (by simp), hy⟩
        · exact ih (fun z hz => hsub z (by simp [hz])) hm
  exact main ns (fun x hx => hx) h

/-- The edge property demanded of segment graphs built on top of the point
graph `adj`: every stored edge runs `(a,b) -> (b,c)` with `a ≠ c` and with both
undirected point edges present in `adj`. -/
def GoodSegGraph (adj : AdjP) (g : SegAdj) : Prop :=
  ∀ s t : Segment, t ∈ (alookup g s).getD [] →
    s.2 = t.1 ∧ s.1 ≠ t.2 ∧ ∃ ns, (s.2, ns) ∈ adj ∧ s.1 ∈ ns ∧ t.2 ∈ ns

/-- One pair insertion preserves the edge property, when the pair's components
are neighbours of the retained point `p`. -/
theorem goodSegGraph_pairStep {adj : AdjP} {g : SegAdj} {p : Point} {ns : List Point}
    (hmem : (p, ns) ∈ adj) (hg : GoodSegGraph adj g) (ft : Point × Point)
    (hft1 : ft.1 ∈ ns) (hft2 : ft.2 ∈ ns) :
    GoodSegGraph adj
      (if ft.1 = ft.2 then g
        else aupdate g (ft.1, p) (insertSegSucc (p, ft.2)) [(p, ft.2)]) := by
  by_cases heq : ft.1 = ft.2
  · simpa [heq] using hg
  · rw [if_neg heq]
    intro s t ht
    rw [alookup_aupdate] at ht
    by_cases hs : s = (ft.1, p)
    · rw [if_pos hs] at ht
      cases hl : alookup g (ft.1, p) with
      | none =>
          rw [hl] at ht
          simp only [Option.getD_some] at ht
          rcases List.mem_singleton.mp ht with rfl
          subst hs
          exact ⟨rfl, heq, ns, hmem, hft1, hft2⟩
      | some old =>
          rw [hl] at ht
          simp only [Option.getD_some] at ht
          rcases mem_insertSegSucc.mp ht with rfl | hold
          · subst hs
            exact ⟨rfl, heq, ns, hmem, hft1, hft2⟩
          · subst hs
            have := hg (ft.1, p) t (by rw [hl]; simpa using hold)
            exact this
    · rw [if_neg hs] at ht
      exact hg s t ht

/-- A whole entry's pair fold preserves the edge property. -/
theorem goodSegGraph_entryFold {adj : AdjP} {p : Point} {ns : List Point}
    (hmem : (p, ns) ∈ adj) :
    ∀ (ps : List (Point × Point)) (g : SegAdj), (∀ ft ∈ ps, ft.1 ∈ ns ∧ ft.2 ∈ ns) →
      GoodSegGraph adj g →
      GoodSegGraph adj
        (ps.foldl
          (fun g ft =>
            if ft.1 = ft.2 then g
            else aupdate g (ft.1, p) (insertSegSucc (p, ft.2)) [(p, ft.2)])
          g) := by
  intro ps
  induction ps with
  | nil => intro g _ hg; exact hg
  | cons ft rest ih =>
      intro g hps hg
      simp only [List.foldl_cons]
      refine ih _ (fun x hx => hps x (by simp [hx])) ?_
      exact goodSegGraph_pairStep hmem hg ft (hps ft (by simp)).1 (hps ft (by simp)).2

/-- Every built segment graph satisfies the edge property over its point
graph, for any optional retained point set. -/
theorem goodSegGraph_build (points : Option (List Point)) (adjacencies : AdjP) :
    GoodSegGraph adjacencies (buildSegmentGraphFromAdjacencyListOfPoints points adjacencies) := by
  have main : ∀ (entries : List (Point × List Point)) (g : SegAdj),
      (∀ e ∈ entries, e ∈ adjacencies) → GoodSegGraph adjacencies g →
      GoodSegGraph adjacencies
        (entries.foldl
          (fun graph e =>
            (neighborPairs e.2).foldl
              (fun g ft =>
                if ft.1 = ft.2 then g
                else aupdate g (ft.1, e.1) (insertSegSucc (e.1, ft.2)) [(e.1, ft.2)])
              graph)
          g) := by
    intro entries
    induction entries with
    | nil => intro g _ hg; exact hg
    | cons e rest ih =>
        intro g hsub hg
        simp only [List.foldl_cons]
        refine ih _ (fun x hx => hsub x (by simp [hx])) ?_
        exact goodSegGraph_entryFold (hsub e (by simp))
          (neighborPairs e.2) g (fun ft hft => mem_neighborPairs hft) hg
  have hbase : GoodSegGraph adjacencies ([] : SegAdj) := by
    intro s t ht
    simp [alookup] at ht
  have hfiltered : ∀ e ∈ (adjacencies.filter fun e =>
      match points with
      | none => true
      | some values => decide (e.1 ∈ values)), e ∈ adjacencies :=
    fun e he => List.mem_of_mem_filter he
  exact main _ [] hfiltered hbase

/-- C6: in every segment graph built by
`build_segment_graph_from_adjacency_list_of_points` (with or without a point
filter), every stored adjacency edge `(a,b) -> (b,c)` satisfies `a ≠ c`, and
both `a ∈ adj[b]` and `c ∈ adj[b]` hold in the originating point graph, so the
undirected edges `a-b` and `b-c` exist there (src/pipeline.rs lines 119-148:
edges are emitted as `(from, p) -> (p, to)` for distinct neighbours
`from, to` of the retained point `p`). -/
theorem segment_graph_edge_invariant (points : Option (List Point)) (adjacencies : AdjP)
    (s t : Segment)
    (h : t ∈ (alookup (buildSegmentGraphFromAdjacencyListOfPoints points adjacencies) s).getD []) :
    s.2 = t.1 ∧ s.1 ≠ t.2 ∧
      ∃ ns, (s.2, ns) ∈ adjacencies ∧ s.1 ∈ ns ∧ t.2 ∈ ns :=
  goodSegGraph_build points adjacencies s t h

/-!
Pruning invariants (claims C5 and C9).
-/

/-- Lookup through `amodify`. -/
theorem alookup_amodify {κ ν : Type} [DecidableEq κ] (m : List (κ × ν)) (k k' : κ)
    (f : ν → ν) :
    alookup (amodify m k f) k' =
      if k' = k then (alookup m k').map f else alookup m k' := by
  induction m with
  | nil => by_cases h : k' = k <;> simp [amodify, alookup, h]
  | cons e t ih =>
      by_cases he : e.1 = k
      · by_cases hk' : k' = e.1
        · have hkk : k' = k := hk'.trans he
          simp [amodify, alookup, he, hk', hkk]
        · have hkk : ¬(k' = k) := fun hc => hk' (hc.trans he.symm)
          simp only [amodify, List.map_cons, if_pos he, alookup, if_neg hk', if_neg hkk]
          have ih' := ih
          simp only [amodify] at ih'
          rw [ih', if_neg hkk]
      · by_cases hk' : k' = e.1
        · have hkk : ¬(k' = k) := fun hc => he (hk'.symm.trans hc)
          simp only [amodify, List.map_cons, if_neg he, alookup, if_pos hk', if_neg hkk]
        · simp only [amodify, List.map_cons, if_neg he, alookup, if_neg hk']
          have ih' := ih
          simp only [amodify] at ih'
          rw [ih']

/-- Lookup through `aerase`. -/
theorem alookup_aerase {κ ν : Type} [DecidableEq κ] (m : List (κ × ν)) (k k' : κ) :
    alookup (aerase m k) k' = if k' = k then none else alookup m k' := by
  induction m with
  | nil => by_cases h : k' = k <;> simp [aerase, alookup, h]
  | cons e t ih =>
      by_cases he : e.1 = k
      · have hdrop : aerase (e :: t) k = aerase t k := by
          simp [aerase, List.filter_cons, he]
        rw [hdrop, ih]
        by_cases hk' : k' = k
        · simp [hk']
        · have hk'e : ¬(k' = e.1) := fun hc => hk' (hc.trans he)
          simp [alookup, hk', hk'e]
      · have hkeep : aerase (e :: t) k = e :: aerase t k := by
          simp [aerase, List.filter_cons, he]
        rw [hkeep]
        by_cases hk' : k' = e.1
        · have hkk : ¬(k' = k) := fun hc => he (hk'.symm.trans hc)
          simp [alookup, hk', hkk, he]
        · simp only [alookup, if_neg hk']
          rw [ih]

/-- A successful lookup points at an entry of the list. -/
theorem mem_of_alookup {κ ν : Type} [DecidableEq κ] {m : List (κ × ν)} {k : κ} {v : ν}
    (h : alookup m k = some v) : (k, v) ∈ m := by
  induction m with
  | nil => simp [alookup] at h
  | cons e t ih =>
      by_cases hk : k = e.1
      · simp only [alookup, if_pos hk] at h
        have : (k, v) = e := by
          cases e
          simp only [Option.some.injEq] at h
          simp [hk, h]
        simp [this]
      · simp only [alookup, if_neg hk] at h
        exact List.mem_cons.mpr (Or.inr (ih h))

/-- Membership through a neighbour insertion. -/
theorem mem_insertNeighbor {x q : Point} {l : List Point} :
    x ∈ insertNeighbor q l ↔ x = q ∨ x ∈ l := by
  by_cases h : q ∈ l
  · simp only [insertNeighbor, if_pos h]
    constructor
    · exact fun hx => Or.inr hx
    · rintro (rfl | hx)
      · exact h
      · exact hx
  · simp only [insertNeighbor, if_neg h, List.mem_append, List.mem_singleton]
    tauto

/-- Neighbour insertion keeps the list duplicate free. -/
theorem nodup_insertNeighbor {q : Point} {l : List Point} (h : l.Nodup) :
    (insertNeighbor q l).Nodup := by
  by_cases hq : q ∈ l
  · simpa [insertNeighbor, hq] using h
  · simp only [insertNeighbor, if_neg hq]
    rw [List.nodup_append]
    refine ⟨h, by simp, ?_⟩
    intro x hx hxq
    rw [List.mem_singleton] at hxq
    exact hq (hxq ▸ hx)

/-- Removal keeps the list duplicate free. -/
theorem nodup_removeNeighbor {q : Point} {l : List Point} (h : l.Nodup) :
    (removeNeighbor q l).Nodup := List.Nodup.filter _ h

/-- Removal drops nothing but `q`. -/
theorem mem_removeNeighbor {x q : Point} {l : List Point} :
    x ∈ removeNeighbor q l ↔ x ∈ l ∧ x ≠ q := by
  simp [removeNeighbor]

/-- Removing one value from a duplicate-free list shortens it by at most one. -/
theorem removeNeighbor_length {q : Point} {l : List Point} (h : l.Nodup) :
    l.length ≤ (removeNeighbor q l).length + 1 := by
  induction l with
  | nil => simp [removeNeighbor]
  | cons a t ih =>
      rcases List.nodup_cons.mp h with ⟨ha, ht⟩
      by_cases haq : a = q
      · subst haq
        have h1 : removeNeighbor a (a :: t) = removeNeighbor a t := by
          simp [removeNeighbor]
        have h2 : removeNeighbor a t = t := by
          unfold removeNeighbor
          apply List.filter_eq_self.mpr
          intro x hx
          simp only [Bool.not_eq_true', decide_eq_false_iff_not]
          intro hxa
          exact ha (hxa ▸ hx)
        rw [h1, h2]
        simp
      · have h1 : removeNeighbor q (a :: t) = a :: removeNeighbor q t := by
          simp [removeNeighbor, haq]
        rw [h1]
        have := ih ht
        simpa using Nat.succ_le_succ this

/-- Removing a present value from a list strictly shortens it. -/
theorem removeNeighbor_length_lt {q : Point} {l : List Point} (h : q ∈ l) :
    (removeNeighbor q l).length < l.length := by
  induction l with
  | nil => simp at h
  | cons a t ih =>
      by_cases haq : a = q
      · subst haq
        have h1 : removeNeighbor a (a :: t) = removeNeighbor a t := by
          simp [removeNeighbor]
        rw [h1]
        exact lt_of_le_of_lt (List.length_filter_le _ _) (by simp)
      · have h1 : removeNeighbor q (a :: t) = a :: removeNeighbor q t := by
          simp [removeNeighbor, haq]
        rw [h1]
        have hqt : q ∈ t := by
          rcases List.mem_cons.mp h with h2 | h2
          · exact absurd h2.symm haq
          · exact h2
        simpa using Nat.succ_lt_succ (ih hqt)

/-- Distinctness of the keys of an association list (hash maps never hold a
key twice). -/
def NodupKeys {κ ν : Type} (m : List (κ × ν)) : Prop := (m.map (·.1)).Nodup

/-- Keys after an update. -/
theorem mem_keys_aupdate {κ ν : Type} [DecidableEq κ] (m : List (κ × ν)) (k x : κ)
    (f : ν → ν) (d : ν) :
    x ∈ (aupdate m k f d).map (·.1) ↔ x = k ∨ x ∈ m.map (·.1) := by
  induction m with
  | nil => simp [aupdate]
  | cons e t ih =>
      by_cases hke : k = e.1
      · simp only [aupdate, if_pos hke, List.map_cons, List.mem_cons]
        rw [hke]
        tauto
      · simp only [aupdate, if_neg hke, List.map_cons, List.mem_cons, ih]
        tauto

/-- Updates keep keys distinct. -/
theorem nodupKeys_aupdate {κ ν : Type} [DecidableEq κ] (m : List (κ × ν)) (k : κ)
    (f : ν → ν) (d : ν) (h : NodupKeys m) : NodupKeys (aupdate m k f d) := by
  induction m with
  | nil => simp [aupdate, NodupKeys]
  | cons e t ih =>
      rcases List.nodup_cons.mp h with ⟨hhead, htail⟩
      by_cases hke : k = e.1
      · unfold NodupKeys
        simp only [aupdate, if_pos hke, List.map_cons]
        exact List.nodup_cons.mpr ⟨hhead, htail⟩
      · unfold NodupKeys
        simp only [aupdate, if_neg hke, List.map_cons]
        refine List.nodup_cons.mpr ⟨?_, ih htail⟩
        rw [mem_keys_aupdate]
        rintro (h1 | h1)
        · exact hke h1.symm
        · exact hhead h1

/-- On distinct keys, list membership determines the lookup. -/
theorem alookup_of_mem_nodupKeys {κ ν : Type} [DecidableEq κ] {m : List (κ × ν)} {k : κ}
    {v : ν} (hnd : NodupKeys m) (hmem : (k, v) ∈ m) : alookup m k = some v := by
  induction m with
  | nil => simp at hmem
  | cons e t ih =>
      rcases List.nodup_cons.mp hnd with ⟨hhead, htail⟩
      rcases List.mem_cons.mp hmem with h1 | h1
      · rw [← h1]
        simp [alookup]
      · have hk : k ≠ e.1 := by
          intro hke
          exact hhead (List.mem_map.mpr ⟨(k, v), h1, by simpa using hke⟩)
        simp only [alookup, if_neg hk]
        exact ih htail h1

/-- Neighbour list of a point (empty for absent keys). -/
def nbrs (m : AdjP) (p : Point) : List Point := (alookup m p).getD []

/-- Symmetry of the point graph: the undirected edge is stored in both
directions. -/
def SymAdj (m : AdjP) : Prop := ∀ p q : Point, q ∈ nbrs m p → p ∈ nbrs m q

/-- All stored neighbour lists are duplicate free. -/
def NodupNbrs (m : AdjP) : Prop := ∀ p ns, alookup m p = some ns → ns.Nodup

/-- Every still-present point of degree at most 1 is scheduled in one of the
two leaf lists. -/
def SmallScheduled (m : AdjP) (rest upd : List Point) : Prop :=
  ∀ p ns, alookup m p = some ns → ns.length ≤ 1 → p ∈ rest ∨ p ∈ upd

/-- Every scheduled point that is still present has degree at most 1. -/
def SchedSmall (m : AdjP) (ls : List Point) : Prop :=
  ∀ l ∈ ls, ∀ ns, alookup m l = some ns → ns.length ≤ 1

/-- The keys are untouched by `amodify`. -/
theorem keys_amodify {κ ν : Type} [DecidableEq κ] (m : List (κ × ν)) (k : κ) (f : ν → ν) :
    (amodify m k f).map (·.1) = m.map (·.1) := by
  unfold amodify
  rw [List.map_map]
  apply List.map_congr_left
  intro e _
  by_cases he : e.1 = k <;> simp [he]

/-- The keys of `aerase` form a sublist of the original keys. -/
theorem nodupKeys_aerase {κ ν : Type} [DecidableEq κ] (m : List (κ × ν)) (k : κ)
    (h : NodupKeys m) : NodupKeys (aerase m k) := by
  unfold NodupKeys at h ⊢
  unfold aerase
  exact List.Nodup.sublist (List.Sublist.map _ (List.filter_sublist m)) h

/-- `amodify` keeps the keys distinct. -/
theorem nodupKeys_amodify {κ ν : Type} [DecidableEq κ] (m : List (κ × ν)) (k : κ)
    (f : ν → ν) (h : NodupKeys m) : NodupKeys (amodify m k f) := by
  unfold NodupKeys
  rw [keys_amodify]
  exact h

/-- The single-leaf pruning step preserves the whole pruning invariant. -/
theorem pruneStep_inv (m : AdjP) (upd : List Point) (l : Point) (rest : List Point)
    (hS : SymAdj m) (hN : NodupNbrs m) (hK : NodupKeys m)
    (hA : SmallScheduled m (l :: rest) upd)
    (hR : SchedSmall m (l :: rest)) (hU : SchedSmall m upd) :
    SymAdj (pruneStep (m, upd) l).1 ∧ NodupNbrs (pruneStep (m, upd) l).1 ∧
      NodupKeys (pruneStep (m, upd) l).1 ∧
      SmallScheduled (pruneStep (m, upd) l).1 rest (pruneStep (m, upd) l).2 ∧
      SchedSmall (pruneStep (m, upd) l).1 rest ∧
      SchedSmall (pruneStep (m, upd) l).1 (pruneStep (m, upd) l).2 := by
  unfold pruneStep
  cases hl : alookup m l with
  | none =>
      refine ⟨hS, hN, hK, ?_, ?_, hU⟩
      · intro p ns hp hlen
        rcases hA p ns hp hlen with hin | hin
        · rcases List.mem_cons.mp hin with rfl | hin'
          · rw [hl] at hp
            exact absurd hp (by simp)
          · exact Or.inl hin'
        · exact Or.inr hin
      · intro x hx ns hns
        exact hR x (by simp [hx]) ns hns
  | some ns =>
      have hns1 : ns.length ≤ 1 := hR l (by simp) ns hl
      cases hh : ns.head? with
      | none =>
          have hnse : ns = [] := by
            cases ns with
            | nil => rfl
            | cons a t => simp at hh
          simp only [hh]
          have hlook : ∀ p, alookup (aerase m l) p = if p = l then none else alookup m p :=
            fun p => alookup_aerase m l p
          refine ⟨?_, ?_, nodupKeys_aerase m l hK, ?_, ?_, ?_⟩
          · intro p q hq
            unfold nbrs at hq ⊢
            rw [hlook] at hq
            by_cases hpl : p = l
            · rw [if_pos hpl] at hq
              simp at hq
            · rw [if_neg hpl] at hq
              have h1 : p ∈ nbrs m q := hS p q hq
              rw [hlook]
              by_cases hql : q = l
              · subst hql
                unfold nbrs at h1
                rw [hl, hnse] at h1
                simp at h1
              · rw [if_neg hql]
                exact h1
          · intro p ns' hp
            rw [hlook] at hp
            by_cases hpl : p = l
            · rw [if_pos hpl] at hp
              simp at hp
            · rw [if_neg hpl] at hp
              exact hN p ns' hp
          · intro p ns' hp hlen
            rw [hlook] at hp
            by_cases hpl : p = l
            · rw [if_pos hpl] at hp
              simp at hp
            · rw [if_neg hpl] at hp
              rcases hA p ns' hp hlen with hin | hin
              · rcases List.mem_cons.mp hin with rfl | hin'
                · exact absurd rfl hpl
                · exact Or.inl hin'
              · exact Or.inr hin
          · intro x hx ns' hns'
            rw [hlook] at hns'
            by_cases hxl : x = l
            · rw [if_pos hxl] at hns'
              simp at hns'
            · rw [if_neg hxl] at hns'
              exact hR x (by simp [hx]) ns' hns'
          · intro x hx ns' hns'
            rw [hlook] at hns'
            by_cases hxl : x = l
            · rw [if_pos hxl] at hns'
              simp at hns'
            · rw [if_neg hxl] at hns'
              exact hU x hx ns' hns'
      | some q =>
          have hnsq : ns = [q] := by
            cases ns with
            | nil => simp at hh
            | cons a t =>
                simp only [List.head?_cons, Option.some.injEq] at hh
                cases t with
                | nil => rw [hh]
                | cons b t' => simp at hns1
          have hqn : q ∈ nbrs m l := by
            unfold nbrs
            rw [hl, hnsq]
            simp
          have hlq : l ∈ nbrs m q := hS l q hqn
          have hql : alookup m q = some (nbrs m q) := by
            unfold nbrs
            cases hq : alookup m q with
            | none =>
                unfold nbrs at hlq
                rw [hq] at hlq
                simp at hlq
            | some v => simp
          simp only [hh]
          have hlook : ∀ p, alookup (aerase (amodify m q (removeNeighbor l)) l) p =
              if p = l then none
              else if p = q then (alookup m p).map (removeNeighbor l)
              else alookup m p := by
            intro p
            rw [alookup_aerase, alookup_amodify]
          refine ⟨?_, ?_, ?_, ?_, ?_, ?_⟩
          · -- symmetry
            intro p x hx
            unfold nbrs at hx ⊢
            rw [hlook] at hx
            by_cases hpl : p = l
            · rw [if_pos hpl] at hx
              simp at hx
            · rw [if_neg hpl] at hx
              rw [hlook]
              by_cases hxl : x = l
              · exfalso
                by_cases hpq : p = q
                · rw [if_pos hpq] at hx
                  cases hmp : alookup m p with
                  | none => rw [hmp] at hx; simp at hx
                  | some v =>
                      rw [hmp] at hx
                      simp only [Option.map_some', Option.getD_some] at hx
                      exact (mem_removeNeighbor.mp hx).2 hxl
                · rw [if_neg hpq] at hx
                  rw [hxl] at hx
                  have h1 : p ∈ nbrs m l := hS p l hx
                  unfold nbrs at h1
                  rw [hl, hnsq] at h1
                  simp only [Option.getD_some, List.mem_singleton] at h1
                  exact hpq h1
              · rw [if_neg hxl]
                have hxm : x ∈ nbrs m p := by
                  by_cases hpq : p = q
                  · rw [if_pos hpq] at hx
                    cases hmp : alookup m p with
                    | none => rw [hmp] at hx; simp at hx
                    | some v =>
                        rw [hmp] at hx
                        simp only [Option.map_some', Option.getD_some] at hx
                        unfold nbrs
                        rw [hmp]
                        simpa using (mem_removeNeighbor.mp hx).1
                  · rw [if_neg hpq] at hx
                    exact hx
                have h1 : p ∈ nbrs m x := hS p x hxm
                by_cases hxq : x = q
                · rw [if_pos hxq]
                  subst hxq
                  unfold nbrs at h1
                  cases hmx : alookup m x with
                  | none => rw [hmx] at h1; simp at h1
                  | some v =>
                      rw [hmx] at h1
                      simp only [Option.getD_some] at h1
                      simp only [Option.map_some', Option.getD_some]
                      exact mem_removeNeighbor.mpr ⟨h1, hpl⟩
                · rw [if_neg hxq]
                  exact h1
          · -- nodup neighbour lists
            intro p ns' hp
            rw [hlook] at hp
            by_cases hpl : p = l
            · rw [if_pos hpl] at hp; simp at hp
            · rw [if_neg hpl] at hp
              by_cases hpq : p = q
              · rw [if_pos hpq] at hp
                cases hmp : alookup m p with
                | none => rw [hmp] at hp; simp at hp
                | some v =>
                    rw [hmp] at hp
                    simp only [Option.map_some', Option.some.injEq] at hp
                    rw [← hp]
                    exact nodup_removeNeighbor (hN p v hmp)
              · rw [if_neg hpq] at hp
                exact hN p ns' hp
          · exact nodupKeys_aerase _ l (nodupKeys_amodify m q _ hK)
          · -- small points remain scheduled
            intro p ns' hp hlen
            rw [hlook] at hp
            by_cases hpl : p = l
            · rw [if_pos hpl] at hp; simp at hp
            · rw [if_neg hpl] at hp
              by_cases hpq : p = q
              · rw [if_pos hpq] at hp
                have hcond : ((alookup m q).getD []).length ≤ 2 := by
                  rw [← hpq]
                  cases hmp : alookup m p with
                  | none => rw [hmp] at hp; simp at hp
                  | some v =>
                      rw [hmp] at hp
                      simp only [Option.map_some', Option.some.injEq] at hp
                      have hvn : v.Nodup := hN p v hmp
                      have h2 := removeNeighbor_length (q := l) hvn
                      simp only [Option.getD_some]
                      rw [← hp] at hlen
                      omega
                refine Or.inr ?_
                rw [if_pos hcond]
                exact mem_insertNeighbor.mpr (Or.inl hpq)
              · rw [if_neg hpq] at hp
                rcases hA p ns' hp hlen with hin | hin
                · rcases List.mem_cons.mp hin with rfl | hin'
                  · exact absurd rfl hpl
                  · exact Or.inl hin'
                · refine Or.inr ?_
                  by_cases hcond : ((alookup m q).getD []).length ≤ 2
                  · rw [if_pos hcond]
                    exact mem_insertNeighbor.mpr (Or.inr hin)
                  · rw [if_neg hcond]
                    exact hin
          · -- remaining scheduled leaves stay small
            intro x hx ns' hns'
            rw [hlook] at hns'
            by_cases hxl : x = l
            · rw [if_pos hxl] at hns'; simp at hns'
            · rw [if_neg hxl] at hns'
              by_cases hxq : x = q
              · rw [if_pos hxq] at hns'
                cases hmx : alookup m x with
                | none => rw [hmx] at hns'; simp at hns'
                | some v =>
                    rw [hmx] at hns'
                    simp only [Option.map_some', Option.some.injEq] at hns'
                    have hold := hR x (by simp [hx]) v hmx
                    rw [← hns']
                    exact le_trans (List.length_filter_le _ _) hold
              · rw [if_neg hxq] at hns'
                exact hR x (by simp [hx]) ns' hns'
          · -- the new leaf set is small
            intro x hx ns' hns'
            rw [hlook] at hns'
            by_cases hxl : x = l
            · rw [if_pos hxl] at hns'; simp at hns'
            · rw [if_neg hxl] at hns'
              by_cases hcond : ((alookup m q).getD []).length ≤ 2
              · rw [if_pos hcond] at hx
                rcases mem_insertNeighbor.mp hx with hxq2 | hxu
                · -- x = q freshly scheduled: its degree dropped below 2
                  rw [if_pos hxq2] at hns'
                  cases hmx : alookup m x with
                  | none => rw [hmx] at hns'; simp at hns'
                  | some v =>
                      rw [hmx] at hns'
                      simp only [Option.map_some', Option.some.injEq] at hns'
                      have hlv : l ∈ v := by
                        unfold nbrs at hlq
                        rw [← hxq2, hmx] at hlq
                        simpa using hlq
                      have hdrop := removeNeighbor_length_lt (q := l) hlv
                      have hvlen : v.length ≤ 2 := by
                        rw [← hxq2, hmx] at hcond
                        simpa using hcond
                      rw [← hns']
                      omega
                · by_cases hxq : x = q
                  · rw [if_pos hxq] at hns'
                    cases hmx : alookup m x with
                    | none => rw [hmx] at hns'; simp at hns'
                    | some v =>
                        rw [hmx] at hns'
                        simp only [Option.map_some', Option.some.injEq] at hns'
                        have hold := hU x hxu v hmx
                        rw [← hns']
                        exact le_trans (List.length_filter_le _ _) hold
                  · rw [if_neg hxq] at hns'
                    exact hU x hxu ns' hns'
              · rw [if_neg hcond] at hx
                by_cases hxq : x = q
                · rw [if_pos hxq] at hns'
                  cases hmx : alookup m x with
                  | none => rw [hmx] at hns'; simp at hns'
                  | some v =>
                      rw [hmx] at hns'
                      simp only [Option.map_some', Option.some.injEq] at hns'
                      have hold := hU x hx v hmx
                      rw [← hns']
                      exact le_trans (List.length_filter_le _ _) hold
                · rw [if_neg hxq] at hns'
                  exact hU x hx ns' hns'

/-- The pruning invariant is preserved by the fold of one round over the
current leaf set. -/
theorem pruneFoldl_inv :
    ∀ (ls : List Point) (m : AdjP) (upd : List Point),
      SymAdj m → NodupNbrs m → NodupKeys m → SmallScheduled m ls upd →
      SchedSmall m ls → SchedSmall m upd →
      SymAdj (ls.foldl pruneStep (m, upd)).1 ∧
        NodupNbrs (ls.foldl pruneStep (m, upd)).1 ∧
        NodupKeys (ls.foldl pruneStep (m, upd)).1 ∧
        SmallScheduled (ls.foldl pruneStep (m, upd)).1 [] (ls.foldl pruneStep (m, upd)).2 ∧
        SchedSmall (ls.foldl pruneStep (m, upd)).1 (ls.foldl pruneStep (m, upd)).2 := by
  intro ls
  induction ls with
  | nil =>
      intro m upd hS hN hK hA hR hU
      exact ⟨hS, hN, hK, hA, hU⟩
  | cons l t ih =>
      intro m upd hS hN hK hA hR hU
      simp only [List.foldl_cons]
      obtain ⟨hS1, hN1, hK1, hA1, hR1, hU1⟩ := pruneStep_inv m upd l t hS hN hK hA hR hU
      exact ih (pruneStep (m, upd) l).1 (pruneStep (m, upd) l).2 hS1 hN1 hK1 hA1 hR1 hU1

/-- After the pruning loop finishes, every surviving vertex has degree at
least 2 and the structural invariants persist. -/
theorem pruneLoop_inv :
    ∀ (m : AdjP) (leaves : List Point),
      SymAdj m → NodupNbrs m → NodupKeys m → SmallScheduled m leaves [] →
      SchedSmall m leaves →
      SymAdj (pruneLoop m leaves) ∧ NodupNbrs (pruneLoop m leaves) ∧
        NodupKeys (pruneLoop m leaves) ∧
        ∀ p ns, alookup (pruneLoop m leaves) p = some ns → 2 ≤ ns.length := by
  intro m leaves
  induction m, leaves using pruneLoop.induct with
  | case1 m =>
      intro hS hN hK hA hR
      rw [pruneLoop, if_pos rfl]
      refine ⟨hS, hN, hK, ?_⟩
      intro p ns hp
      by_contra hlt
      push_neg at hlt
      have h2 : ns.length ≤ 1 := by omega
      rcases hA p ns hp h2 with h3 | h3
      · simp at h3
      · simp at h3
  | case2 m leaves hl ih =>
      intro hS hN hK hA hR
      rw [pruneLoop, if_neg hl]
      obtain ⟨hS1, hN1, hK1, hA1, hU1⟩ :=
        pruneFoldl_inv leaves m [] hS hN hK hA hR (fun x hx => absurd hx (List.not_mem_nil x))
      have hA2 : SmallScheduled (pruneRound m leaves).1 (pruneRound m leaves).2 [] := by
        intro p ns hp hlen
        rcases hA1 p ns hp hlen with h | h
        · simp at h
        · exact Or.inl h
      exact ih hS1 hN1 hK1 hA2 hU1

/-- One segment insertion of the point-graph construction
(the fold body of `Pipeline::construct_adjacency_list_of_points`). -/
def constructStep (m : AdjP) (s : Segment) : AdjP :=
  aupdate (aupdate m s.1 (insertNeighbor s.2) [s.2]) s.2 (insertNeighbor s.1) [s.1]

/-- The construction is the fold of `constructStep`. -/
theorem constructAdjacencyListOfPoints_eq_foldl (segments : List Segment) :
    constructAdjacencyListOfPoints segments = segments.foldl constructStep [] := rfl

/-- Inserting never empties a neighbour set. -/
theorem insertNeighbor_ne_nil (q : Point) (l : List Point) : insertNeighbor q l ≠ [] := by
  unfold insertNeighbor
  by_cases h : q ∈ l
  · rw [if_pos h]
    intro hc
    rw [hc] at h
    simp at h
  · rw [if_neg h]
    simp

/-- Membership in a neighbour set after one construction step. -/
theorem mem_nbrs_constructStep (m : AdjP) (u v x p : Point) :
    (x ∈ nbrs (constructStep m (u, v)) p ↔
      x ∈ nbrs m p ∨ (p = u ∧ x = v) ∨ (p = v ∧ x = u)) := by
  unfold constructStep nbrs
  simp only [alookup_aupdate]
  by_cases hpv : p = v
  · rw [if_pos hpv]
    by_cases hvu : v = u
    · rw [if_pos hvu]
      cases hmu : alookup m u with
      | none =>
          have hmp : alookup m p = none := by rw [hpv, hvu]; exact hmu
          rw [hmp]
          simp only [Option.getD_some, Option.getD_none, mem_insertNeighbor,
            List.mem_singleton, List.not_mem_nil]
          constructor
          · rintro (h | h)
            · exact Or.inr (Or.inr ⟨hpv, h⟩)
            · exact Or.inr (Or.inl ⟨hpv.trans hvu, h⟩)
          · rintro (h | ⟨h1, h2⟩ | ⟨h1, h2⟩)
            · exact absurd h (by simp)
            · exact Or.inr h2
            · exact Or.inl h2
      | some w =>
          have hmp : alookup m p = some w := by rw [hpv, hvu]; exact hmu
          rw [hmp]
          simp only [Option.getD_some, mem_insertNeighbor]
          constructor
          · rintro (h | h | h)
            · exact Or.inr (Or.inr ⟨hpv, h⟩)
            · exact Or.inr (Or.inl ⟨hpv.trans hvu, h⟩)
            · exact Or.inl h
          · rintro (h | ⟨h1, h2⟩ | ⟨h1, h2⟩)
            · exact Or.inr (Or.inr h)
            · exact Or.inr (Or.inl h2)
            · exact Or.inl h2
    · rw [if_neg hvu]
      cases hmv : alookup m v with
      | none =>
          have hmp : alookup m p = none := by rw [hpv]; exact hmv
          rw [hmp]
          simp only [Option.getD_some, Option.getD_none, List.mem_singleton,
            List.not_mem_nil]
          constructor
          · intro h
            exact Or.inr (Or.inr ⟨hpv, h⟩)
          · rintro (h | ⟨h1, h2⟩ | ⟨h1, h2⟩)
            · exact absurd h (by simp)
            · exact absurd (h1 ▸ hpv : (u : Point) = v) (fun hc => hvu hc.symm)
            · exact h2
      | some w =>
          have hmp : alookup m p = some w := by rw [hpv]; exact hmv
          rw [hmp]
          simp only [Option.getD_some, mem_insertNeighbor]
          constructor
          · rintro (rfl | h)
            · exact Or.inr (Or.inr ⟨hpv, rfl⟩)
            · exact Or.inl h
          · rintro (h | ⟨h1, h2⟩ | ⟨h1, h2⟩)
            · exact Or.inr h
            · exact absurd (h1 ▸ hpv : (u : Point) = v) (fun hc => hvu hc.symm)
            · exact Or.inl h2
  · rw [if_neg hpv]
    by_cases hpu : p = u
    · rw [if_pos hpu]
      cases hmu : alookup m u with
      | none =>
          have hmp : alookup m p = none := by rw [hpu]; exact hmu
          rw [hmp]
          simp only [Option.getD_some, Option.getD_none, List.mem_singleton,
            List.not_mem_nil]
          constructor
          · intro h
            exact Or.inr (Or.inl ⟨hpu, h⟩)
          · rintro (h | ⟨h1, h2⟩ | ⟨h1, h2⟩)
            · exact absurd h (by simp)
            · exact h2
            · exact absurd h1 hpv
      | some w =>
          have hmp : alookup m p = some w := by rw [hpu]; exact hmu
          rw [hmp]
          simp only [Option.getD_some, mem_insertNeighbor]
          constructor
          · rintro (rfl | h)
            · exact Or.inr (Or.inl ⟨hpu, rfl⟩)
            · exact Or.inl h
          · rintro (h | ⟨h1, h2⟩ | ⟨h1, h2⟩)
            · exact Or.inr h
            · exact Or.inl h2
            · exact absurd h1 hpv
    · rw [if_neg hpu]
      constructor
      · intro h
        exact Or.inl h
      · rintro (h | ⟨h1, h2⟩ | ⟨h1, h2⟩)
        · exact h
        · exact absurd h1 hpu
        · exact absurd h1 hpv

/-- Values after one construction step stay duplicate free and nonempty. -/
theorem constructStep_values (m : AdjP) (u v p : Point)
    (hN : NodupNbrs m) (hne : ∀ p' ns, alookup m p' = some ns → ns ≠ []) :
    ∀ ns, alookup (constructStep m (u, v)) p = some ns → ns.Nodup ∧ ns ≠ [] := by
  intro ns h
  unfold constructStep at h
  simp only [alookup_aupdate] at h
  by_cases hpv : p = v
  · rw [if_pos hpv] at h
    by_cases hvu : v = u
    · rw [if_pos hvu] at h
      cases hmu : alookup m u with
      | none =>
          rw [hmu] at h
          simp only [Option.some.injEq] at h
          rw [← h]
          exact ⟨nodup_insertNeighbor (by simp), insertNeighbor_ne_nil _ _⟩
      | some w =>
          rw [hmu] at h
          simp only [Option.some.injEq] at h
          rw [← h]
          exact ⟨nodup_insertNeighbor (nodup_insertNeighbor (hN u w hmu)),
            insertNeighbor_ne_nil _ _⟩
    · rw [if_neg hvu] at h
      cases hmv : alookup m v with
      | none =>
          rw [hmv] at h
          simp only [Option.some.injEq] at h
          rw [← h]
          exact ⟨by simp, by simp⟩
      | some w =>
          rw [hmv] at h
          simp only [Option.some.injEq] at h
          rw [← h]
          exact ⟨nodup_insertNeighbor (hN v w hmv), insertNeighbor_ne_nil _ _⟩
  · rw [if_neg hpv] at h
    by_cases hpu : p = u
    · rw [if_pos hpu] at h
      cases hmu : alookup m u with
      | none =>
          rw [hmu] at h
          simp only [Option.some.injEq] at h
          rw [← h]
          exact ⟨by simp, by simp⟩
      | some w =>
          rw [hmu] at h
          simp only [Option.some.injEq] at h
          rw [← h]
          exact ⟨nodup_insertNeighbor (hN u w hmu), insertNeighbor_ne_nil _ _⟩
    · rw [if_neg hpu] at h
      exact ⟨hN p ns h, hne p ns h⟩

/-- The constructed point graph is symmetric, duplicate free, has distinct
keys and no empty neighbour sets. -/
theorem construct_inv (segments : List Segment) :
    SymAdj (constructAdjacencyListOfPoints segments) ∧
      NodupNbrs (constructAdjacencyListOfPoints segments) ∧
      NodupKeys (constructAdjacencyListOfPoints segments) ∧
      ∀ p ns, alookup (constructAdjacencyListOfPoints segments) p = some ns → ns ≠ [] := by
  rw [constructAdjacencyListOfPoints_eq_foldl]
  have key : ∀ (ss : List Segment) (m : AdjP),
      SymAdj m → NodupNbrs m → NodupKeys m →
      (∀ p ns, alookup m p = some ns → ns ≠ []) →
      SymAdj (ss.foldl constructStep m) ∧ NodupNbrs (ss.foldl constructStep m) ∧
        NodupKeys (ss.foldl constructStep m) ∧
        ∀ p ns, alookup (ss.foldl constructStep m) p = some ns → ns ≠ [] := by
    intro ss
    induction ss with
    | nil => intro m hS hN hK hne; exact ⟨hS, hN, hK, hne⟩
    | cons s t ih =>
        intro m hS hN hK hne
        simp only [List.foldl_cons]
        obtain ⟨u, v⟩ := s
        refine ih (constructStep m (u, v)) ?_ ?_ ?_ ?_
        · intro p x hx
          rcases (mem_nbrs_constructStep m u v x p).mp hx with h | ⟨h1, h2⟩ | ⟨h1, h2⟩
          · exact (mem_nbrs_constructStep m u v p x).mpr (Or.inl (hS p x h))
          · exact (mem_nbrs_constructStep m u v p x).mpr (Or.inr (Or.inr ⟨h2, h1⟩))
          · exact (mem_nbrs_constructStep m u v p x).mpr (Or.inr (Or.inl ⟨h2, h1⟩))
        · intro p ns hp
          exact (constructStep_values m u v p hN hne ns hp).1
        · exact nodupKeys_aupdate _ _ _ _ (nodupKeys_aupdate _ _ _ _ hK)
        · intro p ns hp
          exact (constructStep_values m u v p hN hne ns hp).2
  refine key segments [] ?_ ?_ ?_ ?_
  · intro p q hq
    simp [nbrs, alookup] at hq
  · intro p ns hp
    simp [alookup] at hp
  · simp [NodupKeys]
  · intro p ns hp
    simp [alookup] at hp

/-- On a graph with distinct keys and no empty neighbour sets, the initial
leaf list schedules exactly the degree-at-most-one vertices. -/
theorem initialLeaves_spec (m : AdjP) (hK : NodupKeys m)
    (hne : ∀ p ns, alookup m p = some ns → ns ≠ []) :
    SmallScheduled m (initialLeaves m) [] ∧ SchedSmall m (initialLeaves m) := by
  constructor
  · intro p ns hp hlen
    left
    have hlen1 : ns.length = 1 := by
      have h0 : ns ≠ [] := hne p ns hp
      have h1 : 0 < ns.length := List.length_pos.mpr h0
      omega
    unfold initialLeaves
    refine List.mem_map.mpr ⟨(p, ns), ?_, rfl⟩
    refine List.mem_filter.mpr ⟨mem_of_alookup hp, ?_⟩
    simp [hlen1]
  · intro l hl ns hns
    unfold initialLeaves at hl
    rcases List.mem_map.mp hl with ⟨e, he, hel⟩
    rcases List.mem_filter.mp he with ⟨hem, helen⟩
    have he2 : e = (l, e.2) := by
      cases e
      simp only at hel
      rw [hel]
    rw [he2] at hem
    have hlook : alookup m l = some e.2 := alookup_of_mem_nodupKeys hK hem
    rw [hns] at hlook
    have : ns = e.2 := by
      injection hlook
    rw [this]
    have : e.2.length = 1 := by
      simpa using helen
    omega

/-- A graph in which every vertex has degree at least 2 has no initial
leaves. -/
theorem initialLeaves_eq_nil (m : AdjP) (hK : NodupKeys m)
    (hdeg : ∀ p ns, alookup m p = some ns → 2 ≤ ns.length) : initialLeaves m = [] := by
  unfold initialLeaves
  have hfil : m.filter (fun e => e.2.length == 1) = [] := by
    rw [List.filter_eq_nil_iff]
    intro e he
    have he2 : e = (e.1, e.2) := rfl
    have hlook : alookup m e.1 = some e.2 := alookup_of_mem_nodupKeys hK (by rw [← he2]; exact he)
    have := hdeg e.1 e.2 hlook
    simp only [beq_iff_eq]
    omega
  rw [hfil]
  rfl

/-- The full pipeline point graph is symmetric, duplicate free, has distinct
keys, and every remaining vertex keeps degree at least 2. -/
theorem pipelineFrom_inv (segments : List Segment) :
    SymAdj (pipelineFrom segments) ∧ NodupNbrs (pipelineFrom segments) ∧
      NodupKeys (pipelineFrom segments) ∧
      ∀ p ns, alookup (pipelineFrom segments) p = some ns → 2 ≤ ns.length := by
  obtain ⟨hS, hN, hK, hne⟩ := construct_inv segments
  obtain ⟨hA, hR⟩ := initialLeaves_spec _ hK hne
  exact pruneLoop_inv _ _ hS hN hK hA hR

/-- Pruning a graph that already satisfies the degree invariant is the
identity. -/
theorem prune_idempotent_of_inv (m : AdjP) (hK : NodupKeys m)
    (hdeg : ∀ p ns, alookup m p = some ns → 2 ≤ ns.length) :
    pruneAdjacencyListOfPoints m = m := by
  unfold pruneAdjacencyListOfPoints
  rw [initialLeaves_eq_nil m hK hdeg, pruneLoop]
  simp

/-- C5: after `prune_adjacency_list_of_points` no remaining vertex of the
constructed point graph has degree 1, and pruning the pruned graph again
returns it unchanged (idempotence). -/
theorem prune_no_degree_one_and_idempotent (segments : List Segment) :
    (∀ p ns, alookup (pipelineFrom segments) p = some ns → ns.length ≠ 1) ∧
      pruneAdjacencyListOfPoints (pipelineFrom segments) = pipelineFrom segments := by
  obtain ⟨hS, hN, hK, hdeg⟩ := pipelineFrom_inv segments
  constructor
  · intro p ns hp
    have := hdeg p ns hp
    omega
  · exact prune_idempotent_of_inv _ hK hdeg

/-- First neighbour of the witness corner. -/
def wpA : Point := ⟨1, 0, 0⟩

/-- The witness corner point. -/
def wpB : Point := ⟨0, 0, 0⟩

/-- Second neighbour of the witness corner. -/
def wpC : Point := ⟨0, 1, 0⟩

/-- A one-corner point graph for the C6 witness. -/
def wAdj : AdjP := [(wpB, [wpA, wpC])]

/-- The incoming witness segment. -/
def wS : Segment := (wpA, wpB)

/-- The outgoing witness segment. -/
def wT : Segment := (wpB, wpC)

/-!
The plane normal of a reversed closed sequence (used by claim C1): reversing a
closed vertex list keeps the centre and negates the z component of the normal.
-/

/-- Componentwise extensionality for vectors. -/
theorem Vector.ext' {v w : Vector} (hx : v.x = w.x) (hy : v.y = w.y) (hz : v.z = w.z) :
    v = w := by
  cases v; cases w; simp_all

/-- A fold of vector additions accumulates componentwise sums. -/
theorem foldl_addPoint_eq (l : List Point) (a : Vector) :
    l.foldl (fun acc p => acc.add (Vector.fromPoint p)) a =
      ⟨a.x + (l.map (·.x)).sum, a.y + (l.map (·.y)).sum, a.z + (l.map (·.z)).sum⟩ := by
  induction l generalizing a with
  | nil => exact Vector.ext' (by simp) (by simp) (by simp)
  | cons p t ih =>
      simp only [List.foldl_cons, ih, List.map_cons, List.sum_cons]
      exact Vector.ext' (by simp [Vector.add, Vector.fromPoint]; ring)
        (by simp [Vector.add, Vector.fromPoint]; ring)
        (by simp [Vector.add, Vector.fromPoint]; ring)

/-- The centre in terms of componentwise sums over the tail. -/
theorem center_eq_sums (l : List Point) (v : Point) (t : List Point) (h : l.drop 1 = v :: t) :
    center l =
      ⟨((l.drop 1).map (·.x)).sum * (1 / ((l.length - 1 : ℕ) : ℚ)),
        ((l.drop 1).map (·.y)).sum * (1 / ((l.length - 1 : ℕ) : ℚ)),
        ((l.drop 1).map (·.z)).sum * (1 / ((l.length - 1 : ℕ) : ℚ))⟩ := by
  unfold center
  rw [h]
  simp only [foldl_addPoint_eq]
  exact Vector.ext' (by simp [Vector.scale, Vector.fromPoint, h]) (by simp [Vector.scale, Vector.fromPoint, h])
    (by simp [Vector.scale, Vector.fromPoint, h])

/-- The tail of a reversed non-empty list is the reversed `dropLast`. -/
theorem reverse_drop_one (l : List Point) (hne : l ≠ []) :
    l.reverse.drop 1 = l.dropLast.reverse := by
  conv_lhs => rw [← List.dropLast_append_getLast hne]
  rw [List.reverse_append]
  simp

/-- Reversing a closed list (first element equal to last) does not change the
centre. -/
theorem center_reverse (l : List Point) (hne : l ≠ []) (hcl : l.head? = l.getLast?) :
    center l.reverse = center l := by
  rcases List.exists_cons_of_ne_nil hne with ⟨a, t, rfl⟩
  have hlast : (a :: t).getLast? = some a := by
    rw [← hcl]; simp
  cases hrt : (a :: t).reverse.drop 1 with
  | nil =>
      have : t = [] := by
        have hlen := congrArg List.length hrt
        simp at hlen
        cases t with
        | nil => rfl
        | cons b t' => simp at hlen
      subst this
      simp [center]
  | cons v rt =>
      have ht : t ≠ [] := by
        intro hteq
        subst hteq
        simp at hrt
      rcases List.exists_cons_of_ne_nil ht with ⟨b, t', rfl⟩
      rw [center_eq_sums _ _ _ hrt, center_eq_sums (a :: b :: t') b t' (by simp)]
      have hdrop : (a :: b :: t').reverse.drop 1 = (a :: b :: t').dropLast.reverse :=
        reverse_drop_one _ (by simp)
      have hlen : (a :: b :: t').reverse.length = (a :: b :: t').length := by simp
      have hgl : (a :: b :: t').getLast (by simp) = a := by
        have h2 := List.getLast?_eq_getLast (a :: b :: t') (by simp)
        rw [hlast] at h2
        exact (Option.some.inj h2).symm
      have hsplit : (a :: b :: t').dropLast ++ [a] = a :: b :: t' := by
        conv_rhs => rw [← List.dropLast_append_getLast (l := a :: b :: t') (by simp)]
        rw [hgl]
      have hsum0 : ∀ f : Point → ℚ,
          (((a :: b :: t').dropLast).map f).sum = ((b :: t').map f).sum := by
        intro f
        have h3 := congrArg (fun l : List Point => (l.map f).sum) hsplit
        simp only [List.map_append, List.sum_append, List.map_cons, List.sum_cons,
          List.map_nil, List.sum_nil] at h3
        simp only [List.map_cons, List.sum_cons]
        linarith
      have hsum : ∀ f : Point → ℚ,
          (((a :: b :: t').reverse.drop 1).map f).sum = (((a :: b :: t').drop 1).map f).sum := by
        intro f
        rw [hdrop, List.map_reverse, List.sum_reverse]
        simpa using hsum0 f
      refine Vector.ext' ?_ ?_ ?_
      · simp only [List.length_reverse]
        rw [hsum fun p => p.x]
      · simp only [List.length_reverse]
        rw [hsum fun p => p.y]
      · simp only [List.length_reverse]
        rw [hsum fun p => p.z]

/-- A fold of vector additions from zero sums the z components. -/
theorem foldl_add_z (l : List Vector) :
    (l.foldl Vector.add Vector.zero).z = (l.map (·.z)).sum := by
  have main : ∀ (l : List Vector) (a : Vector),
      (l.foldl Vector.add a).z = a.z + (l.map (·.z)).sum := by
    intro l
    induction l with
    | nil => intro a; simp
    | cons v t ih =>
        intro a
        simp only [List.foldl_cons, ih, List.map_cons, List.sum_cons, Vector.add]
        ring
  simpa [Vector.zero] using main l Vector.zero

/-- The z component of the plane normal as a sum over consecutive pairs. -/
theorem normalV_z_eq (l : List Point) :
    (normalV l).z =
      ((l.zip (l.drop 1)).map fun ab =>
        (ab.1.x - (center l).x) * (ab.2.y - (center l).y) -
          (ab.2.x - (center l).x) * (ab.1.y - (center l).y)).sum := by
  unfold normalV
  rw [foldl_add_z, List.map_map]
  have hfun : ((fun v : Vector => v.z) ∘ fun ab : Point × Point =>
      ((Vector.fromPoint ab.1).subtract (center l)).cross
        ((Vector.fromPoint ab.2).subtract (center l))) =
      fun ab : Point × Point =>
        (ab.1.x - (center l).x) * (ab.2.y - (center l).y) -
          (ab.2.x - (center l).x) * (ab.1.y - (center l).y) := by
    funext ab
    simp only [Function.comp_apply, Vector.fromPoint, Vector.subtract, Vector.cross]
    ring
  rw [hfun]

/-- Appending one element to a list extends its consecutive-pair zip by the
pair of the old last element with the new one. -/
theorem zip_drop_append_singleton (A : List Point) (x : Point) :
    (A ++ [x]).zip ((A ++ [x]).drop 1) =
      A.zip (A.drop 1) ++
        (match A.getLast? with | some la => [(la, x)] | none => []) := by
  induction A with
  | nil => simp
  | cons a A' ih =>
      cases A' with
      | nil => simp
      | cons b A'' =>
          have hstep : ((a :: b :: A'') ++ [x]).zip (((a :: b :: A'') ++ [x]).drop 1) =
              (a, b) :: (((b :: A'') ++ [x]).zip ((((b :: A'') ++ [x])).drop 1)) := by
            simp [List.zip_cons_cons]
          rw [hstep, ih]
          simp [List.zip_cons_cons]

/-- Reversing a list negates the consecutive-pair sum of any antisymmetric
function. -/
theorem revPairSum (f : Point → Point → ℚ) (hf : ∀ a b, f a b = -f b a) :
    ∀ l : List Point,
      ((l.reverse.zip (l.reverse.drop 1)).map fun ab => f ab.1 ab.2).sum =
        -((l.zip (l.drop 1)).map fun ab => f ab.1 ab.2).sum := by
  intro l
  induction l with
  | nil => simp
  | cons x t ih =>
      have hrev : (x :: t).reverse = t.reverse ++ [x] := by simp
      rw [hrev, zip_drop_append_singleton]
      cases t with
      | nil => simp
      | cons y t' =>
          have hlast : (y :: t').reverse.getLast? = some y := by
            rw [List.getLast?_reverse]
            simp
          rw [hlast]
          have hzip : ((x :: y :: t').zip ((x :: y :: t').drop 1)) =
              (x, y) :: ((y :: t').zip ((y :: t').drop 1)) := by
            simp [List.zip_cons_cons]
          rw [hzip]
          simp only [List.map_append, List.sum_append, List.map_cons, List.sum_cons,
            List.map_nil, List.sum_nil, ih]
          rw [hf y x]
          ring

/-- Reversing a closed vertex list negates the z component of its plane
normal. -/
theorem normal_z_reverse (l : List Point) (hne : l ≠ []) (hcl : l.head? = l.getLast?) :
    (normalV l.reverse).z = -(normalV l).z := by
  rw [normalV_z_eq, normalV_z_eq, center_reverse l hne hcl]
  exact revPairSum
    (fun a b => (a.x - (center l).x) * (b.y - (center l).y) -
      (b.x - (center l).x) * (a.y - (center l).y))
    (fun a b => by ring) l

/-- The normal of the empty sequence is zero. -/
theorem normalV_nil : normalV [] = Vector.zero := rfl

/-- The constructed sequence is closed: its first and last vertices agree. -/
theorem fromVertices_sequence_closed (vs : List Point) :
    (Polygon.fromVertices vs).sequence.head? = (Polygon.fromVertices vs).sequence.getLast? := by
  unfold Polygon.fromVertices
  cases vs with
  | nil =>
      by_cases h : (normalV ([] : List Point)).z < 0 <;> simp [h]
  | cons a t =>
      simp only [List.head?_cons]
      by_cases h : (normalV ((a :: t) ++ [a])).z < 0
      · simp only [if_pos h]
        rw [List.head?_reverse, List.getLast?_reverse, List.getLast?_concat]
        simp
      · simp only [if_neg h]
        rw [List.getLast?_concat]
        simp

/-- The constructed sequence has one vertex more than the input path. -/
theorem fromVertices_sequence_length (vs : List Point) (h : vs ≠ []) :
    (Polygon.fromVertices vs).sequence.length = vs.length + 1 := by
  unfold Polygon.fromVertices
  rcases List.exists_cons_of_ne_nil h with ⟨a, t, rfl⟩
  simp only [List.head?_cons]
  split
  · simp
  · simp

/-- C1's orientation invariant at the constructor: the stored sequence always
has a non-negative z component of its plane normal, because `Polygon::from`
reverses the closed sequence exactly when it is negative and reversal of a
closed sequence negates that component. -/
theorem fromVertices_normal_z_nonneg (vs : List Point) :
    0 ≤ (normalV (Polygon.fromVertices vs).sequence).z := by
  unfold Polygon.fromVertices
  cases vs with
  | nil =>
      simp only [List.head?_nil]
      have hz : (normalV ([] : List Point)).z = 0 := by rw [normalV_nil]; rfl
      rw [if_neg (by rw [hz]; exact lt_irrefl 0)]
      rw [hz]
  | cons a t =>
      simp only [List.head?_cons]
      by_cases hneg : (normalV ((a :: t) ++ [a])).z < 0
      · simp only [if_pos hneg]
        have hcl : ((a :: t) ++ [a]).head? = ((a :: t) ++ [a]).getLast? := by
          rw [List.getLast?_concat]
          simp
        have := normal_z_reverse ((a :: t) ++ [a]) (by simp) hcl
        rw [this]
        linarith
      · simp only [if_neg hneg]
        linarith [not_lt.mp hneg]

/-!
Traversal invariants (claims C1 and C9).
-/

/-- Edge relation of a segment graph: `t` is a stored successor of `s`. -/
def SegEdge (g : SegAdj) (s t : Segment) : Prop := t ∈ (alookup g s).getD []

/-- The shape part of the construction invariant: every edge runs
`(a,b) -> (b,c)` with `a ≠ c`. -/
def GoodShape (g : SegAdj) : Prop := ∀ s t, SegEdge g s t → s.2 = t.1 ∧ s.1 ≠ t.2

/-- Built segment graphs have well-shaped edges. -/
theorem goodShape_build (points : Option (List Point)) (adjacencies : AdjP) :
    GoodShape (buildSegmentGraphFromAdjacencyListOfPoints points adjacencies) := by
  intro s t h
  have := goodSegGraph_build points adjacencies s t h
  exact ⟨this.1, this.2.1⟩

/-- A polygon produced by path closure: built by the constructor from a core
path of at least three vertices. -/
def GoodPoly (P : Polygon) : Prop :=
  ∃ core : List Point, P = Polygon.fromVertices core ∧ 3 ≤ core.length

/-- `min_by` returns an element of the list. -/
theorem minByFirst_mem {α β : Type} {lt : β → β → Bool} {key : α → β} {l : List α} {x : α}
    (h : minByFirst lt key l = some x) : x ∈ l := by
  have main : ∀ (l : List α) (acc : Option α),
      l.foldl
        (fun acc x =>
          match acc with
          | none => some x
          | some m => if lt (key x) (key m) then some x else some m)
        acc = some x →
      acc = some x ∨ x ∈ l := by
    intro l
    induction l with
    | nil => intro acc h; exact Or.inl h
    | cons y t ih =>
        intro acc h
        rcases ih _ h with hstep | hmem
        · cases acc with
          | none =>
              simp only at hstep
              exact Or.inr (by simp [Option.some.inj hstep])
          | some m =>
              simp only at hstep
              by_cases hc : lt (key y) (key m) = true
              · rw [if_pos hc] at hstep
                exact Or.inr (by simp [Option.some.inj hstep])
              · rw [if_neg hc] at hstep
                exact Or.inl hstep
        · exact Or.inr (by simp [hmem])
  rcases main l none h with h0 | h1
  · simp at h0
  · exact h1

/-- Membership through a path insertion. -/
theorem mem_insertPath {paths : List Polygon} {p P : Polygon} (h : P ∈ insertPath paths p) :
    P ∈ paths ∨ P = p := by
  unfold insertPath at h
  by_cases hm : polyMemB p paths = true
  · rw [if_pos hm] at h
    exact Or.inl h
  · rw [if_neg hm] at h
    rcases List.mem_append.mp h with h1 | h2
    · exact Or.inl h1
    · exact Or.inr (List.mem_singleton.mp h2)

/-- An elected successor is a stored successor. -/
theorem electG_edge {γ : Type} {g : SegAdj} {crit : Segment → Segment → Segment → γ}
    {lt : γ → γ → Bool} {prev cur nxt : Segment}
    (h : (electG g crit lt prev cur).1 = some nxt) : SegEdge g cur nxt := by
  unfold electG at h
  cases hl : alookup g cur with
  | none => rw [hl] at h; simp at h
  | some succs =>
      rw [hl] at h
      simp only at h
      have := minByFirst_mem h
      unfold SegEdge
      rw [hl]
      simpa using this

/-- The traversal restores the stack it was given. -/
theorem traverseRec_stack_eq {γ : Type} (g : SegAdj) (crit : Segment → Segment → Segment → γ)
    (lt : γ → γ → Bool) :
    ∀ (fuel : ℕ) (cur prev : Segment) (st : TravState),
      (traverseRec g crit lt fuel cur prev st).stack = st.stack := by
  intro fuel
  induction fuel with
  | zero => intro cur prev st; rfl
  | succ n ih =>
      intro cur prev st
      rw [traverseRec]
      by_cases h1 : (cur.2, cur.1) ∈ st.stack
      · rw [if_pos h1]
      · rw [if_neg h1]
        by_cases h2 : cur ∈ st.stack
        · rw [if_pos h2]
        · rw [if_neg h2]
          cases helect : (electG g crit lt prev cur).1 with
          | none =>
              by_cases h3 : st.stack.isEmpty
              · simp [helect, h3, List.isEmpty_iff.mp h3]
              · simp [helect, h3]
          | some nxt =>
              by_cases h3 : st.stack.isEmpty
              · simp [helect, h3, ih, List.isEmpty_iff.mp h3]
              · simp [helect, h3, ih]

/-- The index returned by `segIndexIn` on a member is in range and points at
that member. -/
theorem segIndexIn_spec (cur : Segment) :
    ∀ L : List Segment, cur ∈ L →
      segIndexIn cur L < L.length ∧ L.getD (segIndexIn cur L) default = cur := by
  intro L
  induction L with
  | nil => intro h; simp at h
  | cons a t ih =>
      intro h
      by_cases ha : a = cur
      · subst ha
        refine ⟨?_, ?_⟩
        · simp [segIndexIn, List.findIdx_cons]
        · simp [segIndexIn, List.findIdx_cons]
      · have hmem : cur ∈ t := by
          rcases List.mem_cons.mp h with h1 | h1
          · exact absurd h1.symm ha
          · exact h1
        have hfi : segIndexIn cur (a :: t) = segIndexIn cur t + 1 := by
          simp [segIndexIn, List.findIdx_cons, ha]
        rcases ih hmem with ⟨h1, h2⟩
        refine ⟨?_, ?_⟩
        · rw [hfi]
          simpa using Nat.succ_lt_succ h1
        · rw [hfi]
          simpa using h2

/-- The last element through `getD`. -/
theorem getLast?_getD (L : List Segment) (x : Segment) (h : L.getLast? = some x) :
    L.getD (L.length - 1) default = x := by
  induction L with
  | nil => simp at h
  | cons a t ih =>
      cases t with
      | nil =>
          simp at h
          simp [h]
      | cons b t' =>
          rw [List.getLast?_cons_cons] at h
          have := ih h
          simpa using this

/-- Consecutive stack entries are graph edges, read off positionally. -/
theorem chain'_getD {g : SegAdj} :
    ∀ L : List Segment, List.Chain' (SegEdge g) L →
      ∀ i : ℕ, i + 1 < L.length → SegEdge g (L.getD i default) (L.getD (i + 1) default) := by
  intro L
  induction L with
  | nil => intro _ i hi; simp at hi
  | cons a t ih =>
      intro hch i hi
      cases t with
      | nil => simp at hi
      | cons b t' =>
          rcases List.chain'_cons.mp hch with ⟨hab, hch'⟩
          cases i with
          | zero => simpa using hab
          | succ j =>
              have := ih hch' j (by simpa using hi)
              simpa using this

/-- The traversal only ever inserts polygons built from a closure slice of at
least three segments: every polygon in the resulting path set is the
constructor's image of a core of length at least 3, provided the graph edges
are well-shaped and the stack is a well-formed path ending at `prev`. -/
theorem traverseRec_paths_good {γ : Type} (g : SegAdj) (crit : Segment → Segment → Segment → γ)
    (lt : γ → γ → Bool) (hg : GoodShape g) :
    ∀ (fuel : ℕ) (cur prev : Segment) (st : TravState),
      st.stack.getLast? = some prev →
      SegEdge g prev cur →
      List.Chain' (SegEdge g) st.stack →
      (∀ P ∈ st.paths, GoodPoly P) →
      ∀ P ∈ (traverseRec g crit lt fuel cur prev st).paths, GoodPoly P := by
  intro fuel
  induction fuel with
  | zero => intro cur prev st _ _ _ hpaths P hP; exact hpaths P hP
  | succ n ih =>
      intro cur prev st hlast hedge hchain hpaths P hP
      have hne : st.stack ≠ [] := by
        intro hnil
        rw [hnil] at hlast
        simp at hlast
      rw [traverseRec] at hP
      by_cases h1 : (cur.2, cur.1) ∈ st.stack
      · rw [if_pos h1] at hP
        exact hpaths P hP
      · rw [if_neg h1] at hP
        by_cases h2 : cur ∈ st.stack
        · rw [if_pos h2] at hP
          rcases mem_insertPath hP with hold | rfl
          · exact hpaths P hold
          · refine ⟨_, rfl, ?_⟩
            rcases segIndexIn_spec cur st.stack h2 with ⟨hlt, hat⟩
            have hcur_ne_last : st.stack.getD (st.stack.length - 1) default ≠ cur := by
              rw [getLast?_getD st.stack prev hlast]
              intro hpc
              rcases hg prev cur hedge with ⟨he1, he2⟩
              rw [← hpc] at he1 he2
              exact he2 he1.symm
            have hcur_ne_second : 2 ≤ st.stack.length →
                st.stack.getD (st.stack.length - 2) default ≠ cur := by
              intro hlen2 hpc
              have hidx : (st.stack.length - 2) + 1 < st.stack.length := by omega
              have hch := chain'_getD st.stack hchain (st.stack.length - 2) hidx
              have hl1 : (st.stack.length - 2) + 1 = st.stack.length - 1 := by omega
              rw [hl1, getLast?_getD st.stack prev hlast, hpc] at hch
              rcases hg cur prev hch with ⟨hc1, _⟩
              rcases hg prev cur hedge with ⟨_, hp2⟩
              exact hp2 hc1.symm
            have hpos_ne1 : segIndexIn cur st.stack ≠ st.stack.length - 1 := by
              intro hcontra
              rw [hcontra] at hat
              exact hcur_ne_last hat
            have hlen1 : 1 ≤ st.stack.length := by
              cases hs : st.stack with
              | nil => exact absurd hs hne
              | cons a t => simp
            have hfinal : segIndexIn cur st.stack + 3 ≤ st.stack.length := by
              by_cases hlen2 : 2 ≤ st.stack.length
              · have hpos_ne2 : segIndexIn cur st.stack ≠ st.stack.length - 2 := by
                  intro hcontra
                  rw [hcontra] at hat
                  exact hcur_ne_second hlen2 hat
                omega
              · omega
            rw [List.length_map, List.length_drop]
            omega
        · rw [if_neg h2] at hP
          have h3 : st.stack.isEmpty = false := by
            cases hs : st.stack with
            | nil => exact absurd hs hne
            | cons a t => rfl
          cases helect : (electG g crit lt prev cur).1 with
          | none =>
              simp only [helect, h3, Bool.false_eq_true, if_false] at hP
              exact hpaths P hP
          | some nxt =>
              simp only [helect, h3, Bool.false_eq_true, if_false] at hP
              refine ih nxt cur
                { st with
                  stack := st.stack ++ [cur]
                  ok := st.ok && (electG g crit lt prev cur).2 }
                ?_ ?_ ?_ ?_ P ?_
              · simp [List.getLast?_concat]
              · exact electG_edge helect
              · refine List.chain'_append.mpr ⟨hchain, List.chain'_singleton cur, ?_⟩
                intro x hx y hy
                rw [hlast] at hx
                simp only [Option.mem_def, Option.some.injEq] at hx
                simp only [List.head?_cons, Option.mem_def, Option.some.injEq] at hy
                rw [← hx, ← hy]
                exact hedge
              · simpa using hpaths
              · simpa using hP

/-- The built segment graph has distinct keys. -/
theorem nodupKeys_build (points : Option (List Point)) (adjacencies : AdjP) :
    NodupKeys (buildSegmentGraphFromAdjacencyListOfPoints points adjacencies) := by
  have inner : ∀ (p : Point) (ps : List (Point × Point)) (g : SegAdj), NodupKeys g →
      NodupKeys (ps.foldl
        (fun g ft =>
          if ft.1 = ft.2 then g
          else aupdate g (ft.1, p) (insertSegSucc (p, ft.2)) [(p, ft.2)])
        g) := by
    intro p ps
    induction ps with
    | nil => intro g hg; exact hg
    | cons ft rest ih =>
        intro g hg
        simp only [List.foldl_cons]
        refine ih _ ?_
        by_cases heq : ft.1 = ft.2
        · simpa [heq] using hg
        · rw [if_neg heq]
          exact nodupKeys_aupdate g (ft.1, p) _ _ hg
  have main : ∀ (entries : List (Point × List Point)) (g : SegAdj), NodupKeys g →
      NodupKeys (entries.foldl
        (fun graph e =>
          (neighborPairs e.2).foldl
            (fun g ft =>
              if ft.1 = ft.2 then g
              else aupdate g (ft.1, e.1) (insertSegSucc (e.1, ft.2)) [(e.1, ft.2)])
            graph)
        g) := by
    intro entries
    induction entries with
    | nil => intro g hg; exact hg
    | cons e rest ih =>
        intro g hg
        simp only [List.foldl_cons]
        exact ih _ (inner e.1 (neighborPairs e.2) g hg)
  exact main _ [] (by simp [NodupKeys])

/-- One source's processing in `segment()` preserves the stack and keeps the
path set good. -/
theorem segmentSource_good {g : SegAdj} (hg : GoodShape g) (hnd : NodupKeys g)
    (fuel : ℕ) (st : TravState) (e : Segment × List Segment) (he : e ∈ g)
    (hstack : st.stack = []) (hpaths : ∀ P ∈ st.paths, GoodPoly P) :
    (segmentSource g fuel st e).stack = [] ∧
      ∀ P ∈ (segmentSource g fuel st e).paths, GoodPoly P := by
  have hlook : alookup g e.1 = some e.2 := alookup_of_mem_nodupKeys hnd he
  have hsucc : ∀ s ∈ e.2, SegEdge g e.1 s := by
    intro s hs
    unfold SegEdge
    rw [hlook]
    simpa using hs
  have main : ∀ {γ : Type} (crit : Segment → Segment → Segment → γ) (lt : γ → γ → Bool)
      (ss : List Segment), (∀ s ∈ ss, SegEdge g e.1 s) →
      ∀ st' : TravState, st'.stack = [e.1] → (∀ P ∈ st'.paths, GoodPoly P) →
        (ss.foldl (fun s succ => traverseRec g crit lt fuel succ e.1 s) st').stack = [e.1] ∧
          ∀ P ∈ (ss.foldl (fun s succ => traverseRec g crit lt fuel succ e.1 s) st').paths,
            GoodPoly P := by
    intro γ crit lt ss
    induction ss with
    | nil => intro _ st' h1 h2; exact ⟨h1, h2⟩
    | cons s rest ih =>
        intro hss st' hst' hpaths'
        simp only [List.foldl_cons]
        have hstep_stack : (traverseRec g crit lt fuel s e.1 st').stack = [e.1] := by
          rw [traverseRec_stack_eq]
          exact hst'
        have hstep_paths : ∀ P ∈ (traverseRec g crit lt fuel s e.1 st').paths, GoodPoly P := by
          refine traverseRec_paths_good g crit lt hg fuel s e.1 st' ?_ ?_ ?_ hpaths'
          · rw [hst']
            rfl
          · exact hss s (by simp)
          · rw [hst']
            exact List.chain'_singleton e.1
        exact ih (fun x hx => hss x (by simp [hx])) _ hstep_stack hstep_paths
  unfold segmentSource
  have h0stack : ({ st with stack := st.stack ++ [e.1] } : TravState).stack = [e.1] := by
    rw [hstack]
    rfl
  rcases main crit1 crit1Lt e.2 hsucc { st with stack := st.stack ++ [e.1] } h0stack
    (by simpa using hpaths) with ⟨h1stack, h1paths⟩
  rcases main crit2 crit2Lt e.2 hsucc _ h1stack h1paths with ⟨h2stack, h2paths⟩
  refine ⟨?_, ?_⟩
  · simp only [h2stack]
    rfl
  · simpa using h2paths

/-- Every polygon produced by the composite traversal of a well-shaped,
distinct-key segment graph is a constructor image of a core path of length at
least 3. -/
theorem segmentTraversal_paths_good (g : SegAdj) (hg : GoodShape g) (hnd : NodupKeys g) :
    ∀ P ∈ (segmentTraversal g).paths, GoodPoly P := by
  have main : ∀ (entries : List (Segment × List Segment)), (∀ e ∈ entries, e ∈ g) →
      ∀ st : TravState, st.stack = [] → (∀ P ∈ st.paths, GoodPoly P) →
        ∀ P ∈ (entries.foldl (segmentSource g (fuelOf g)) st).paths, GoodPoly P := by
    intro entries
    induction entries with
    | nil => intro _ st _ hpaths P hP; exact hpaths P hP
    | cons e rest ih =>
        intro hsub st hstack hpaths
        simp only [List.foldl_cons]
        rcases segmentSource_good hg hnd (fuelOf g) st e (hsub e (by simp)) hstack hpaths with
          ⟨hstack', hpaths'⟩
        exact ih (fun x hx => hsub x (by simp [hx])) _ hstack' hpaths'
  exact main g (fun e he => he) ⟨[], [], true⟩ rfl (by simp)

/-- Filter outputs are drawn from the filter's input list. -/
theorem mem_filterPolygons {P : Polygon} {polygons : List Polygon} {amin : ℚ}
    (h : P ∈ filterPolygons polygons amin) : P ∈ polygons := by
  have h1 := mem_selectPolygons h
  have h2 := mem_sortByArea.mp h1
  exact List.mem_of_mem_filter h2

set_option maxRecDepth 100000 in
set_option maxHeartbeats 4000000 in
/-- C1 counterexample: a bowtie input (two tilted triangles sharing only one
vertex) makes `polygonalize` return a figure-eight polygon whose core vertex
sequence repeats the shared vertex, so the output vertices are not pairwise
distinct. -/
theorem polygonalize_repeated_vertex :
    ∃ P ∈ polygonalize bowtieSegments false (1 / 100), ¬(P.sequence.dropLast).Nodup := by
  with_unfolding_all decide

/-- C1 amended: every output polygon of `polygonalize` (either mode) has a
closed sequence (first vertex equal to last), a core of at least three
vertices, and a plane normal with non-negative z component.  (The pairwise
distinctness of the core vertices claimed alongside these fails, see the
counterexample: closure is detected on segments, not points, so a figure-eight
walk through a shared vertex can close into one polygon.) -/
theorem polygonalize_output_shape (segments : List Segment) (par : Bool) (amin : ℚ)
    (P : Polygon) (h : P ∈ polygonalize segments par amin) :
    P.sequence.head? = P.sequence.getLast? ∧
      3 ≤ P.sequence.length - 1 ∧
      0 ≤ (normalV P.sequence).z := by
  have hgood : GoodPoly P := by
    unfold polygonalize at h
    cases par with
    | false =>
        simp only [Bool.false_eq_true, if_false] at h
        have hmem := mem_filterPolygons h
        exact segmentTraversal_paths_good _ (goodShape_build none _) (nodupKeys_build none _)
          P hmem
    | true =>
        simp only [if_true] at h
        rcases List.mem_flatten.mp h with ⟨l, hl, hPl⟩
        rcases List.mem_map.mp hl with ⟨partition, hpart, rfl⟩
        have hmem := mem_filterPolygons hPl
        exact segmentTraversal_paths_good _ (goodShape_build (some partition) _)
          (nodupKeys_build (some partition) _) P hmem
  rcases hgood with ⟨core, rfl, hlen⟩
  have hne : core ≠ [] := by
    intro hnil
    rw [hnil] at hlen
    simp at hlen
  refine ⟨fromVertices_sequence_closed core, ?_, fromVertices_normal_z_nonneg core⟩
  rw [fromVertices_sequence_length core hne]
  omega

set_option maxRecDepth 100000 in
set_option maxHeartbeats 4000000 in
/-- Witness for the amended C1 at a concrete run: one of the bowtie output
polygons is the right tilted lobe, and it satisfies all three properties. -/
theorem polygonalize_output_shape_witness :
    Polygon.fromVertices [⟨0, 0, 0⟩, ⟨1, -1, 10⟩, ⟨1, 1, 10⟩] ∈
        polygonalize bowtieSegments false (1 / 100) ∧
      ((Polygon.fromVertices [⟨0, 0, 0⟩, ⟨1, -1, 10⟩, ⟨1, 1, 10⟩]).sequence.head? =
          (Polygon.fromVertices [⟨0, 0, 0⟩, ⟨1, -1, 10⟩, ⟨1, 1, 10⟩]).sequence.getLast? ∧
        3 ≤ (Polygon.fromVertices [⟨0, 0, 0⟩, ⟨1, -1, 10⟩, ⟨1, 1, 10⟩]).sequence.length - 1 ∧
        0 ≤ (normalV (Polygon.fromVertices [⟨0, 0, 0⟩, ⟨1, -1, 10⟩, ⟨1, 1, 10⟩]).sequence).z) := by
  have h : Polygon.fromVertices [⟨0, 0, 0⟩, ⟨1, -1, 10⟩, ⟨1, 1, 10⟩] ∈
      polygonalize bowtieSegments false (1 / 100) := by
    with_unfolding_all decide
  exact ⟨h, polygonalize_output_shape bowtieSegments false (1 / 100) _ h⟩

/-- Witness for C6 at a concrete graph: one point with two neighbours carries
the edge `(wpA, wpB) -> (wpB, wpC)`. -/
theorem segment_graph_edge_invariant_witness :
    (wT ∈ (alookup (buildSegmentGraphFromAdjacencyListOfPoints none wAdj) wS).getD []) ∧
      (wS.2 = wT.1 ∧ wS.1 ≠ wT.2 ∧ ∃ ns, (wS.2, ns) ∈ wAdj ∧ wS.1 ∈ ns ∧ wT.2 ∈ ns) := by
  have h : wT ∈ (alookup (buildSegmentGraphFromAdjacencyListOfPoints none wAdj) wS).getD [] := by
    with_unfolding_all decide
  exact ⟨h, segment_graph_edge_invariant none wAdj wS wT h⟩

/-- Every ordered pair over a list occurs among its neighbour pairs. -/
theorem neighborPairs_mem {u c : Point} {ns : List Point} (hu : u ∈ ns) (hc : c ∈ ns) :
    (u, c) ∈ neighborPairs ns := by
  unfold neighborPairs
  have main : ∀ l : List Point, u ∈ l →
      (u, c) ∈ l.foldr (fun x acc => (ns.map fun y => (x, y)) ++ acc) [] := by
    intro l
    induction l with
    | nil => intro h; simp at h
    | cons x xs ih =>
        intro h
        simp only [List.foldr_cons, List.mem_append]
        rcases List.mem_cons.mp h with h1 | h1
        · left
          exact List.mem_map.mpr ⟨c, hc, by rw [h1]⟩
        · right
          exact ih h1
  exact main ns hu

/-- Present keys survive the inner pair fold of the segment-graph build. -/
theorem segBuild_innerFold_isSome (p : Point) (ps : List (Point × Point)) (g : SegAdj)
    (s : Segment) (h : (alookup g s).isSome = true) :
    (alookup (ps.foldl
      (fun g ft =>
        if ft.1 = ft.2 then g
        else aupdate g (ft.1, p) (insertSegSucc (p, ft.2)) [(p, ft.2)]) g) s).isSome = true := by
  induction ps generalizing g with
  | nil => exact h
  | cons ft rest ih =>
      simp only [List.foldl_cons]
      apply ih
      by_cases heq : ft.1 = ft.2
      · rw [if_pos heq]; exact h
      · rw [if_neg heq, alookup_aupdate]
        by_cases hs : s = (ft.1, p)
        · rw [if_pos hs]; simp
        · rw [if_neg hs]; exact h

/-- The inner pair fold creates the key of every distinct ordered pair it
processes. -/
theorem segBuild_innerFold_creates (p : Point) (ps : List (Point × Point)) (g : SegAdj)
    (u c : Point) (hmem : (u, c) ∈ ps) (hne : u ≠ c) :
    (alookup (ps.foldl
      (fun g ft =>
        if ft.1 = ft.2 then g
        else aupdate g (ft.1, p) (insertSegSucc (p, ft.2)) [(p, ft.2)]) g) (u, p)).isSome =
      true := by
  induction ps generalizing g with
  | nil => simp at hmem
  | cons ft rest ih =>
      simp only [List.foldl_cons]
      rcases List.mem_cons.mp hmem with h1 | h1
      · apply segBuild_innerFold_isSome
        have hcond : ¬ft.1 = ft.2 := by
          rw [← h1]
          exact hne
        rw [if_neg hcond, alookup_aupdate]
        have hk : ((u : Point), p) = (ft.1, p) := by rw [← h1]
        rw [if_pos hk]
        simp
      · exact ih _ h1

/-- Present keys survive the outer entry fold of the segment-graph build. -/
theorem segBuild_outerFold_isSome (entries : List (Point × List Point)) (g : SegAdj)
    (s : Segment) (h : (alookup g s).isSome = true) :
    (alookup (entries.foldl
      (fun graph e =>
        (neighborPairs e.2).foldl
          (fun g ft =>
            if ft.1 = ft.2 then g
            else aupdate g (ft.1, e.1) (insertSegSucc (e.1, ft.2)) [(e.1, ft.2)])
          graph) g) s).isSome = true := by
  induction entries generalizing g with
  | nil => exact h
  | cons e rest ih =>
      simp only [List.foldl_cons]
      exact ih _ (segBuild_innerFold_isSome e.1 (neighborPairs e.2) g s h)

/-- The outer fold creates the key `(u, p)` whenever the entry of `p` holds two
distinct neighbours `u` and `c`. -/
theorem segBuild_outerFold_creates (entries : List (Point × List Point)) (g : SegAdj)
    (p : Point) (ns : List Point) (u c : Point) (he : (p, ns) ∈ entries)
    (hu : u ∈ ns) (hc : c ∈ ns) (hne : u ≠ c) :
    (alookup (entries.foldl
      (fun graph e =>
        (neighborPairs e.2).foldl
          (fun g ft =>
            if ft.1 = ft.2 then g
            else aupdate g (ft.1, e.1) (insertSegSucc (e.1, ft.2)) [(e.1, ft.2)])
          graph) g) (u, p)).isSome = true := by
  induction entries generalizing g with
  | nil => simp at he
  | cons e rest ih =>
      simp only [List.foldl_cons]
      rcases List.mem_cons.mp he with h1 | h1
      · apply segBuild_outerFold_isSome
        rw [← h1]
        exact segBuild_innerFold_creates p (neighborPairs ns) g u c
          (neighborPairs_mem hu hc) hne
      · exact ih _ h1

/-- In the graph built (without a point filter) from a symmetric, duplicate
free point graph of minimum degree 2, every adjacency successor is again a
key: the lookup the traversal performs on an elected successor cannot miss. -/
theorem build_closed (adj : AdjP) (hS : SymAdj adj) (hK : NodupKeys adj)
    (hN : NodupNbrs adj) (hdeg : ∀ p ns, alookup adj p = some ns → 2 ≤ ns.length) :
    ∀ s t : Segment, SegEdge (buildSegmentGraphFromAdjacencyListOfPoints none adj) s t →
      (alookup (buildSegmentGraphFromAdjacencyListOfPoints none adj) t).isSome = true := by
  intro s t hedge
  obtain ⟨hshape, hne2, ns, hmem, hs1, ht2⟩ := goodSegGraph_build none adj s t hedge
  have hlook : alookup adj s.2 = some ns := alookup_of_mem_nodupKeys hK hmem
  have hsym : s.2 ∈ nbrs adj t.2 := by
    apply hS
    unfold nbrs
    rw [hlook]
    simpa using ht2
  unfold nbrs at hsym
  cases hlt : alookup adj t.2 with
  | none => rw [hlt] at hsym; simp at hsym
  | some ns2 =>
      rw [hlt] at hsym
      simp only [Option.getD_some] at hsym
      have hlen : 2 ≤ ns2.length := hdeg t.2 ns2 hlt
      have hnd2 : ns2.Nodup := hN t.2 ns2 hlt
      obtain ⟨c, hc, hcs⟩ : ∃ c ∈ ns2, c ≠ s.2 := by
        cases ns2 with
        | nil => simp at hlen
        | cons a l2 =>
            cases l2 with
            | nil => simp at hlen
            | cons b l3 =>
                rcases List.nodup_cons.mp hnd2 with ⟨ha, _⟩
                by_cases hasb : a = s.2
                · refine ⟨b, by simp, ?_⟩
                  intro hb
                  exact ha (by rw [hasb, ← hb]; simp)
                · exact ⟨a, by simp, hasb⟩
      have hentry : ((t.2 : Point), ns2) ∈ adj.filter (fun e =>
          match (none : Option (List Point)) with
          | none => true
          | some values => decide (e.1 ∈ values)) :=
        List.mem_filter.mpr ⟨mem_of_alookup hlt, rfl⟩
      have hkey := segBuild_outerFold_creates _ [] t.2 ns2 s.2 c hentry hsym hc hcs.symm
      have ht : t = ((s.2 : Point), t.2) := by
        cases t
        simp only at hshape ⊢
        rw [hshape]
      rw [ht]
      exact hkey

/-- Successors of the segment graph live in its segment universe. -/
theorem mem_segUniverse_of_succ {g : SegAdj} {s t : Segment} (h : SegEdge g s t) :
    t ∈ segUniverse g := by
  unfold SegEdge at h
  cases hl : alookup g s with
  | none => rw [hl] at h; simp at h
  | some succs =>
      rw [hl] at h
      simp only [Option.getD_some] at h
      unfold segUniverse
      rw [List.mem_dedup]
      refine List.mem_append.mpr (Or.inr ?_)
      exact List.mem_flatten.mpr ⟨succs, List.mem_map.mpr ⟨(s, succs), mem_of_alookup hl, rfl⟩, h⟩

/-- Keys of the segment graph live in its segment universe. -/
theorem mem_segUniverse_of_key {g : SegAdj} {e : Segment × List Segment} (h : e ∈ g) :
    e.1 ∈ segUniverse g := by
  unfold segUniverse
  rw [List.mem_dedup]
  exact List.mem_append.mpr (Or.inl (List.mem_map.mpr ⟨e, h, rfl⟩))

/-- On a closed graph, a traversal entered with a non-empty duplicate-free
stack inside the universe, a present current segment and enough fuel never
clears the `ok` flag. -/
theorem traverseRec_ok {γ : Type} (g : SegAdj) (crit : Segment → Segment → Segment → γ)
    (lt : γ → γ → Bool)
    (hclosed : ∀ s t : Segment, SegEdge g s t → (alookup g t).isSome = true) :
    ∀ (fuel : ℕ) (cur prev : Segment) (st : TravState),
      st.ok = true →
      (alookup g cur).isSome = true →
      st.stack ≠ [] →
      st.stack.Nodup →
      (∀ x ∈ st.stack, x ∈ segUniverse g) →
      cur ∈ segUniverse g →
      (segUniverse g).length + 1 ≤ fuel + st.stack.length →
      (traverseRec g crit lt fuel cur prev st).ok = true := by
  intro fuel
  induction fuel with
  | zero =>
      intro cur prev st hok hcur hne hnd hsub hcu hfuel
      exfalso
      have hle : st.stack.length ≤ (segUniverse g).length :=
        List.Subperm.length_le (List.Nodup.subperm hnd (fun x hx => hsub x hx))
      omega
  | succ n ih =>
      intro cur prev st hok hcur hne hnd hsub hcu hfuel
      rw [traverseRec]
      by_cases h1 : (cur.2, cur.1) ∈ st.stack
      · rw [if_pos h1]; exact hok
      · rw [if_neg h1]
        by_cases h2 : cur ∈ st.stack
        · rw [if_pos h2]; exact hok
        · rw [if_neg h2]
          have hflag : (electG g crit lt prev cur).2 = true := by
            unfold electG
            cases hl : alookup g cur with
            | none => rw [hl] at hcur; simp at hcur
            | some succs => simp
          have h3 : st.stack.isEmpty = false := by
            cases hstk : st.stack with
            | nil => exact absurd hstk hne
            | cons a t => rfl
          cases helect : (electG g crit lt prev cur).1 with
          | none => simp [helect, h3, hflag, hok]
          | some nxt =>
              have hedge : SegEdge g cur nxt := electG_edge helect
              have hnxtlook : (alookup g nxt).isSome = true := hclosed cur nxt hedge
              have hnxtuniv : nxt ∈ segUniverse g := mem_segUniverse_of_succ hedge
              have hnd2 : (st.stack ++ [cur]).Nodup := by
                simp only [List.nodup_append, List.nodup_cons]
                exact ⟨hnd, by simp, by simpa using h2⟩
              have hsub2 : ∀ x ∈ st.stack ++ [cur], x ∈ segUniverse g := by
                intro x hx
                rcases List.mem_append.mp hx with hx | hx
                · exact hsub x hx
                · rw [List.mem_singleton.mp hx]
                  exact hcu
              have hfuel2 : (segUniverse g).length + 1 ≤ n + (st.stack ++ [cur]).length := by
                simp only [List.length_append, List.length_singleton]
                omega
              have hrec := ih nxt cur
                  ({ st with stack := st.stack ++ [cur], ok := st.ok && (electG g crit lt prev cur).2 })
                  (by simp [hok, hflag]) hnxtlook (by simp) hnd2 hsub2 hnxtuniv hfuel2
              simp only [helect, h3, Bool.false_eq_true, if_false]
              exact hrec

/-- One source's processing keeps `ok` set and restores the empty stack, on a
closed graph with distinct keys. -/
theorem segmentSource_ok (g : SegAdj)
    (hclosed : ∀ s t : Segment, SegEdge g s t → (alookup g t).isSome = true)
    (hK : NodupKeys g) (st : TravState) (e : Segment × List Segment) (he : e ∈ g)
    (hok : st.ok = true) (hstack : st.stack = []) :
    (segmentSource g (fuelOf g) st e).ok = true ∧
      (segmentSource g (fuelOf g) st e).stack = [] := by
  have hkey : alookup g e.1 = some e.2 := by
    have he2 : e = (e.1, e.2) := rfl
    exact alookup_of_mem_nodupKeys hK (by rw [← he2]; exact he)
  have hsedge : ∀ succ ∈ e.2, SegEdge g e.1 succ := by
    intro succ hsucc
    unfold SegEdge
    rw [hkey]
    simpa using hsucc
  have hfold : ∀ {γ : Type} (crit : Segment → Segment → Segment → γ) (lt : γ → γ → Bool)
      (succs : List Segment), (∀ x ∈ succs, x ∈ e.2) → ∀ s : TravState,
      s.ok = true → s.stack = [e.1] →
      (succs.foldl (fun s succ => traverseRec g crit lt (fuelOf g) succ e.1 s) s).ok = true ∧
        (succs.foldl (fun s succ => traverseRec g crit lt (fuelOf g) succ e.1 s) s).stack =
          [e.1] := by
    intro γ crit lt succs
    induction succs with
    | nil => intro _ s hsok hsstack; exact ⟨hsok, hsstack⟩
    | cons succ rest ihs =>
        intro hsubs s hsok hsstack
        simp only [List.foldl_cons]
        refine ihs (fun x hx => hsubs x (by simp [hx])) _ ?_ ?_
        · have hsucc2 : succ ∈ e.2 := hsubs succ (by simp)
          have hedge := hsedge succ hsucc2
          refine traverseRec_ok g crit lt hclosed (fuelOf g) succ e.1 s hsok
            (hclosed e.1 succ hedge) (by rw [hsstack]; simp) (by rw [hsstack]; simp)
            ?_ (mem_segUniverse_of_succ hedge) ?_
          · intro x hx
            rw [hsstack] at hx
            simp only [List.mem_singleton] at hx
            rw [hx]
            exact mem_segUniverse_of_key he
          · rw [hsstack]
            unfold fuelOf
            simp
        · rw [traverseRec_stack_eq]
          exact hsstack
  have hst0 : ({ st with stack := st.stack ++ [e.1] } : TravState).stack = [e.1] := by
    rw [hstack]
    simp
  obtain ⟨hok1, hstk1⟩ := hfold crit1 crit1Lt e.2 (fun x hx => hx)
    ({ st with stack := st.stack ++ [e.1] }) hok hst0
  obtain ⟨hok2, hstk2⟩ := hfold crit2 crit2Lt e.2 (fun x hx => hx)
    (List.foldl (fun s succ => traverseRec g crit1 crit1Lt (fuelOf g) succ e.1 s)
      ({ st with stack := st.stack ++ [e.1] }) e.2) hok1 hstk1
  have hokfin : (segmentSource g (fuelOf g) st e).ok =
      (List.foldl (fun s succ => traverseRec g crit2 crit2Lt (fuelOf g) succ e.1 s)
        (List.foldl (fun s succ => traverseRec g crit1 crit1Lt (fuelOf g) succ e.1 s)
          ({ st with stack := st.stack ++ [e.1] }) e.2) e.2).ok := rfl
  have hstkfin : (segmentSource g (fuelOf g) st e).stack =
      (List.foldl (fun s succ => traverseRec g crit2 crit2Lt (fuelOf g) succ e.1 s)
        (List.foldl (fun s succ => traverseRec g crit1 crit1Lt (fuelOf g) succ e.1 s)
          ({ st with stack := st.stack ++ [e.1] }) e.2) e.2).stack.dropLast := rfl
  refine ⟨?_, ?_⟩
  · rw [hokfin]
    exact hok2
  · rw [hstkfin, hstk2]
    rfl

/-- The whole composite traversal keeps `ok` on a closed graph with distinct
keys. -/
theorem segmentTraversal_ok (g : SegAdj)
    (hclosed : ∀ s t : Segment, SegEdge g s t → (alookup g t).isSome = true)
    (hK : NodupKeys g) : (segmentTraversal g).ok = true := by
  unfold segmentTraversal
  have main : ∀ (es : List (Segment × List Segment)), (∀ e ∈ es, e ∈ g) →
      ∀ st : TravState, st.ok = true → st.stack = [] →
      (es.foldl (segmentSource g (fuelOf g)) st).ok = true ∧
        (es.foldl (segmentSource g (fuelOf g)) st).stack = [] := by
    intro es
    induction es with
    | nil => intro _ st hok hstack; exact ⟨hok, hstack⟩
    | cons e rest ih =>
        intro hsub st hok hstack
        simp only [List.foldl_cons]
        obtain ⟨hok1, hstk1⟩ := segmentSource_ok g hclosed hK st e (hsub e (by simp)) hok hstack
        exact ih (fun x hx => hsub x (by simp [hx])) _ hok1 hstk1
  exact (main g (fun e he => he) ⟨[], [], true⟩ rfl rfl).1

set_option maxHeartbeats 1000000 in
/-- C9: on the segment graph built from the pruned point graph of any segment
list, the composite traversal `SegmentGraph::segment` never reaches a
panicking operation (every adjacency lookup of an elected successor finds its
key, and in the exact-rational model every criterion comparison is total), and
the traversal of an empty adjacency map returns no polygons. -/
theorem segment_traversal_never_panics (segments : List Segment) :
    (segmentTraversal
        (buildSegmentGraphFromAdjacencyListOfPoints none (pipelineFrom segments))).ok = true ∧
      (segmentTraversal ([] : SegAdj)).paths = [] := by
  obtain ⟨hS, hN, hK, hdeg⟩ := pipelineFrom_inv segments
  refine ⟨?_, rfl⟩
  exact segmentTraversal_ok _ (build_closed _ hS hK hN hdeg)
    (nodupKeys_build none (pipelineFrom segments))

/-- The sequence of polygons a single policy-guided traversal inserts,
determined by the graph and the entry stack alone (the traversal reads neither
the path set nor the flag to decide its control flow). -/
def traceR {γ : Type} (g : SegAdj) (crit : Segment → Segment → Segment → γ)
    (lt : γ → γ → Bool) : ℕ → Segment → Segment → List Segment → List Polygon
  | 0, _, _, _ => []
  | fuel + 1, current, previous, stack =>
    if (current.2, current.1) ∈ stack then []
    else if current ∈ stack then
      [Polygon.fromVertices ((stack.drop (segIndexIn current stack)).map (·.1))]
    else
      match (electG g crit lt previous current).1 with
      | none => []
      | some nxt =>
          traceR g crit lt fuel nxt current (if stack.isEmpty then stack else stack ++ [current])

/-- Lookup distributes over append: the left list wins. -/
theorem alookup_append {κ ν : Type} [DecidableEq κ] (l1 l2 : List (κ × ν)) (k : κ) :
    alookup (l1 ++ l2) k =
      match alookup l1 k with
      | some v => some v
      | none => alookup l2 k := by
  induction l1 with
  | nil => rfl
  | cons e t ih =>
      by_cases hk : k = e.1
      · simp [alookup, hk]
      · simp only [List.cons_append, alookup, if_neg hk]
        exact ih

/-- The first memoisation cache only holds values the pure first policy
produces. -/
def Cache1OK (g : SegAdj) (c : List ((Segment × Segment) × Option Segment)) : Prop :=
  ∀ pc v, alookup c pc = some v → v = (electPure1 g pc.1 pc.2).1

/-- The second memoisation cache only holds values the pure second policy
produces. -/
def Cache2OK (g : SegAdj) (c : List ((Segment × Segment) × Option Segment)) : Prop :=
  ∀ pc v, alookup c pc = some v → v = (electPure2 g pc.1 pc.2).1

/-- On a faithful cache, the memoised election returns the pure election and
only extends the cache faithfully. -/
theorem electCached1_char (g : SegAdj) (prev cur : Segment) (st : TravStateC)
    (h1 : Cache1OK g st.cache1) :
    (electCached1 g prev cur st).1 = (electPure1 g prev cur).1 ∧
      (electCached1 g prev cur st).2.stack = st.stack ∧
      (electCached1 g prev cur st).2.paths = st.paths ∧
      (electCached1 g prev cur st).2.cache2 = st.cache2 ∧
      Cache1OK g (electCached1 g prev cur st).2.cache1 := by
  unfold electCached1
  cases hc : alookup st.cache1 (prev, cur) with
  | some v =>
      exact ⟨h1 (prev, cur) v hc, rfl, rfl, rfl, h1⟩
  | none =>
      refine ⟨rfl, rfl, rfl, rfl, ?_⟩
      intro pc v hv
      simp only at hv
      rw [alookup_append] at hv
      cases hcc : alookup st.cache1 pc with
      | some w =>
          rw [hcc] at hv
          simp only [Option.some.injEq] at hv
          rw [← hv]
          exact h1 pc w hcc
      | none =>
          rw [hcc] at hv
          simp only [alookup] at hv
          by_cases hpc : pc = (prev, cur)
          · rw [if_pos hpc] at hv
            simp only [Option.some.injEq] at hv
            rw [← hv, hpc]
          · rw [if_neg hpc] at hv
            simp [alookup] at hv

/-- The second cached election behaves like its pure policy on faithful
caches. -/
theorem electCached2_char (g : SegAdj) (prev cur : Segment) (st : TravStateC)
    (h2 : Cache2OK g st.cache2) :
    (electCached2 g prev cur st).1 = (electPure2 g prev cur).1 ∧
      (electCached2 g prev cur st).2.stack = st.stack ∧
      (electCached2 g prev cur st).2.paths = st.paths ∧
      (electCached2 g prev cur st).2.cache1 = st.cache1 ∧
      Cache2OK g (electCached2 g prev cur st).2.cache2 := by
  unfold electCached2
  cases hc : alookup st.cache2 (prev, cur) with
  | some v =>
      exact ⟨h2 (prev, cur) v hc, rfl, rfl, rfl, h2⟩
  | none =>
      refine ⟨rfl, rfl, rfl, rfl, ?_⟩
      intro pc v hv
      simp only at hv
      rw [alookup_append] at hv
      cases hcc : alookup st.cache2 pc with
      | some w =>
          rw [hcc] at hv
          simp only [Option.some.injEq] at hv
          rw [← hv]
          exact h2 pc w hcc
      | none =>
          rw [hcc] at hv
          simp only [alookup] at hv
          by_cases hpc : pc = (prev, cur)
          · rw [if_pos hpc] at hv
            simp only [Option.some.injEq] at hv
            rw [← hv, hpc]
          · rw [if_neg hpc] at hv
            simp [alookup] at hv

/-- The composite traversal's per-call path contribution is exactly its
trace, folded into the path set. -/
theorem traverseRec_char {γ : Type} (g : SegAdj) (crit : Segment → Segment → Segment → γ)
    (lt : γ → γ → Bool) :
    ∀ (fuel : ℕ) (cur prev : Segment) (st : TravState),
      (traverseRec g crit lt fuel cur prev st).paths =
        (traceR g crit lt fuel cur prev st.stack).foldl insertPath st.paths := by
  intro fuel
  induction fuel with
  | zero => intro cur prev st; rfl
  | succ n ih =>
      intro cur prev st
      rw [traverseRec, traceR]
      by_cases h1 : (cur.2, cur.1) ∈ st.stack
      · rw [if_pos h1, if_pos h1]
        rfl
      · rw [if_neg h1, if_neg h1]
        by_cases h2 : cur ∈ st.stack
        · rw [if_pos h2, if_pos h2]
          rfl
        · rw [if_neg h2, if_neg h2]
          cases helect : (electG g crit lt prev cur).1 with
          | none =>
              by_cases h3 : st.stack.isEmpty
              · simp [helect, h3]
              · simp [helect, h3]
          | some nxt =>
              by_cases h3 : st.stack.isEmpty
              · simp only [helect, h3, if_true]
                exact ih nxt cur { st with ok := st.ok && (electG g crit lt prev cur).2 }
              · simp only [helect, h3, Bool.false_eq_true, if_false]
                exact ih nxt cur { st with stack := st.stack ++ [cur], ok := st.ok && (electG g crit lt prev cur).2 }

/-- The strategy-parameterised trace of the alternative driver. -/
def traceFor (g : SegAdj) (strat : Bool) (fuel : ℕ) (cur prev : Segment)
    (stack : List Segment) : List Polygon :=
  if strat then traceR g crit1 crit1Lt fuel cur prev stack
  else traceR g crit2 crit2Lt fuel cur prev stack

/-- The theta-first trace is the first-criterion trace. -/
theorem traceFor_true (g : SegAdj) : traceFor g true = traceR g crit1 crit1Lt := rfl

/-- The coplanarity-first trace is the second-criterion trace. -/
theorem traceFor_false (g : SegAdj) : traceFor g false = traceR g crit2 crit2Lt := rfl

/-- Unfolding of the strategy trace at zero fuel. -/
theorem traceFor_zero (g : SegAdj) (strat : Bool) (cur prev : Segment) (stack : List Segment) :
    traceFor g strat 0 cur prev stack = [] := by
  cases strat <;> rfl

/-- Unfolding of the strategy trace at positive fuel. -/
theorem traceFor_succ (g : SegAdj) (strat : Bool) (n : ℕ) (cur prev : Segment)
    (stack : List Segment) :
    traceFor g strat (n + 1) cur prev stack =
      if (cur.2, cur.1) ∈ stack then []
      else if cur ∈ stack then
        [Polygon.fromVertices ((stack.drop (segIndexIn cur stack)).map (·.1))]
      else
        match (if strat then electPure1 g prev cur else electPure2 g prev cur).1 with
        | none => []
        | some nxt =>
            traceFor g strat n nxt cur (if stack.isEmpty then stack else stack ++ [cur]) := by
  cases strat <;> rfl

/-- The memoising traversal restores the stack, keeps the caches faithful, and
contributes exactly the trace of its pure policy to the path set. -/
theorem traverseC_char (g : SegAdj) (strat : Bool) :
    ∀ (fuel : ℕ) (cur prev : Segment) (st : TravStateC),
      Cache1OK g st.cache1 → Cache2OK g st.cache2 →
      (traverseC g strat fuel cur prev st).stack = st.stack ∧
        Cache1OK g (traverseC g strat fuel cur prev st).cache1 ∧
        Cache2OK g (traverseC g strat fuel cur prev st).cache2 ∧
        (traverseC g strat fuel cur prev st).paths =
          (traceFor g strat fuel cur prev st.stack).foldl insertPath st.paths := by
  intro fuel
  induction fuel with
  | zero =>
      intro cur prev st h1 h2
      refine ⟨rfl, h1, h2, ?_⟩
      rw [traceFor_zero]
      rfl
  | succ n ih =>
      intro cur prev st h1 h2
      rw [traverseC, traceFor_succ]
      by_cases hb1 : (cur.2, cur.1) ∈ st.stack
      · rw [if_pos hb1, if_pos hb1]
        exact ⟨rfl, h1, h2, rfl⟩
      · rw [if_neg hb1, if_neg hb1]
        by_cases hb2 : cur ∈ st.stack
        · rw [if_pos hb2, if_pos hb2]
          exact ⟨rfl, h1, h2, rfl⟩
        · rw [if_neg hb2, if_neg hb2]
          by_cases hb3 : st.stack.isEmpty = true
          · have hsnil : st.stack = [] := by
              cases hst : st.stack with
              | nil => rfl
              | cons a t => rw [hst] at hb3; simp at hb3
            cases strat with
            | true =>
                obtain ⟨he1, hestack, hepaths, hecache2, hecache1⟩ :=
                  electCached1_char g prev cur st h1
                cases helect : (electPure1 g prev cur).1 with
                | none =>
                    simp only [hb3, if_true, eq_self_iff_true, he1, helect]
                    refine ⟨?_, hecache1, ?_, ?_⟩
                    · rw [hestack, hsnil]
                      rfl
                    · rw [hecache2]
                      exact h2
                    · exact hepaths
                | some nxt =>
                    obtain ⟨hrstack, hrc1, hrc2, hrpaths⟩ :=
                      ih nxt cur (electCached1 g prev cur st).2 hecache1
                        (by rw [hecache2]; exact h2)
                    simp only [hb3, if_true, eq_self_iff_true, he1, helect]
                    refine ⟨?_, hrc1, hrc2, ?_⟩
                    · rw [hrstack, hestack, hsnil]
                      rfl
                    · rw [hrpaths, hestack, hepaths]
            | false =>
                obtain ⟨he1, hestack, hepaths, hecache1, hecache2⟩ :=
                  electCached2_char g prev cur st h2
                cases helect : (electPure2 g prev cur).1 with
                | none =>
                    simp only [hb3, if_true, eq_self_iff_true, Bool.false_eq_true, if_false,
                      he1, helect]
                    refine ⟨?_, ?_, hecache2, ?_⟩
                    · rw [hestack, hsnil]
                      rfl
                    · rw [hecache1]
                      exact h1
                    · exact hepaths
                | some nxt =>
                    obtain ⟨hrstack, hrc1, hrc2, hrpaths⟩ :=
                      ih nxt cur (electCached2 g prev cur st).2
                        (by rw [hecache1]; exact h1) hecache2
                    simp only [hb3, if_true, eq_self_iff_true, Bool.false_eq_true, if_false,
                      he1, helect]
                    refine ⟨?_, hrc1, hrc2, ?_⟩
                    · rw [hrstack, hestack, hsnil]
                      rfl
                    · rw [hrpaths, hestack, hepaths]
          · have hb3f : st.stack.isEmpty = false := by
              cases hst : st.stack.isEmpty with
              | false => rfl
              | true => exact absurd hst hb3
            cases strat with
            | true =>
                obtain ⟨he1, hestack, hepaths, hecache2, hecache1⟩ :=
                  electCached1_char g prev cur ({ st with stack := st.stack ++ [cur] }) h1
                cases helect : (electPure1 g prev cur).1 with
                | none =>
                    simp only [hb3f, Bool.false_eq_true, if_false, eq_self_iff_true, if_true,
                      he1, helect]
                    refine ⟨?_, hecache1, ?_, ?_⟩
                    · rw [hestack]
                      simp
                    · rw [hecache2]
                      exact h2
                    · exact hepaths
                | some nxt =>
                    obtain ⟨hrstack, hrc1, hrc2, hrpaths⟩ :=
                      ih nxt cur
                        (electCached1 g prev cur ({ st with stack := st.stack ++ [cur] })).2
                        hecache1 (by rw [hecache2]; exact h2)
                    simp only [hb3f, Bool.false_eq_true, if_false, eq_self_iff_true, if_true,
                      he1, helect]
                    refine ⟨?_, hrc1, hrc2, ?_⟩
                    · rw [hrstack, hestack]
                      simp
                    · rw [hrpaths, hestack, hepaths]
            | false =>
                obtain ⟨he1, hestack, hepaths, hecache1, hecache2⟩ :=
                  electCached2_char g prev cur ({ st with stack := st.stack ++ [cur] }) h2
                cases helect : (electPure2 g prev cur).1 with
                | none =>
                    simp only [hb3f, Bool.false_eq_true, if_false, he1, helect]
                    refine ⟨?_, ?_, hecache2, ?_⟩
                    · rw [hestack]
                      simp
                    · rw [hecache1]
                      exact h1
                    · exact hepaths
                | some nxt =>
                    obtain ⟨hrstack, hrc1, hrc2, hrpaths⟩ :=
                      ih nxt cur
                        (electCached2 g prev cur ({ st with stack := st.stack ++ [cur] })).2
                        (by rw [hecache1]; exact h1) hecache2
                    simp only [hb3f, Bool.false_eq_true, if_false, he1, helect]
                    refine ⟨?_, hrc1, hrc2, ?_⟩
                    · rw [hrstack, hestack]
                      simp
                    · rw [hrpaths, hestack, hepaths]

/-- Inserting into the path set preserves and reflects membership up to
polygon equality. -/
theorem polyMemB_insertPath (q p : Polygon) (init : List Polygon) :
    polyMemB q (insertPath init p) = (polyMemB q init || polyEqB p q) := by
  unfold insertPath
  by_cases h : polyMemB p init = true
  · rw [if_pos h]
    cases hpq : polyEqB p q with
    | false => simp
    | true =>
        have hmem : polyMemB q init = true := by
          unfold polyMemB at h ⊢
          rcases List.any_eq_true.mp h with ⟨r, hr, hrp⟩
          refine List.any_eq_true.mpr ⟨r, hr, ?_⟩
          simp only [polyEqB, decide_eq_true_eq] at hrp hpq ⊢
          exact hrp.trans hpq
        rw [hmem]
        rfl
  · rw [if_neg h]
    unfold polyMemB
    rw [List.any_append]
    simp

/-- Membership after folding a polygon sequence into the path set. -/
theorem polyMemB_foldl_insertPath (q : Polygon) :
    ∀ (L : List Polygon) (init : List Polygon),
      polyMemB q (L.foldl insertPath init) =
        (polyMemB q init || L.any fun p => polyEqB p q) := by
  intro L
  induction L with
  | nil => intro init; simp
  | cons p t ih =>
      intro init
      simp only [List.foldl_cons, List.any_cons]
      rw [ih, polyMemB_insertPath]
      cases polyMemB q init <;> cases polyEqB p q <;> simp

/-- Scanning the interleaved per-successor traces finds the same matches as
scanning the two passes one after the other. -/
theorem any_append_flatten {α : Type} (f1 f2 : α → List Polygon) (pr : Polygon → Bool)
    (l : List α) :
    ((l.map fun s => f1 s ++ f2 s).flatten.any pr) =
      (((l.map f1).flatten).any pr || ((l.map f2).flatten).any pr) := by
  induction l with
  | nil => rfl
  | cons x t ih =>
      simp only [List.map_cons, List.flatten_cons, List.any_append, ih]
      cases (f1 x).any pr <;> cases (f2 x).any pr <;>
        cases ((t.map f1).flatten).any pr <;> cases ((t.map f2).flatten).any pr <;> rfl

/-- The first-criterion pass over the successors of one source contributes the
concatenation of the single traversal traces. -/
theorem foldl_traverseRec_char {γ : Type} (g : SegAdj) (crit : Segment → Segment → Segment → γ)
    (lt : γ → γ → Bool) (fuel : ℕ) (prev : Segment) :
    ∀ (succs : List Segment) (s : TravState),
      (succs.foldl (fun s succ => traverseRec g crit lt fuel succ prev s) s).paths =
        ((succs.map fun succ => traceR g crit lt fuel succ prev s.stack).flatten).foldl
          insertPath s.paths ∧
      (succs.foldl (fun s succ => traverseRec g crit lt fuel succ prev s) s).stack =
        s.stack := by
  intro succs
  induction succs with
  | nil => intro s; exact ⟨rfl, rfl⟩
  | cons succ rest ihs =>
      intro s
      simp only [List.foldl_cons, List.map_cons, List.flatten_cons]
      obtain ⟨hp, hs⟩ := ihs (traverseRec g crit lt fuel succ prev s)
      rw [List.foldl_append]
      constructor
      · rw [hp, traverseRec_stack_eq, traverseRec_char]
      · rw [hs, traverseRec_stack_eq]

/-- The interleaved per-successor pass of the alternative driver contributes
the per-successor pair traces, and keeps the caches faithful. -/
theorem foldl_traverseC_char (g : SegAdj) (fuel : ℕ) (prev : Segment) :
    ∀ (succs : List Segment) (s : TravStateC),
      Cache1OK g s.cache1 → Cache2OK g s.cache2 →
      (succs.foldl
          (fun s succ => traverseC g false fuel succ prev (traverseC g true fuel succ prev s))
          s).paths =
        ((succs.map fun succ =>
            traceR g crit1 crit1Lt fuel succ prev s.stack ++
              traceR g crit2 crit2Lt fuel succ prev s.stack).flatten).foldl
          insertPath s.paths ∧
      (succs.foldl
          (fun s succ => traverseC g false fuel succ prev (traverseC g true fuel succ prev s))
          s).stack = s.stack ∧
      Cache1OK g (succs.foldl
          (fun s succ => traverseC g false fuel succ prev (traverseC g true fuel succ prev s))
          s).cache1 ∧
      Cache2OK g (succs.foldl
          (fun s succ => traverseC g false fuel succ prev (traverseC g true fuel succ prev s))
          s).cache2 := by
  intro succs
  induction succs with
  | nil => intro s h1 h2; exact ⟨rfl, rfl, h1, h2⟩
  | cons succ rest ihs =>
      intro s h1 h2
      simp only [List.foldl_cons, List.map_cons, List.flatten_cons]
      obtain ⟨h1stack, h1c1, h1c2, h1paths⟩ := traverseC_char g true fuel succ prev s h1 h2
      obtain ⟨h2stack, h2c1, h2c2, h2paths⟩ :=
        traverseC_char g false fuel succ prev (traverseC g true fuel succ prev s) h1c1 h1c2
      obtain ⟨hp, hs, hc1, hc2⟩ :=
        ihs (traverseC g false fuel succ prev (traverseC g true fuel succ prev s)) h2c1 h2c2
      refine ⟨?_, ?_, hc1, hc2⟩
      · rw [hp, h2stack, h1stack, h2paths, h1stack, h1paths, traceFor_true, traceFor_false]
        rw [List.foldl_append, List.foldl_append]
      · rw [hs, h2stack, h1stack]

/-- The two-pass processing of one source in `segment()` contributes the
first-criterion traces of all successors followed by the second-criterion
traces, and restores the stack. -/
theorem segmentSource_char (g : SegAdj) (fuel : ℕ) (st : TravState)
    (e : Segment × List Segment) :
    (segmentSource g fuel st e).paths =
      (((e.2.map fun succ =>
            traceR g crit1 crit1Lt fuel succ e.1 (st.stack ++ [e.1])).flatten) ++
          ((e.2.map fun succ =>
            traceR g crit2 crit2Lt fuel succ e.1 (st.stack ++ [e.1])).flatten)).foldl
        insertPath st.paths ∧
      (segmentSource g fuel st e).stack = st.stack := by
  obtain ⟨h1paths, h1stack⟩ := foldl_traverseRec_char g crit1 crit1Lt fuel e.1 e.2
    ({ st with stack := st.stack ++ [e.1] })
  obtain ⟨h2paths, h2stack⟩ := foldl_traverseRec_char g crit2 crit2Lt fuel e.1 e.2
    (e.2.foldl (fun s succ => traverseRec g crit1 crit1Lt fuel succ e.1 s)
      ({ st with stack := st.stack ++ [e.1] }))
  constructor
  · have hfin : (segmentSource g fuel st e).paths =
        (e.2.foldl (fun s succ => traverseRec g crit2 crit2Lt fuel succ e.1 s)
          (e.2.foldl (fun s succ => traverseRec g crit1 crit1Lt fuel succ e.1 s)
            ({ st with stack := st.stack ++ [e.1] }))).paths := rfl
    rw [hfin, h2paths, h1stack, h1paths, List.foldl_append]
  · have hfin : (segmentSource g fuel st e).stack =
        (e.2.foldl (fun s succ => traverseRec g crit2 crit2Lt fuel succ e.1 s)
          (e.2.foldl (fun s succ => traverseRec g crit1 crit1Lt fuel succ e.1 s)
            ({ st with stack := st.stack ++ [e.1] }))).stack.dropLast := rfl
    rw [hfin, h2stack, h1stack]
    simp

/-- The interleaved processing of one source in the alternative driver
contributes the per-successor paired traces, restores the stack, and keeps the
caches faithful. -/
theorem runSource_char (g : SegAdj) (fuel : ℕ) (st : TravStateC)
    (e : Segment × List Segment) (h1 : Cache1OK g st.cache1) (h2 : Cache2OK g st.cache2) :
    (runSource g fuel st e).paths =
      ((e.2.map fun succ =>
          traceR g crit1 crit1Lt fuel succ e.1 (st.stack ++ [e.1]) ++
            traceR g crit2 crit2Lt fuel succ e.1 (st.stack ++ [e.1])).flatten).foldl
        insertPath st.paths ∧
      (runSource g fuel st e).stack = st.stack ∧
      Cache1OK g (runSource g fuel st e).cache1 ∧
      Cache2OK g (runSource g fuel st e).cache2 := by
  obtain ⟨hpaths, hstack, hc1, hc2⟩ := foldl_traverseC_char g fuel e.1 e.2
    ({ st with stack := st.stack ++ [e.1] }) h1 h2
  have hfinp : (runSource g fuel st e).paths =
      (e.2.foldl
        (fun s succ => traverseC g false fuel succ e.1 (traverseC g true fuel succ e.1 s))
        ({ st with stack := st.stack ++ [e.1] })).paths := rfl
  have hfins : (runSource g fuel st e).stack =
      (e.2.foldl
        (fun s succ => traverseC g false fuel succ e.1 (traverseC g true fuel succ e.1 s))
        ({ st with stack := st.stack ++ [e.1] })).stack.dropLast := rfl
  have hfinc1 : (runSource g fuel st e).cache1 =
      (e.2.foldl
        (fun s succ => traverseC g false fuel succ e.1 (traverseC g true fuel succ e.1 s))
        ({ st with stack := st.stack ++ [e.1] })).cache1 := rfl
  have hfinc2 : (runSource g fuel st e).cache2 =
      (e.2.foldl
        (fun s succ => traverseC g false fuel succ e.1 (traverseC g true fuel succ e.1 s))
        ({ st with stack := st.stack ++ [e.1] })).cache2 := rfl
  refine ⟨?_, ?_, ?_, ?_⟩
  · rw [hfinp, hpaths]
  · rw [hfins, hstack]
    simp
  · rw [hfinc1]
    exact hc1
  · rw [hfinc2]
    exact hc2

/-- Folding the per-source processing over any entry list keeps the two
drivers' path sets equal up to polygon equality. -/
theorem traversal_fold_mem (g : SegAdj) :
    ∀ (es : List (Segment × List Segment)) (stG : TravState) (stC : TravStateC),
      stG.stack = stC.stack →
      Cache1OK g stC.cache1 → Cache2OK g stC.cache2 →
      (∀ q, polyMemB q stG.paths = polyMemB q stC.paths) →
      (∀ q, polyMemB q (es.foldl (segmentSource g (fuelOf g)) stG).paths =
          polyMemB q (es.foldl (runSource g (fuelOf g)) stC).paths) ∧
        (es.foldl (segmentSource g (fuelOf g)) stG).stack = stG.stack ∧
        (es.foldl (runSource g (fuelOf g)) stC).stack = stC.stack ∧
        Cache1OK g (es.foldl (runSource g (fuelOf g)) stC).cache1 ∧
        Cache2OK g (es.foldl (runSource g (fuelOf g)) stC).cache2 := by
  intro es
  induction es with
  | nil => intro stG stC _ h1 h2 hmem; exact ⟨hmem, rfl, rfl, h1, h2⟩
  | cons e rest ih =>
      intro stG stC hstacks h1 h2 hmem
      simp only [List.foldl_cons]
      obtain ⟨hGpaths, hGstack⟩ := segmentSource_char g (fuelOf g) stG e
      obtain ⟨hCpaths, hCstack, hCc1, hCc2⟩ := runSource_char g (fuelOf g) stC e h1 h2
      have hmem2 : ∀ q, polyMemB q (segmentSource g (fuelOf g) stG e).paths =
          polyMemB q (runSource g (fuelOf g) stC e).paths := by
        intro q
        rw [hGpaths, hCpaths, polyMemB_foldl_insertPath, polyMemB_foldl_insertPath,
          hmem q, hstacks, List.any_append, any_append_flatten]
      obtain ⟨hm, hg, hc, hc1, hc2⟩ := ih (segmentSource g (fuelOf g) stG e)
        (runSource g (fuelOf g) stC e) (by rw [hGstack, hCstack, hstacks]) hCc1 hCc2 hmem2
      exact ⟨hm, by rw [hg, hGstack], by rw [hc, hCstack], hc1, hc2⟩

/-- Neighbours of present points are present (their neighbour set holds the
point back). -/
theorem key_of_mem_nbrs {adj : AdjP} (hSym : SymAdj adj) {p q : Point}
    (h : q ∈ nbrs adj p) : (alookup adj q).isSome = true := by
  have h2 : p ∈ nbrs adj q := hSym p q h
  unfold nbrs at h2
  cases hq : alookup adj q with
  | none => rw [hq] at h2; simp at h2
  | some v => simp

/-- A duplicate-free list of present points is no longer than the map. -/
theorem keys_length_le {adj : AdjP} (_hK : NodupKeys adj) {l : List Point}
    (hnd : l.Nodup) (hkeys : ∀ x ∈ l, (alookup adj x).isSome = true) :
    l.length ≤ adj.length := by
  have hsub : l ⊆ adj.map (·.1) := by
    intro x hx
    have := hkeys x hx
    cases hl : alookup adj x with
    | none => rw [hl] at this; simp at this
    | some v => exact List.mem_map.mpr ⟨(x, v), mem_of_alookup hl, rfl⟩
  have := List.Subperm.length_le (List.Nodup.subperm hnd hsub)
  simpa using this

/-- The exploration only appends, and appends the same points to the visited
set and to the partition. -/
theorem exploreRec_shape (adj : AdjP) :
    ∀ (fuel : ℕ) (point : Point) (st : List Point × List Point),
      ∃ new, exploreRec adj fuel point st = (st.1 ++ new, st.2 ++ new) := by
  intro fuel
  induction fuel with
  | zero => intro point st; exact ⟨[], by simp [exploreRec]⟩
  | succ n ih =>
      intro point st
      rw [exploreRec]
      by_cases h : point ∈ st.1
      · rw [if_pos h]; exact ⟨[], by simp⟩
      · rw [if_neg h]
        have hfold : ∀ (qs : List Point) (s : List Point × List Point),
            ∃ new, qs.foldl (fun s q => exploreRec adj n q s) s = (s.1 ++ new, s.2 ++ new) := by
          intro qs
          induction qs with
          | nil => intro s; exact ⟨[], by simp⟩
          | cons q rest ihq =>
              intro s
              simp only [List.foldl_cons]
              obtain ⟨n2, h2⟩ := ihq (exploreRec adj n q s)
              obtain ⟨n1, h1⟩ := ih q s
              refine ⟨n1 ++ n2, ?_⟩
              rw [h2, h1]
              simp
        obtain ⟨new, hnew⟩ :=
          hfold ((alookup adj point).getD []) (st.1 ++ [point], st.2 ++ [point])
        refine ⟨point :: new, ?_⟩
        rw [hnew]
        simp

/-- The neighbour fold of the exploration also only appends, in lockstep. -/
theorem exploreFold_shape (adj : AdjP) (n : ℕ) :
    ∀ (qs : List Point) (s : List Point × List Point),
      ∃ new, qs.foldl (fun s q => exploreRec adj n q s) s = (s.1 ++ new, s.2 ++ new) := by
  intro qs
  induction qs with
  | nil => intro s; exact ⟨[], by simp⟩
  | cons q rest ihq =>
      intro s
      simp only [List.foldl_cons]
      obtain ⟨n2, h2⟩ := ihq (exploreRec adj n q s)
      obtain ⟨n1, h1⟩ := exploreRec_shape adj n q s
      refine ⟨n1 ++ n2, ?_⟩
      rw [h2, h1]
      simp

/-- Full correctness of the exploration: with enough fuel the seed is reached,
the visited set stays duplicate free and inside the map, and every newly
visited point has all its neighbours visited. -/
theorem exploreRec_spec (adj : AdjP) (hSym : SymAdj adj) (hK : NodupKeys adj) :
    ∀ (fuel : ℕ) (point : Point) (st : List Point × List Point),
      (alookup adj point).isSome = true →
      st.1.Nodup →
      (∀ x ∈ st.1, (alookup adj x).isSome = true) →
      adj.length + 1 ≤ fuel + st.1.length →
      point ∈ (exploreRec adj fuel point st).1 ∧
        (exploreRec adj fuel point st).1.Nodup ∧
        (∀ x ∈ (exploreRec adj fuel point st).1, (alookup adj x).isSome = true) ∧
        (∀ y ∈ (exploreRec adj fuel point st).1, y ∉ st.1 →
          ∀ q ∈ nbrs adj y, q ∈ (exploreRec adj fuel point st).1) := by
  intro fuel
  induction fuel with
  | zero =>
      intro point st hkey hnd hkeys hfuel
      exfalso
      have := keys_length_le hK hnd hkeys
      omega
  | succ n ih =>
      intro point st hkey hnd hkeys hfuel
      rw [exploreRec]
      by_cases h : point ∈ st.1
      · rw [if_pos h]
        exact ⟨h, hnd, hkeys, fun y hy hyn q hq => absurd hy hyn⟩
      · rw [if_neg h]
        have hfold : ∀ (qs : List Point) (s : List Point × List Point),
            (∀ q ∈ qs, (alookup adj q).isSome = true) →
            s.1.Nodup →
            (∀ x ∈ s.1, (alookup adj x).isSome = true) →
            adj.length + 1 ≤ n + s.1.length →
            (∀ q ∈ qs, q ∈ (qs.foldl (fun s q => exploreRec adj n q s) s).1) ∧
              (qs.foldl (fun s q => exploreRec adj n q s) s).1.Nodup ∧
              (∀ x ∈ (qs.foldl (fun s q => exploreRec adj n q s) s).1,
                (alookup adj x).isSome = true) ∧
              (∀ y ∈ (qs.foldl (fun s q => exploreRec adj n q s) s).1, y ∉ s.1 →
                ∀ q ∈ nbrs adj y, q ∈ (qs.foldl (fun s q => exploreRec adj n q s) s).1) := by
          intro qs
          induction qs with
          | nil =>
              intro s _ hnd1 hkeys1 _
              exact ⟨fun q hq => absurd hq (List.not_mem_nil q), hnd1, hkeys1,
                fun y hy hyn q hq => absurd hy hyn⟩
          | cons q rest ihq =>
              intro s hqs hnd1 hkeys1 hfuel1
              simp only [List.foldl_cons]
              obtain ⟨hq1, hnd2, hkeys2, hclose2⟩ :=
                ih q s (hqs q (by simp)) hnd1 hkeys1 hfuel1
              obtain ⟨new1, hshape2⟩ := exploreRec_shape adj n q s
              obtain ⟨hqrest, hnd3, hkeys3, hclose3⟩ :=
                ihq (exploreRec adj n q s) (fun x hx => hqs x (by simp [hx])) hnd2 hkeys2
                  (by
                    have hlen : s.1.length ≤ (exploreRec adj n q s).1.length := by
                      rw [hshape2]
                      simp
                    omega)
              obtain ⟨new2, hshape3⟩ := exploreFold_shape adj n rest (exploreRec adj n q s)
              have hmono : ∀ x ∈ (exploreRec adj n q s).1,
                  x ∈ (rest.foldl (fun s q => exploreRec adj n q s) (exploreRec adj n q s)).1 := by
                intro x hx
                rw [hshape3]
                simp only [List.mem_append]
                exact Or.inl hx
              refine ⟨?_, hnd3, hkeys3, ?_⟩
              · intro x hx
                rcases List.mem_cons.mp hx with h1 | h1
                · rw [h1]; exact hmono q hq1
                · exact hqrest x h1
              · intro y hy hyn qn hqn
                by_cases hy2 : y ∈ (exploreRec adj n q s).1
                · exact hmono qn (hclose2 y hy2 hyn qn hqn)
                · exact hclose3 y hy hy2 qn hqn
        have hqs : ∀ q ∈ (alookup adj point).getD [], (alookup adj q).isSome = true := by
          intro q hq
          exact key_of_mem_nbrs hSym (p := point) hq
        have hnd0 : (st.1 ++ [point]).Nodup := by
          simp [List.nodup_append, hnd, h]
        have hkeys0 : ∀ x ∈ st.1 ++ [point], (alookup adj x).isSome = true := by
          intro x hx
          rcases List.mem_append.mp hx with h1 | h1
          · exact hkeys x h1
          · rw [List.mem_singleton.mp h1]; exact hkey
        obtain ⟨hq1, hnd1, hkeys1, hclose1⟩ :=
          hfold ((alookup adj point).getD []) (st.1 ++ [point], st.2 ++ [point]) hqs hnd0
            hkeys0 (by simp only [List.length_append, List.length_singleton]; omega)
        obtain ⟨newf, hshapef⟩ := exploreFold_shape adj n ((alookup adj point).getD [])
          (st.1 ++ [point], st.2 ++ [point])
        have hpoint : point ∈ (((alookup adj point).getD []).foldl
            (fun s q => exploreRec adj n q s) (st.1 ++ [point], st.2 ++ [point])).1 := by
          rw [hshapef]
          simp
        refine ⟨hpoint, hnd1, hkeys1, ?_⟩
        intro y hy hyn qn hqn
        by_cases hyp : y = point
        · rw [hyp] at hqn
          exact hq1 qn hqn
        · refine hclose1 y hy ?_ qn hqn
          intro hmem
          rcases List.mem_append.mp hmem with h1 | h1
          · exact hyn h1
          · exact hyp (List.mem_singleton.mp h1)

/-- The invariant of the partition fold: visited points are distinct, present
and closed under adjacency, every visited point lies in a recorded partition,
every recorded partition is a non-empty closed set of visited points, and the
recorded partitions are pairwise disjoint. -/
def PartInv (adj : AdjP) (st : List Point × List (List Point)) : Prop :=
  st.1.Nodup ∧ (∀ x ∈ st.1, (alookup adj x).isSome = true) ∧
    (∀ x ∈ st.1, ∀ q ∈ nbrs adj x, q ∈ st.1) ∧
    (∀ x ∈ st.1, ∃ P ∈ st.2, x ∈ P) ∧
    (∀ P ∈ st.2, P ≠ [] ∧ (∀ p ∈ P, p ∈ st.1) ∧ ∀ p ∈ P, ∀ q ∈ nbrs adj p, q ∈ P) ∧
    List.Pairwise (fun P Q => ∀ v, v ∈ P → v ∉ Q) st.2

/-- The visited set of the partition fold only grows. -/
theorem partitionsFold_mono (adj : AdjP) :
    ∀ (es : List (Point × List Point)) (s0 : List Point × List (List Point)) (y : Point),
      y ∈ s0.1 →
      y ∈ (es.foldl
        (fun st e =>
          if e.1 ∈ st.1 then st
          else
            ((exploreRec adj (adj.length + 1) e.1 (st.1, [])).1,
              st.2 ++ [(exploreRec adj (adj.length + 1) e.1 (st.1, [])).2]))
        s0).1 := by
  intro es
  induction es with
  | nil => intro s0 y hy; exact hy
  | cons f t iht =>
      intro s0 y hy
      simp only [List.foldl_cons]
      apply iht
      by_cases hf : f.1 ∈ s0.1
      · rw [if_pos hf]; exact hy
      · rw [if_neg hf]
        obtain ⟨new, hsh⟩ := exploreRec_shape adj (adj.length + 1) f.1 (s0.1, [])
        have hv : (exploreRec adj (adj.length + 1) f.1 (s0.1, [])).1 = s0.1 ++ new := by
          rw [hsh]
        simp only [hv]
        exact List.mem_append.mpr (Or.inl hy)

/-- One seed step of the partition fold preserves the invariant and visits the
seed. -/
theorem partitionStep_inv (adj : AdjP) (hSym : SymAdj adj) (hK : NodupKeys adj)
    (st : List Point × List (List Point)) (e : Point × List Point) (he : e ∈ adj)
    (hinv : PartInv adj st) :
    PartInv adj
      (if e.1 ∈ st.1 then st
        else
          ((exploreRec adj (adj.length + 1) e.1 (st.1, [])).1,
            st.2 ++ [(exploreRec adj (adj.length + 1) e.1 (st.1, [])).2])) ∧
      e.1 ∈ (if e.1 ∈ st.1 then st
        else
          ((exploreRec adj (adj.length + 1) e.1 (st.1, [])).1,
            st.2 ++ [(exploreRec adj (adj.length + 1) e.1 (st.1, [])).2])).1 ∧
      (∀ P ∈ st.2, P ∈ (if e.1 ∈ st.1 then st
        else
          ((exploreRec adj (adj.length + 1) e.1 (st.1, [])).1,
            st.2 ++ [(exploreRec adj (adj.length + 1) e.1 (st.1, [])).2])).2) := by
  obtain ⟨hnd, hkeys, hclosed, hcov, hparts, hdisj⟩ := hinv
  by_cases h : e.1 ∈ st.1
  · rw [if_pos h]
    exact ⟨⟨hnd, hkeys, hclosed, hcov, hparts, hdisj⟩, h, fun P hP => hP⟩
  · rw [if_neg h]
    have hekey : (alookup adj e.1).isSome = true := by
      have he2 : e = (e.1, e.2) := rfl
      rw [alookup_of_mem_nodupKeys hK (by rw [← he2]; exact he)]
      rfl
    have hfuel : adj.length + 1 ≤ (adj.length + 1) + st.1.length := by omega
    obtain ⟨hseed, hndr, hkeysr, hcloser⟩ :=
      exploreRec_spec adj hSym hK (adj.length + 1) e.1 (st.1, []) hekey hnd hkeys hfuel
    obtain ⟨new, hshape⟩ := exploreRec_shape adj (adj.length + 1) e.1 (st.1, [])
    have hvis : (exploreRec adj (adj.length + 1) e.1 (st.1, [])).1 = st.1 ++ new := by
      rw [hshape]
    have hpart : (exploreRec adj (adj.length + 1) e.1 (st.1, [])).2 = new := by
      rw [hshape]
      simp
    have hnewfresh : ∀ x ∈ new, x ∉ st.1 := by
      intro x hx hxv
      have := hndr
      rw [hvis] at this
      rw [List.nodup_append] at this
      exact this.2.2 hxv hx
    have hnewclosed : ∀ p ∈ new, ∀ q ∈ nbrs adj p, q ∈ new := by
      intro p hp q hq
      have hpin : p ∈ (exploreRec adj (adj.length + 1) e.1 (st.1, [])).1 := by
        rw [hvis]; exact List.mem_append.mpr (Or.inr hp)
      have hqin := hcloser p hpin (hnewfresh p hp) q hq
      rw [hvis] at hqin
      rcases List.mem_append.mp hqin with h1 | h1
      · exfalso
        have hpq : p ∈ nbrs adj q := hSym p q hq
        have := hclosed q h1 p hpq
        exact hnewfresh p hp this
      · exact h1
    have hnewne : new ≠ [] := by
      intro hnil
      have := hseed
      rw [hvis, hnil] at this
      simp at this
      exact h this
    refine ⟨⟨?_, ?_, ?_, ?_, ?_, ?_⟩, ?_, ?_⟩
    · exact hndr
    · exact hkeysr
    · intro x hx q hq
      rw [hvis] at hx ⊢
      rcases List.mem_append.mp hx with h1 | h1
      · exact List.mem_append.mpr (Or.inl (hclosed x h1 q hq))
      · exact List.mem_append.mpr (Or.inr (hnewclosed x h1 q hq))
    · intro x hx
      rw [hvis] at hx
      rcases List.mem_append.mp hx with h1 | h1
      · obtain ⟨P, hP, hxP⟩ := hcov x h1
        exact ⟨P, by simp [hP], hxP⟩
      · refine ⟨new, ?_, h1⟩
        rw [hpart]
        simp
    · intro P hP
      rcases List.mem_append.mp hP with h1 | h1
      · obtain ⟨hne, hsub, hcl⟩ := hparts P h1
        refine ⟨hne, ?_, hcl⟩
        intro p hp
        rw [hvis]
        exact List.mem_append.mpr (Or.inl (hsub p hp))
      · rw [List.mem_singleton.mp h1, hpart]
        refine ⟨hnewne, ?_, hnewclosed⟩
        intro p hp
        rw [hvis]
        exact List.mem_append.mpr (Or.inr hp)
    · rw [List.pairwise_append]
      refine ⟨hdisj, by simp, ?_⟩
      intro P hP Q hQ v hvP
      rw [List.mem_singleton.mp hQ, hpart]
      intro hvnew
      exact hnewfresh v hvnew ((hparts P hP).2.1 v hvP)
    · rw [hvis]
      rw [hvis] at hseed
      exact hseed
    · intro P hP
      simp [hP]

/-- The partitions of the point graph: non-empty, made of present points,
closed under adjacency, covering every key, and pairwise disjoint. -/
theorem partitionsOf_spec (adj : AdjP) (hSym : SymAdj adj) (hK : NodupKeys adj) :
    (∀ P ∈ partitionsOf adj, P ≠ [] ∧ (∀ p ∈ P, (alookup adj p).isSome = true) ∧
        ∀ p ∈ P, ∀ q ∈ nbrs adj p, q ∈ P) ∧
      (∀ e ∈ adj, ∃ P ∈ partitionsOf adj, e.1 ∈ P) ∧
      List.Pairwise (fun P Q => ∀ v, v ∈ P → v ∉ Q) (partitionsOf adj) := by
  have main : ∀ (es : List (Point × List Point)) (st : List Point × List (List Point)),
      (∀ e ∈ es, e ∈ adj) → PartInv adj st →
      PartInv adj (es.foldl
        (fun st e =>
          if e.1 ∈ st.1 then st
          else
            ((exploreRec adj (adj.length + 1) e.1 (st.1, [])).1,
              st.2 ++ [(exploreRec adj (adj.length + 1) e.1 (st.1, [])).2]))
        st) ∧
      (∀ e ∈ es, e.1 ∈ (es.foldl
        (fun st e =>
          if e.1 ∈ st.1 then st
          else
            ((exploreRec adj (adj.length + 1) e.1 (st.1, [])).1,
              st.2 ++ [(exploreRec adj (adj.length + 1) e.1 (st.1, [])).2]))
        st).1) ∧
      (∀ P ∈ st.2, P ∈ (es.foldl
        (fun st e =>
          if e.1 ∈ st.1 then st
          else
            ((exploreRec adj (adj.length + 1) e.1 (st.1, [])).1,
              st.2 ++ [(exploreRec adj (adj.length + 1) e.1 (st.1, [])).2]))
        st).2) := by
    intro es
    induction es with
    | nil => intro st _ hinv; exact ⟨hinv, fun e he => absurd he (List.not_mem_nil e), fun P hP => hP⟩
    | cons e rest ih =>
        intro st hsub hinv
        simp only [List.foldl_cons]
        obtain ⟨hinv1, hmem1, hkeep1⟩ := partitionStep_inv adj hSym hK st e (hsub e (by simp)) hinv
        obtain ⟨hinv2, hmem2, hkeep2⟩ := ih _ (fun x hx => hsub x (by simp [hx])) hinv1
        refine ⟨hinv2, ?_, ?_⟩
        · intro x hx
          rcases List.mem_cons.mp hx with h1 | h1
          · rw [h1]
            exact partitionsFold_mono adj rest _ e.1 hmem1
          · exact hmem2 x h1
        · intro P hP
          exact hkeep2 P (hkeep1 P hP)
  have hinv0 : PartInv adj ([], []) := by
    refine ⟨by simp, by simp, by simp, by simp, by simp, by simp⟩
  obtain ⟨hinvf, hcovf, _⟩ := main adj ([], []) (fun e he => he) hinv0
  obtain ⟨hndf, hkeysf, hclosedf, hcovv, hpartsf, hdisjf⟩ := hinvf
  refine ⟨?_, ?_, hdisjf⟩
  · intro P hP
    obtain ⟨hne, hsub, hcl⟩ := hpartsf P hP
    exact ⟨hne, fun p hp => hkeysf p (hsub p hp), hcl⟩
  · intro e he
    exact hcovv e.1 (hcovf e he)

/-- Two partitions sharing a point are the same partition. -/
theorem partitions_eq_of_shared (adj : AdjP) (hSym : SymAdj adj) (hK : NodupKeys adj)
    {P Q : List Point} (hP : P ∈ partitionsOf adj) (hQ : Q ∈ partitionsOf adj)
    {v : Point} (hvP : v ∈ P) (hvQ : v ∈ Q) : P = Q := by
  obtain ⟨_, _, hdisj⟩ := partitionsOf_spec adj hSym hK
  by_contra hne
  have hsymm : Symmetric (fun (P Q : List Point) => ∀ v, v ∈ P → v ∉ Q) := by
    intro a b hab v hv hva
    exact hab v hva hv
  exact (hdisj.forall hsymm) hP hQ hne v hvP hvQ

/-- Updating a retained key commutes with filtering by a key predicate. -/
theorem filter_aupdate_pos {κ ν : Type} [DecidableEq κ] (prk : κ → Bool) (m : List (κ × ν))
    (k : κ) (f : ν → ν) (d : ν) (hk : prk k = true) :
    (aupdate m k f d).filter (fun e => prk e.1) =
      aupdate (m.filter fun e => prk e.1) k f d := by
  induction m with
  | nil => simp [aupdate, hk]
  | cons e t ih =>
      by_cases hke : k = e.1
      · have hpe : prk e.1 = true := by rw [← hke]; exact hk
        simp only [aupdate, if_pos hke]
        rw [List.filter_cons_of_pos (by simpa using hpe),
          List.filter_cons_of_pos (by simpa using hpe)]
        simp [aupdate, if_pos hke]
      · simp only [aupdate, if_neg hke]
        by_cases hpe : prk e.1 = true
        · rw [List.filter_cons_of_pos (by simpa using hpe),
            List.filter_cons_of_pos (by simpa using hpe), ih]
          simp [aupdate, hke]
        · rw [List.filter_cons_of_neg (by simpa using hpe),
            List.filter_cons_of_neg (by simpa using hpe)]
          exact ih

/-- Updating a dropped key is invisible after filtering by a key predicate. -/
theorem filter_aupdate_neg {κ ν : Type} [DecidableEq κ] (prk : κ → Bool) (m : List (κ × ν))
    (k : κ) (f : ν → ν) (d : ν) (hk : prk k = false) :
    (aupdate m k f d).filter (fun e => prk e.1) = m.filter (fun e => prk e.1) := by
  induction m with
  | nil => simp [aupdate, hk]
  | cons e t ih =>
      by_cases hke : k = e.1
      · have hpe : prk e.1 = false := by rw [← hke]; exact hk
        simp only [aupdate, if_pos hke]
        rw [List.filter_cons_of_neg (by simp [hpe]), List.filter_cons_of_neg (by simp [hpe])]
      · simp only [aupdate, if_neg hke]
        by_cases hpe : prk e.1 = true
        · rw [List.filter_cons_of_pos (by simpa using hpe),
            List.filter_cons_of_pos (by simpa using hpe), ih]
        · rw [List.filter_cons_of_neg (by simp at hpe ⊢; exact hpe),
            List.filter_cons_of_neg (by simp at hpe ⊢; exact hpe)]
          exact ih

/-- Lookup of a retained key is unchanged by filtering. -/
theorem alookup_filter_of_pred {κ ν : Type} [DecidableEq κ] (pr : κ → Bool)
    (m : List (κ × ν)) (k : κ) (hk : pr k = true) :
    alookup (m.filter fun e => pr e.1) k = alookup m k := by
  induction m with
  | nil => rfl
  | cons e t ih =>
      by_cases hke : k = e.1
      · have hpe : pr e.1 = true := by rw [← hke]; exact hk
        rw [List.filter_cons_of_pos (by simpa using hpe)]
        simp [alookup, hke]
      · by_cases hpe : pr e.1 = true
        · rw [List.filter_cons_of_pos (by simpa using hpe)]
          simp only [alookup, if_neg hke]
          exact ih
        · rw [List.filter_cons_of_neg (by simp at hpe ⊢; exact hpe), ih]
          simp [alookup, if_neg hke]

/-- Filtering keeps keys distinct. -/
theorem nodupKeys_filter {κ ν : Type} (pr : κ × ν → Bool) (m : List (κ × ν))
    (h : NodupKeys m) : NodupKeys (m.filter pr) := by
  unfold NodupKeys at h ⊢
  exact List.Nodup.sublist (List.Sublist.map _ (List.filter_sublist m)) h

/-- The per-entry pair fold of the build commutes with filtering by membership
of the key's entry point, when the entry point is retained. -/
theorem filter_innerFold_pos (P : List Point) (p : Point) (hp : p ∈ P) :
    ∀ (ps : List (Point × Point)) (g : SegAdj),
      ((ps.foldl
          (fun g ft =>
            if ft.1 = ft.2 then g
            else aupdate g (ft.1, p) (insertSegSucc (p, ft.2)) [(p, ft.2)])
          g).filter fun e => decide (e.1.2 ∈ P)) =
        ps.foldl
          (fun g ft =>
            if ft.1 = ft.2 then g
            else aupdate g (ft.1, p) (insertSegSucc (p, ft.2)) [(p, ft.2)])
          (g.filter fun e => decide (e.1.2 ∈ P)) := by
  intro ps
  induction ps with
  | nil => intro g; rfl
  | cons ft rest ih =>
      intro g
      simp only [List.foldl_cons]
      by_cases hft : ft.1 = ft.2
      · rw [if_pos hft, if_pos hft]
        exact ih g
      · rw [if_neg hft, if_neg hft]
        rw [ih, filter_aupdate_pos (fun s => decide (s.2 ∈ P)) g (ft.1, p) _ _ (by simpa using hp)]

/-- The per-entry pair fold of a dropped entry point is invisible after
filtering. -/
theorem filter_innerFold_neg (P : List Point) (p : Point) (hp : p ∉ P) :
    ∀ (ps : List (Point × Point)) (g : SegAdj),
      ((ps.foldl
          (fun g ft =>
            if ft.1 = ft.2 then g
            else aupdate g (ft.1, p) (insertSegSucc (p, ft.2)) [(p, ft.2)])
          g).filter fun e => decide (e.1.2 ∈ P)) =
        g.filter fun e => decide (e.1.2 ∈ P) := by
  intro ps
  induction ps with
  | nil => intro g; rfl
  | cons ft rest ih =>
      intro g
      simp only [List.foldl_cons]
      by_cases hft : ft.1 = ft.2
      · rw [if_pos hft]
        exact ih g
      · rw [if_neg hft]
        rw [ih, filter_aupdate_neg (fun s => decide (s.2 ∈ P)) g (ft.1, p) _ _ (by simpa using hp)]

/-- The segment graph built for one partition is exactly the whole segment
graph restricted, as an entry list, to the keys whose entry point lies in the
partition. -/
theorem build_filter_eq (adj : AdjP) (P : List Point) :
    ((buildSegmentGraphFromAdjacencyListOfPoints none adj).filter
        fun e => decide (e.1.2 ∈ P)) =
      buildSegmentGraphFromAdjacencyListOfPoints (some P) adj := by
  unfold buildSegmentGraphFromAdjacencyListOfPoints
  have hnone : (adj.filter fun e =>
      match (none : Option (List Point)) with
      | none => true
      | some values => decide (e.1 ∈ values)) = adj := by
    simp
  have hsome : (adj.filter fun e =>
      match (some P : Option (List Point)) with
      | none => true
      | some values => decide (e.1 ∈ values)) = adj.filter fun e => decide (e.1 ∈ P) := rfl
  rw [hnone, hsome]
  have main : ∀ (es : List (Point × List Point)) (g : SegAdj),
      ((es.foldl
          (fun graph e =>
            (neighborPairs e.2).foldl
              (fun g ft =>
                if ft.1 = ft.2 then g
                else aupdate g (ft.1, e.1) (insertSegSucc (e.1, ft.2)) [(e.1, ft.2)])
              graph)
          g).filter fun e => decide (e.1.2 ∈ P)) =
        (es.filter fun e => decide (e.1 ∈ P)).foldl
          (fun graph e =>
            (neighborPairs e.2).foldl
              (fun g ft =>
                if ft.1 = ft.2 then g
                else aupdate g (ft.1, e.1) (insertSegSucc (e.1, ft.2)) [(e.1, ft.2)])
              graph)
          (g.filter fun e => decide (e.1.2 ∈ P)) := by
    intro es
    induction es with
    | nil => intro g; rfl
    | cons e rest ih =>
        intro g
        simp only [List.foldl_cons]
        by_cases hp : e.1 ∈ P
        · rw [List.filter_cons_of_pos (by simpa using hp)]
          simp only [List.foldl_cons]
          rw [ih, filter_innerFold_pos P e.1 hp]
        · rw [List.filter_cons_of_neg (by simpa using hp)]
          rw [ih, filter_innerFold_neg P e.1 hp]
  have := main adj []
  simpa using this

/-- Traces only read the graph through lookups of the current segment: two
graphs agreeing on a closed key region produce identical traces inside it. -/
theorem traceR_graph_transfer {γ : Type} (g₁ g₂ : SegAdj)
    (crit : Segment → Segment → Segment → γ) (lt : γ → γ → Bool) (P : List Point)
    (hlook : ∀ s : Segment, s.2 ∈ P → alookup g₁ s = alookup g₂ s)
    (hstep : ∀ s t : Segment, SegEdge g₁ s t → s.2 ∈ P → t.2 ∈ P) :
    ∀ (fuel : ℕ) (cur prev : Segment) (stack : List Segment),
      cur.2 ∈ P →
      traceR g₁ crit lt fuel cur prev stack = traceR g₂ crit lt fuel cur prev stack := by
  intro fuel
  induction fuel with
  | zero => intro cur prev stack _; rfl
  | succ n ih =>
      intro cur prev stack hcur
      rw [traceR, traceR]
      by_cases h1 : (cur.2, cur.1) ∈ stack
      · rw [if_pos h1, if_pos h1]
      · rw [if_neg h1, if_neg h1]
        by_cases h2 : cur ∈ stack
        · rw [if_pos h2, if_pos h2]
        · rw [if_neg h2, if_neg h2]
          have helecteq : electG g₁ crit lt prev cur = electG g₂ crit lt prev cur := by
            unfold electG
            rw [hlook cur hcur]
          rw [← helecteq]
          cases helect : (electG g₁ crit lt prev cur).1 with
          | none => rfl
          | some nxt =>
              have hedge : SegEdge g₁ cur nxt := electG_edge helect
              exact ih nxt cur _ (hstep cur nxt hedge hcur)

/-- The segment universe of a restriction embeds in the whole universe. -/
theorem segUniverse_filter_subset (g : SegAdj) (pr : Segment × List Segment → Bool) :
    ∀ x ∈ segUniverse (g.filter pr), x ∈ segUniverse g := by
  intro x hx
  unfold segUniverse at hx ⊢
  rw [List.mem_dedup] at hx ⊢
  rcases List.mem_append.mp hx with h1 | h1
  · rcases List.mem_map.mp h1 with ⟨e, he, hex⟩
    exact List.mem_append.mpr (Or.inl (List.mem_map.mpr ⟨e, List.mem_of_mem_filter he, hex⟩))
  · rcases List.mem_flatten.mp h1 with ⟨l, hl, hxl⟩
    rcases List.mem_map.mp hl with ⟨e, he, hel⟩
    exact List.mem_append.mpr (Or.inr (List.mem_flatten.mpr
      ⟨l, List.mem_map.mpr ⟨e, List.mem_of_mem_filter he, hel⟩, hxl⟩))

/-- Restricting the graph cannot enlarge the segment universe. -/
theorem segUniverse_filter_length_le (g : SegAdj) (pr : Segment × List Segment → Bool) :
    (segUniverse (g.filter pr)).length ≤ (segUniverse g).length := by
  have hnd : (segUniverse (g.filter pr)).Nodup := List.nodup_dedup _
  exact List.Subperm.length_le
    (List.Nodup.subperm hnd (fun x hx => segUniverse_filter_subset g pr x hx))

/-- With enough fuel for its deepest possible recursion, the trace does not
depend on the exact fuel. -/
theorem traceR_fuel_stable {γ : Type} (g : SegAdj)
    (crit : Segment → Segment → Segment → γ) (lt : γ → γ → Bool) :
    ∀ (f f' : ℕ) (cur prev : Segment) (stack : List Segment),
      stack ≠ [] → stack.Nodup → (∀ x ∈ stack, x ∈ segUniverse g) →
      cur ∈ segUniverse g →
      (segUniverse g).length + 1 ≤ f + stack.length →
      (segUniverse g).length + 1 ≤ f' + stack.length →
      traceR g crit lt f cur prev stack = traceR g crit lt f' cur prev stack := by
  intro f
  induction f with
  | zero =>
      intro f' cur prev stack hne hnd hsub hcu hf hf'
      exfalso
      have hle : stack.length ≤ (segUniverse g).length :=
        List.Subperm.length_le (List.Nodup.subperm hnd (fun x hx => hsub x hx))
      omega
  | succ n ih =>
      intro f' cur prev stack hne hnd hsub hcu hf hf'
      cases f' with
      | zero =>
          exfalso
          have hle : stack.length ≤ (segUniverse g).length :=
            List.Subperm.length_le (List.Nodup.subperm hnd (fun x hx => hsub x hx))
          omega
      | succ m =>
          rw [traceR, traceR]
          by_cases h1 : (cur.2, cur.1) ∈ stack
          · rw [if_pos h1, if_pos h1]
          · rw [if_neg h1, if_neg h1]
            by_cases h2 : cur ∈ stack
            · rw [if_pos h2, if_pos h2]
            · rw [if_neg h2, if_neg h2]
              cases helect : (electG g crit lt prev cur).1 with
              | none => rfl
              | some nxt =>
                  have hedge : SegEdge g cur nxt := electG_edge helect
                  have hse : stack.isEmpty = false := by
                    cases hstk : stack with
                    | nil => exact absurd hstk hne
                    | cons a t => rfl
                  rw [hse]
                  simp only [Bool.false_eq_true, if_false]
                  refine ih m nxt cur (stack ++ [cur]) (by simp) ?_ ?_
                    (mem_segUniverse_of_succ hedge) ?_ ?_
                  · simp only [List.nodup_append, List.nodup_cons]
                    exact ⟨hnd, by simp, by simpa using h2⟩
                  · intro x hx
                    rcases List.mem_append.mp hx with hx | hx
                    · exact hsub x hx
                    · rw [List.mem_singleton.mp hx]
                      exact hcu
                  · simp only [List.length_append, List.length_singleton]
                    omega
                  · simp only [List.length_append, List.length_singleton]
                    omega

/-- The polygon sequence a single source contributes under the two criteria,
in pass order. -/
def sourceBlock (g : SegAdj) (e : Segment × List Segment) : List Polygon :=
  ((e.2.map fun s => traceR g crit1 crit1Lt (fuelOf g) s e.1 [e.1]).flatten) ++
    ((e.2.map fun s => traceR g crit2 crit2Lt (fuelOf g) s e.1 [e.1]).flatten)

/-- The full trace of the composite traversal, in insertion order. -/
def bigTrace (g : SegAdj) : List Polygon := (g.map (sourceBlock g)).flatten

/-- The composite traversal's path set is the fold of its full trace. -/
theorem segmentTraversal_paths_char (g : SegAdj) :
    (segmentTraversal g).paths = (bigTrace g).foldl insertPath [] := by
  have main : ∀ (es : List (Segment × List Segment)) (st : TravState), st.stack = [] →
      (es.foldl (segmentSource g (fuelOf g)) st).paths =
        ((es.map (sourceBlock g)).flatten).foldl insertPath st.paths ∧
      (es.foldl (segmentSource g (fuelOf g)) st).stack = [] := by
    intro es
    induction es with
    | nil => intro st hstack; exact ⟨rfl, hstack⟩
    | cons e rest ihs =>
        intro st hstack
        simp only [List.foldl_cons, List.map_cons, List.flatten_cons]
        obtain ⟨hpaths, hstk⟩ := segmentSource_char g (fuelOf g) st e
        obtain ⟨hp2, hs2⟩ := ihs (segmentSource g (fuelOf g) st e) (by rw [hstk, hstack])
        refine ⟨?_, hs2⟩
        rw [hp2, hpaths, hstack, List.foldl_append]
        have hblock : sourceBlock g e =
            ((e.2.map fun s => traceR g crit1 crit1Lt (fuelOf g) s e.1 (([] : List Segment) ++ [e.1])).flatten) ++
              ((e.2.map fun s => traceR g crit2 crit2Lt (fuelOf g) s e.1 (([] : List Segment) ++ [e.1])).flatten) := by
          unfold sourceBlock
          simp
        rw [hblock, List.foldl_append, List.foldl_append]
  exact (main g ⟨[], [], true⟩ rfl).1

/-- Every key of the built segment graph consists of a map entry point and one
of its neighbours. -/
theorem build_keys_shape (points : Option (List Point)) (adj : AdjP) :
    ∀ s ∈ (buildSegmentGraphFromAdjacencyListOfPoints points adj).map (·.1),
      ∃ ns, (s.2, ns) ∈ adj ∧ s.1 ∈ ns := by
  have inner : ∀ (p : Point) (nsp : List Point), (p, nsp) ∈ adj →
      ∀ (ps : List (Point × Point)) (g : SegAdj),
      (∀ ft ∈ ps, ft.1 ∈ nsp) →
      (∀ s ∈ g.map (·.1), ∃ ns, (s.2, ns) ∈ adj ∧ s.1 ∈ ns) →
      ∀ s ∈ (ps.foldl
          (fun g ft =>
            if ft.1 = ft.2 then g
            else aupdate g (ft.1, p) (insertSegSucc (p, ft.2)) [(p, ft.2)])
          g).map (·.1),
        ∃ ns, (s.2, ns) ∈ adj ∧ s.1 ∈ ns := by
    intro p nsp hpm ps
    induction ps with
    | nil => intro g _ hg; exact hg
    | cons ft rest ih =>
        intro g hps hg
        simp only [List.foldl_cons]
        refine ih _ (fun x hx => hps x (by simp [hx])) ?_
        by_cases hft : ft.1 = ft.2
        · rw [if_pos hft]; exact hg
        · rw [if_neg hft]
          intro s hs
          rw [mem_keys_aupdate] at hs
          rcases hs with h1 | h1
          · rw [h1]
            exact ⟨nsp, hpm, hps ft (by simp)⟩
          · exact hg s h1
  have outer : ∀ (es : List (Point × List Point)) (g : SegAdj),
      (∀ e ∈ es, e ∈ adj) →
      (∀ s ∈ g.map (·.1), ∃ ns, (s.2, ns) ∈ adj ∧ s.1 ∈ ns) →
      ∀ s ∈ (es.foldl
          (fun graph e =>
            (neighborPairs e.2).foldl
              (fun g ft =>
                if ft.1 = ft.2 then g
                else aupdate g (ft.1, e.1) (insertSegSucc (e.1, ft.2)) [(e.1, ft.2)])
              graph)
          g).map (·.1),
        ∃ ns, (s.2, ns) ∈ adj ∧ s.1 ∈ ns := by
    intro es
    induction es with
    | nil => intro g _ hg; exact hg
    | cons e rest ih =>
        intro g hsub hg
        simp only [List.foldl_cons]
        refine ih _ (fun x hx => hsub x (by simp [hx])) ?_
        have he2 : ((e.1 : Point), e.2) ∈ adj := by
          have : e = (e.1, e.2) := rfl
          rw [← this]
          exact hsub e (by simp)
        exact inner e.1 e.2 he2 (neighborPairs e.2) g
          (fun ft hft => (mem_neighborPairs hft).1) hg
  unfold buildSegmentGraphFromAdjacencyListOfPoints
  exact outer _ [] (fun e he => List.mem_of_mem_filter he) (by simp)

/-- A sequence vertex of a constructed polygon comes from its input path. -/
theorem mem_fromVertices_sequence {x : Point} {vertices : List Point}
    (h : x ∈ (Polygon.fromVertices vertices).sequence) : x ∈ vertices := by
  unfold Polygon.fromVertices at h
  cases hv : vertices with
  | nil =>
      rw [hv] at h
      simp only [List.head?_nil] at h
      by_cases hz : (normalV ([] : List Point)).z < 0
      · rw [if_pos hz] at h; simp at h
      · rw [if_neg hz] at h; simp at h
  | cons a t =>
      rw [hv] at h
      simp only [List.head?_cons] at h
      by_cases hz : (normalV ((a :: t) ++ [a])).z < 0
      · rw [if_pos hz] at h
        simp only [List.mem_reverse, List.mem_append, List.mem_singleton] at h
        rcases h with h1 | h1
        · exact h1
        · rw [h1]; simp
      · rw [if_neg hz] at h
        simp only [List.mem_append, List.mem_singleton] at h
        rcases h with h1 | h1
        · exact h1
        · rw [h1]; simp

/-- A constructed polygon over a non-empty path has a non-empty vertex set. -/
theorem fromVertices_set_ne_nil {vertices : List Point} (h : vertices ≠ []) :
    (Polygon.fromVertices vertices).set ≠ [] := by
  cases hv : vertices with
  | nil => exact absurd hv h
  | cons a t =>
      intro hnil
      have : a ∈ (Polygon.fromVertices (a :: t)).set :=
        mem_fromVertices_set.mpr (by simp)
      rw [hnil] at this
      simp at this

/-- Every polygon of a trace started inside a closed vertex region has all its
vertices (set and sequence) inside it, and a non-empty vertex set. -/
theorem traceR_vertices {γ : Type} (g : SegAdj) (crit : Segment → Segment → Segment → γ)
    (lt : γ → γ → Bool) (P : List Point)
    (hstep : ∀ s t : Segment, SegEdge g s t → s.2 ∈ P → t.1 ∈ P ∧ t.2 ∈ P) :
    ∀ (fuel : ℕ) (cur prev : Segment) (stack : List Segment),
      (∀ s ∈ stack, s.1 ∈ P ∧ s.2 ∈ P) → cur.1 ∈ P → cur.2 ∈ P →
      ∀ Q ∈ traceR g crit lt fuel cur prev stack,
        Q.set ≠ [] ∧ (∀ x ∈ Q.set, x ∈ P) ∧ (∀ x ∈ Q.sequence, x ∈ P) := by
  intro fuel
  induction fuel with
  | zero => intro cur prev stack _ _ _ Q hQ; simp [traceR] at hQ
  | succ n ih =>
      intro cur prev stack hstack hcur1 hcur2 Q hQ
      rw [traceR] at hQ
      by_cases h1 : (cur.2, cur.1) ∈ stack
      · rw [if_pos h1] at hQ; simp at hQ
      · rw [if_neg h1] at hQ
        by_cases h2 : cur ∈ stack
        · rw [if_pos h2] at hQ
          rw [List.mem_singleton] at hQ
          obtain ⟨hidx, _⟩ := segIndexIn_spec cur stack h2
          have hcore : ((stack.drop (segIndexIn cur stack)).map (·.1)) ≠ [] := by
            intro hc
            rw [List.map_eq_nil_iff] at hc
            have := List.length_drop (segIndexIn cur stack) stack
            rw [hc] at this
            simp at this
            omega
          have hcoresub : ∀ x ∈ (stack.drop (segIndexIn cur stack)).map (·.1), x ∈ P := by
            intro x hx
            rcases List.mem_map.mp hx with ⟨s, hs, hsx⟩
            rw [← hsx]
            exact (hstack s (List.drop_subset _ _ hs)).1
          rw [hQ]
          refine ⟨fromVertices_set_ne_nil hcore, ?_, ?_⟩
          · intro x hx
            exact hcoresub x (mem_fromVertices_set.mp hx)
          · intro x hx
            exact hcoresub x (mem_fromVertices_sequence hx)
        · rw [if_neg h2] at hQ
          cases helect : (electG g crit lt prev cur).1 with
          | none => rw [helect] at hQ; simp at hQ
          | some nxt =>
              rw [helect] at hQ
              have hedge : SegEdge g cur nxt := electG_edge helect
              obtain ⟨hn1, hn2⟩ := hstep cur nxt hedge hcur2
              have hstack1 : ∀ s ∈ (if stack.isEmpty then stack else stack ++ [cur]),
                  s.1 ∈ P ∧ s.2 ∈ P := by
                by_cases hse : stack.isEmpty
                · rw [if_pos hse]; exact hstack
                · rw [if_neg hse]
                  intro s hs
                  rcases List.mem_append.mp hs with hs | hs
                  · exact hstack s hs
                  · rw [List.mem_singleton.mp hs]
                    exact ⟨hcur1, hcur2⟩
              exact ih nxt cur _ hstack1 hn1 hn2 Q hQ

/-- Elements of the folded path set come from the initial set or the trace. -/
theorem mem_pathsFold {x : Polygon} :
    ∀ {L acc : List Polygon}, x ∈ L.foldl insertPath acc → x ∈ acc ∨ x ∈ L := by
  intro L
  induction L with
  | nil => intro acc h; exact Or.inl h
  | cons p t ih =>
      intro acc h
      simp only [List.foldl_cons] at h
      rcases ih h with h1 | h1
      · rcases mem_insertPath h1 with h2 | h2
        · exact Or.inl h2
        · exact Or.inr (by simp [h2])
      · exact Or.inr (by simp [h1])

/-- An element read by position with a default is a member. -/
theorem getD_mem_of_lt {α : Type} (l : List α) (d : α) {i : ℕ} (h : i < l.length) :
    l.getD i d ∈ l := by
  induction l generalizing i with
  | nil => simp at h
  | cons a t ih =>
      cases i with
      | zero => simp
      | succ j =>
          simp only [List.getD_cons_succ]
          exact List.mem_cons.mpr (Or.inr (ih (by simpa using h)))

/-- Polygons sharing a side share a sequence vertex. -/
theorem sharesSidesWith_common_vertex {p q : Polygon}
    (h : p.sharesSidesWith q = true) :
    ∃ v : Point, v ∈ p.sequence ∧ v ∈ q.sequence := by
  unfold Polygon.sharesSidesWith at h
  rcases List.any_eq_true.mp h with ⟨i, hi, h2⟩
  rcases List.any_eq_true.mp h2 with ⟨j, hj, h3⟩
  rw [List.mem_range] at hi hj
  rw [decide_eq_true_eq] at h3
  have hip : i < p.sequence.length := by omega
  have hjq : j < q.sequence.length := by omega
  have hjq1 : j + 1 < q.sequence.length := by omega
  refine ⟨p.sequence.getD i default, getD_mem_of_lt _ _ hip, ?_⟩
  rcases h3 with ⟨h4, _⟩ | ⟨h4, _⟩
  · rw [h4]
    exact getD_mem_of_lt _ _ hjq
  · rw [h4]
    exact getD_mem_of_lt _ _ hjq1

/-- Filtering by a property invariant under polygon equality commutes with
inserting into the path set. -/
theorem filter_foldl_insertPath (φ : Polygon → Bool)
    (hφ : ∀ p q : Polygon, polyEqB p q = true → φ p = φ q) :
    ∀ (L acc : List Polygon),
      (L.foldl insertPath acc).filter φ = (L.filter φ).foldl insertPath (acc.filter φ) := by
  intro L
  induction L with
  | nil => intro acc; rfl
  | cons p t ih =>
      intro acc
      simp only [List.foldl_cons]
      rw [ih]
      by_cases hm : polyMemB p acc = true
      · have hstep : insertPath acc p = acc := by
          unfold insertPath
          rw [if_pos hm]
        rw [hstep]
        by_cases hp : φ p = true
        · rw [List.filter_cons_of_pos (by simpa using hp)]
          simp only [List.foldl_cons]
          have hmf : polyMemB p (acc.filter φ) = true := by
            unfold polyMemB at hm ⊢
            rcases List.any_eq_true.mp hm with ⟨r, hr, hrp⟩
            refine List.any_eq_true.mpr ⟨r, ?_, hrp⟩
            refine List.mem_filter.mpr ⟨hr, ?_⟩
            rw [hφ r p hrp]
            exact hp
          have : insertPath (acc.filter φ) p = acc.filter φ := by
            unfold insertPath
            rw [if_pos hmf]
          rw [this]
        · rw [List.filter_cons_of_neg (by simpa using hp)]
      · have hstep : insertPath acc p = acc ++ [p] := by
          unfold insertPath
          rw [if_neg hm]
        rw [hstep]
        by_cases hp : φ p = true
        · rw [List.filter_cons_of_pos (by simpa using hp)]
          simp only [List.foldl_cons]
          have hmf : polyMemB p (acc.filter φ) = false := by
            cases hx : polyMemB p (acc.filter φ) with
            | false => rfl
            | true =>
                exfalso
                unfold polyMemB at hx hm
                rcases List.any_eq_true.mp hx with ⟨r, hr, hrp⟩
                exact hm (List.any_eq_true.mpr ⟨r, List.mem_of_mem_filter hr, hrp⟩)
          have : insertPath (acc.filter φ) p = acc.filter φ ++ [p] := by
            unfold insertPath
            rw [hmf]
            simp
          rw [this, List.filter_append, List.filter_cons_of_pos (by simpa using hp)]
          simp
        · rw [List.filter_cons_of_neg (by simpa using hp), List.filter_append,
            List.filter_cons_of_neg (by simpa using hp)]
          simp

/-- A scan ignoring elements on which the test is false can drop them. -/
theorem any_eq_any_filter (φ : Polygon → Bool) (c : Polygon → Bool)
    (l : List Polygon) (h : ∀ x ∈ l, φ x = false → c x = false) :
    l.any c = (l.filter φ).any c := by
  induction l with
  | nil => rfl
  | cons x t ih =>
      by_cases hx : φ x = true
      · rw [List.filter_cons_of_pos (by simpa using hx)]
        simp only [List.any_cons]
        rw [ih (fun y hy => h y (by simp [hy]))]
      · rw [List.filter_cons_of_neg (by simpa using hx)]
        simp only [List.any_cons]
        rw [h x (by simp) (by simpa using hx)]
        simp only [Bool.false_or]
        exact ih (fun y hy => h y (by simp [hy]))

/-- The greedy dominance selection restricted to a class whose members never
dominate across the class boundary is the selection of the restriction. -/
theorem filter_selectFold (φ : Polygon → Bool) :
    ∀ (L acc : List Polygon),
      (∀ p q : Polygon, p ∈ L → (q ∈ acc ∨ q ∈ L) → φ p = true → φ q = false →
        (p.contains q && p.sharesSidesWith q) = false) →
      ((L.foldl
          (fun acc p =>
            if acc.any (fun q => p.contains q && p.sharesSidesWith q) then acc else acc ++ [p])
          acc).filter φ) =
        (L.filter φ).foldl
          (fun acc p =>
            if acc.any (fun q => p.contains q && p.sharesSidesWith q) then acc else acc ++ [p])
          (acc.filter φ) := by
  intro L
  induction L with
  | nil => intro acc _; rfl
  | cons p t ih =>
      intro acc hsep
      simp only [List.foldl_cons]
      by_cases hp : φ p = true
      · rw [List.filter_cons_of_pos (by simpa using hp)]
        simp only [List.foldl_cons]
        have hcond : acc.any (fun q => p.contains q && p.sharesSidesWith q) =
            (acc.filter φ).any (fun q => p.contains q && p.sharesSidesWith q) := by
          refine any_eq_any_filter φ _ acc ?_
          intro q hq hqf
          exact hsep p q (by simp) (Or.inl hq) hp hqf
        rw [← hcond]
        by_cases hc : acc.any (fun q => p.contains q && p.sharesSidesWith q) = true
        · rw [if_pos hc, if_pos hc]
          refine ih acc ?_
          intro a b ha hb hfa hfb
          refine hsep a b (by simp [ha]) ?_ hfa hfb
          rcases hb with hb | hb
          · exact Or.inl hb
          · exact Or.inr (by simp [hb])
        · rw [if_neg hc, if_neg hc]
          have hacc : (acc ++ [p]).filter φ = acc.filter φ ++ [p] := by
            rw [List.filter_append, List.filter_cons_of_pos (by simpa using hp)]
            simp
          rw [← hacc]
          refine ih (acc ++ [p]) ?_
          intro a b ha hb hfa hfb
          rcases hb with hb | hb
          · rcases List.mem_append.mp hb with hb | hb
            · exact hsep a b (by simp [ha]) (Or.inl hb) hfa hfb
            · rw [List.mem_singleton.mp hb] at hfb
              rw [hp] at hfb
              simp at hfb
          · exact hsep a b (by simp [ha]) (Or.inr (by simp [hb])) hfa hfb
      · rw [List.filter_cons_of_neg (by simpa using hp)]
        by_cases hc : acc.any (fun q => p.contains q && p.sharesSidesWith q) = true
        · rw [if_pos hc]
          refine ih acc ?_
          intro a b ha hb hfa hfb
          refine hsep a b (by simp [ha]) ?_ hfa hfb
          rcases hb with hb | hb
          · exact Or.inl hb
          · exact Or.inr (by simp [hb])
        · rw [if_neg hc]
          have hacc : (acc ++ [p]).filter φ = acc.filter φ := by
            rw [List.filter_append, List.filter_cons_of_neg (by simpa using hp)]
            simp
          rw [← hacc]
          refine ih (acc ++ [p]) ?_
          intro a b ha hb hfa hfb
          rcases hb with hb | hb
          · rcases List.mem_append.mp hb with hb | hb
            · exact hsep a b (by simp [ha]) (Or.inl hb) hfa hfb
            · rw [List.mem_singleton.mp hb]
              exact hsep a p (by simp [ha]) (Or.inr (by simp)) hfa (by simpa using hp)
          · exact hsep a b (by simp [ha]) (Or.inr (by simp [hb])) hfa hfb

/-- The stable insertion keeps the list sorted by ascending area key. -/
theorem sorted_insertByArea (p : Polygon) :
    ∀ l : List Polygon, List.Pairwise (fun a b => a.areaKey ≤ b.areaKey) l →
      List.Pairwise (fun a b => a.areaKey ≤ b.areaKey) (insertByArea p l) := by
  intro l
  induction l with
  | nil => intro _; simp [insertByArea]
  | cons q t ih =>
      intro h
      rcases List.pairwise_cons.mp h with ⟨hq, ht⟩
      unfold insertByArea
      by_cases hpq : p.areaKey ≤ q.areaKey
      · rw [if_pos hpq]
        refine List.pairwise_cons.mpr ⟨?_, h⟩
        intro b hb
        rcases List.mem_cons.mp hb with hb | hb
        · rw [hb]; exact hpq
        · exact le_trans hpq (hq b hb)
      · rw [if_neg hpq]
        refine List.pairwise_cons.mpr ⟨?_, ih ht⟩
        intro b hb
        rcases mem_insertByArea.mp hb with hb | hb
        · rw [hb]
          exact le_of_lt (lt_of_not_le hpq)
        · exact hq b hb

/-- The model sort is sorted by ascending area key. -/
theorem sorted_sortByArea :
    ∀ l : List Polygon, List.Pairwise (fun a b => a.areaKey ≤ b.areaKey) (sortByArea l) := by
  intro l
  induction l with
  | nil => simp [sortByArea]
  | cons p t ih => exact sorted_insertByArea p (sortByArea t) ih

/-- Inserting below every element of a list prepends. -/
theorem insertByArea_eq_cons (p : Polygon) (l : List Polygon)
    (h : ∀ x ∈ l, p.areaKey ≤ x.areaKey) : insertByArea p l = p :: l := by
  cases l with
  | nil => rfl
  | cons q t =>
      unfold insertByArea
      rw [if_pos (h q (by simp))]

/-- Filtering commutes with the stable insertion into a sorted list. -/
theorem filter_insertByArea (φ : Polygon → Bool) (p : Polygon) :
    ∀ l : List Polygon, List.Pairwise (fun a b => a.areaKey ≤ b.areaKey) l →
      (insertByArea p l).filter φ =
        if φ p then insertByArea p (l.filter φ) else l.filter φ := by
  intro l
  induction l with
  | nil =>
      intro _
      by_cases hp : φ p = true
      · rw [if_pos hp]
        show [p].filter φ = insertByArea p ([].filter φ)
        rw [List.filter_cons_of_pos (by simpa using hp)]
        rfl
      · rw [if_neg (by simpa using hp)]
        show [p].filter φ = [].filter φ
        rw [List.filter_cons_of_neg (by simpa using hp)]
  | cons q t ih =>
      intro h
      rcases List.pairwise_cons.mp h with ⟨hq, ht⟩
      have hstep : insertByArea p (q :: t) =
          if p.areaKey ≤ q.areaKey then p :: q :: t else q :: insertByArea p t := rfl
      rw [hstep]
      by_cases hpq : p.areaKey ≤ q.areaKey
      · rw [if_pos hpq]
        by_cases hp : φ p = true
        · rw [if_pos hp, List.filter_cons_of_pos (by simpa using hp)]
          have hcons : insertByArea p ((q :: t).filter φ) = p :: (q :: t).filter φ := by
            refine insertByArea_eq_cons p _ ?_
            intro x hx
            have hx2 := List.mem_of_mem_filter hx
            rcases List.mem_cons.mp hx2 with hx2 | hx2
            · rw [hx2]; exact hpq
            · exact le_trans hpq (hq x hx2)
          rw [hcons]
        · rw [if_neg (by simpa using hp), List.filter_cons_of_neg (by simpa using hp)]
      · rw [if_neg hpq]
        by_cases hqf : φ q = true
        · rw [List.filter_cons_of_pos (by simpa using hqf), ih ht,
            List.filter_cons_of_pos (by simpa using hqf)]
          by_cases hp : φ p = true
          · rw [if_pos hp, if_pos hp]
            have h2 : insertByArea p (q :: t.filter φ) = q :: insertByArea p (t.filter φ) := by
              have h3 : insertByArea p (q :: t.filter φ) =
                  if p.areaKey ≤ q.areaKey then p :: q :: t.filter φ
                  else q :: insertByArea p (t.filter φ) := rfl
              rw [h3, if_neg hpq]
            rw [h2]
          · rw [if_neg (by simpa using hp), if_neg (by simpa using hp)]
        · rw [List.filter_cons_of_neg (by simpa using hqf), ih ht,
            List.filter_cons_of_neg (by simpa using hqf)]

/-- Filtering commutes with the stable sort. -/
theorem filter_sortByArea (φ : Polygon → Bool) :
    ∀ l : List Polygon, (sortByArea l).filter φ = sortByArea (l.filter φ) := by
  intro l
  induction l with
  | nil => rfl
  | cons p t ih =>
      show (insertByArea p (sortByArea t)).filter φ = sortByArea ((p :: t).filter φ)
      rw [filter_insertByArea φ p (sortByArea t) (sorted_sortByArea t), ih]
      by_cases hp : φ p = true
      · rw [if_pos hp, List.filter_cons_of_pos (by simpa using hp)]
        rfl
      · rw [if_neg (by simpa using hp), List.filter_cons_of_neg (by simpa using hp)]

/-- Two filters commute. -/
theorem filter_comm' {α : Type} (p q : α → Bool) (l : List α) :
    (l.filter p).filter q = (l.filter q).filter p := by
  induction l with
  | nil => rfl
  | cons a t ih =>
      by_cases hp : p a = true <;> by_cases hq : q a = true <;>
        simp [List.filter_cons, hp, hq, ih]

/-- The polygon class of one connected component: a non-empty vertex set lying
entirely inside the component.  Depends only on the vertex set, hence is
invariant under polygon equality. -/
def inComp (P : List Point) (q : Polygon) : Bool :=
  decide (q.set ≠ [] ∧ ∀ x ∈ q.set, x ∈ P)

/-- Component membership is invariant under polygon equality. -/
theorem inComp_polyEq (P : List Point) {p q : Polygon} (h : polyEqB p q = true) :
    inComp P p = inComp P q := by
  unfold polyEqB at h
  rw [decide_eq_true_eq] at h
  unfold inComp
  rw [h]

/-- Equal booleans from an equivalence of their truth. -/
theorem bool_eq_of_iff {a b : Bool} (h : a = true ↔ b = true) : a = b := by
  cases a <;> cases b <;> simp_all

/-- Filtering distributes over flattening. -/
theorem filter_flatten' {α : Type} (φ : α → Bool) :
    ∀ L : List (List α), L.flatten.filter φ = (L.map fun l => l.filter φ).flatten := by
  intro L
  induction L with
  | nil => rfl
  | cons l t ih =>
      simp only [List.flatten_cons, List.map_cons, List.filter_append, ih]

/-- Flattening a conditional map is flattening the map of the filter. -/
theorem flatten_map_ite {α β : Type} (pred : α → Bool) (f : α → List β) :
    ∀ l : List α,
      (l.map fun x => if pred x = true then f x else []).flatten =
        ((l.filter pred).map f).flatten := by
  intro l
  induction l with
  | nil => rfl
  | cons a t ih =>
      simp only [List.map_cons, List.flatten_cons]
      by_cases ha : pred a = true
      · rw [if_pos ha, List.filter_cons_of_pos (by simpa using ha)]
        simp only [List.map_cons, List.flatten_cons, ih]
      · rw [if_neg ha, List.filter_cons_of_neg (by simpa using ha)]
        simp only [List.nil_append, ih]

/-- Trace polygons of one source, unpacked. -/
theorem mem_sourceBlock {g : SegAdj} {e : Segment × List Segment} {Q : Polygon}
    (h : Q ∈ sourceBlock g e) :
    ∃ succ ∈ e.2, Q ∈ traceR g crit1 crit1Lt (fuelOf g) succ e.1 [e.1] ∨
      Q ∈ traceR g crit2 crit2Lt (fuelOf g) succ e.1 [e.1] := by
  unfold sourceBlock at h
  rcases List.mem_append.mp h with h1 | h1
  · rcases List.mem_flatten.mp h1 with ⟨l, hl, hQl⟩
    rcases List.mem_map.mp hl with ⟨succ, hsucc, hls⟩
    exact ⟨succ, hsucc, Or.inl (by rw [← hls] at hQl; exact hQl)⟩
  · rcases List.mem_flatten.mp h1 with ⟨l, hl, hQl⟩
    rcases List.mem_map.mp hl with ⟨succ, hsucc, hls⟩
    exact ⟨succ, hsucc, Or.inr (by rw [← hls] at hQl; exact hQl)⟩

/-- Looking a key of a retained entry point up in the component graph agrees
with the whole graph. -/
theorem alookup_build_some (adj : AdjP) (P : List Point) (s : Segment) (hs : s.2 ∈ P) :
    alookup (buildSegmentGraphFromAdjacencyListOfPoints (some P) adj) s =
      alookup (buildSegmentGraphFromAdjacencyListOfPoints none adj) s := by
  rw [← build_filter_eq]
  exact alookup_filter_of_pred (fun k : Segment => decide (k.2 ∈ P))
    (buildSegmentGraphFromAdjacencyListOfPoints none adj) s (by simpa using hs)

/-- Every source of the whole segment graph carries a partition that contains
all vertices of all its trace polygons. -/
theorem sourceBlock_component (segments : List Segment) (e : Segment × List Segment)
    (he : e ∈ buildSegmentGraphFromAdjacencyListOfPoints none (pipelineFrom segments)) :
    ∃ P ∈ partitionsOf (pipelineFrom segments), e.1.2 ∈ P ∧
      ∀ Q ∈ sourceBlock
          (buildSegmentGraphFromAdjacencyListOfPoints none (pipelineFrom segments)) e,
        Q.set ≠ [] ∧ (∀ x ∈ Q.set, x ∈ P) ∧ (∀ x ∈ Q.sequence, x ∈ P) := by
  obtain ⟨hS, hN, hK, hdeg⟩ := pipelineFrom_inv segments
  obtain ⟨hPs, hcov, hdisj⟩ := partitionsOf_spec (pipelineFrom segments) hS hK
  obtain ⟨ns, hns, h11⟩ := build_keys_shape none (pipelineFrom segments) e.1
    (List.mem_map.mpr ⟨e, he, rfl⟩)
  obtain ⟨P, hP, hmemP⟩ := hcov (e.1.2, ns) hns
  have hclP : ∀ p ∈ P, ∀ q ∈ nbrs (pipelineFrom segments) p, q ∈ P := (hPs P hP).2.2
  have hstep : ∀ s t : Segment,
      SegEdge (buildSegmentGraphFromAdjacencyListOfPoints none (pipelineFrom segments)) s t →
      s.2 ∈ P → t.1 ∈ P ∧ t.2 ∈ P := by
    intro s t hedge hsP
    obtain ⟨hsh, hne2, ns2, hns2, hs1, ht2⟩ :=
      goodSegGraph_build none (pipelineFrom segments) s t hedge
    have hlook2 : alookup (pipelineFrom segments) s.2 = some ns2 :=
      alookup_of_mem_nodupKeys hK hns2
    have hnbr : t.2 ∈ nbrs (pipelineFrom segments) s.2 := by
      unfold nbrs
      rw [hlook2]
      simpa using ht2
    exact ⟨by rw [← hsh]; exact hsP, hclP s.2 hsP t.2 hnbr⟩
  refine ⟨P, hP, hmemP, ?_⟩
  have h111 : e.1.1 ∈ P := by
    refine hclP e.1.2 hmemP e.1.1 ?_
    unfold nbrs
    rw [alookup_of_mem_nodupKeys hK hns]
    simpa using h11
  have hstack : ∀ s ∈ [e.1], s.1 ∈ P ∧ s.2 ∈ P := by
    intro s hs
    rw [List.mem_singleton.mp hs]
    exact ⟨h111, hmemP⟩
  intro Q hQ
  obtain ⟨succ, hsucc, hQ2⟩ := mem_sourceBlock hQ
  have hseggF : SegEdge (buildSegmentGraphFromAdjacencyListOfPoints none
      (pipelineFrom segments)) e.1 succ := by
    unfold SegEdge
    rw [alookup_of_mem_nodupKeys (nodupKeys_build none (pipelineFrom segments))
      (show ((e.1 : Segment), e.2) ∈ _ from he)]
    simpa using hsucc
  obtain ⟨hs1P, hs2P⟩ := hstep e.1 succ hseggF hmemP
  rcases hQ2 with hQ2 | hQ2
  · exact traceR_vertices _ crit1 crit1Lt P hstep _ succ e.1 [e.1] hstack hs1P hs2P Q hQ2
  · exact traceR_vertices _ crit2 crit2Lt P hstep _ succ e.1 [e.1] hstack hs1P hs2P Q hQ2

/-- The trace block of a retained source is the same in the whole graph and in
its component's graph. -/
theorem sourceBlock_transfer (segments : List Segment) (P : List Point)
    (hP : P ∈ partitionsOf (pipelineFrom segments)) (e : Segment × List Segment)
    (he : e ∈ buildSegmentGraphFromAdjacencyListOfPoints none (pipelineFrom segments))
    (heP : e.1.2 ∈ P) :
    sourceBlock (buildSegmentGraphFromAdjacencyListOfPoints none (pipelineFrom segments)) e =
      sourceBlock (buildSegmentGraphFromAdjacencyListOfPoints (some P) (pipelineFrom segments))
        e := by
  obtain ⟨hS, hN, hK, hdeg⟩ := pipelineFrom_inv segments
  obtain ⟨hPs, hcov, hdisj⟩ := partitionsOf_spec (pipelineFrom segments) hS hK
  have hclP : ∀ p ∈ P, ∀ q ∈ nbrs (pipelineFrom segments) p, q ∈ P := (hPs P hP).2.2
  have hstepP : ∀ s t : Segment,
      SegEdge (buildSegmentGraphFromAdjacencyListOfPoints (some P) (pipelineFrom segments)) s t →
      s.2 ∈ P → t.2 ∈ P := by
    intro s t hedge hsP
    obtain ⟨hsh, hne2, ns2, hns2, hs1, ht2⟩ :=
      goodSegGraph_build (some P) (pipelineFrom segments) s t hedge
    have hlook2 : alookup (pipelineFrom segments) s.2 = some ns2 :=
      alookup_of_mem_nodupKeys hK hns2
    refine hclP s.2 hsP t.2 ?_
    unfold nbrs
    rw [hlook2]
    simpa using ht2
  have hgPmem : e ∈ buildSegmentGraphFromAdjacencyListOfPoints (some P)
      (pipelineFrom segments) := by
    rw [← build_filter_eq]
    exact List.mem_filter.mpr ⟨he, by simpa using heP⟩
  have hKgP : NodupKeys (buildSegmentGraphFromAdjacencyListOfPoints (some P)
      (pipelineFrom segments)) := nodupKeys_build (some P) (pipelineFrom segments)
  have hlenle : (segUniverse (buildSegmentGraphFromAdjacencyListOfPoints (some P)
      (pipelineFrom segments))).length ≤
      (segUniverse (buildSegmentGraphFromAdjacencyListOfPoints none
        (pipelineFrom segments))).length := by
    rw [← build_filter_eq]
    exact segUniverse_filter_length_le _ _
  have htrace : ∀ {γ : Type} (crit : Segment → Segment → Segment → γ) (lt : γ → γ → Bool)
      (succ : Segment), succ ∈ e.2 →
      traceR (buildSegmentGraphFromAdjacencyListOfPoints none (pipelineFrom segments))
          crit lt
          (fuelOf (buildSegmentGraphFromAdjacencyListOfPoints none (pipelineFrom segments)))
          succ e.1 [e.1] =
        traceR (buildSegmentGraphFromAdjacencyListOfPoints (some P) (pipelineFrom segments))
          crit lt
          (fuelOf (buildSegmentGraphFromAdjacencyListOfPoints (some P)
            (pipelineFrom segments)))
          succ e.1 [e.1] := by
    intro γ crit lt succ hsucc
    have hedgeP : SegEdge (buildSegmentGraphFromAdjacencyListOfPoints (some P)
        (pipelineFrom segments)) e.1 succ := by
      unfold SegEdge
      rw [alookup_of_mem_nodupKeys hKgP (show ((e.1 : Segment), e.2) ∈ _ from hgPmem)]
      simpa using hsucc
    have hsucc2 : succ.2 ∈ P := hstepP e.1 succ hedgeP heP
    have h1 : traceR (buildSegmentGraphFromAdjacencyListOfPoints (some P)
        (pipelineFrom segments)) crit lt
        (fuelOf (buildSegmentGraphFromAdjacencyListOfPoints none (pipelineFrom segments)))
        succ e.1 [e.1] =
        traceR (buildSegmentGraphFromAdjacencyListOfPoints none (pipelineFrom segments))
        crit lt
        (fuelOf (buildSegmentGraphFromAdjacencyListOfPoints none (pipelineFrom segments)))
        succ e.1 [e.1] := by
      refine traceR_graph_transfer _ _ crit lt P
        (fun s hs => alookup_build_some (pipelineFrom segments) P s hs) hstepP _ succ e.1
        [e.1] hsucc2
    have h2 : traceR (buildSegmentGraphFromAdjacencyListOfPoints (some P)
        (pipelineFrom segments)) crit lt
        (fuelOf (buildSegmentGraphFromAdjacencyListOfPoints none (pipelineFrom segments)))
        succ e.1 [e.1] =
        traceR (buildSegmentGraphFromAdjacencyListOfPoints (some P) (pipelineFrom segments))
        crit lt
        (fuelOf (buildSegmentGraphFromAdjacencyListOfPoints (some P) (pipelineFrom segments)))
        succ e.1 [e.1] := by
      refine traceR_fuel_stable _ crit lt _ _ succ e.1 [e.1] (by simp) (by simp) ?_
        (mem_segUniverse_of_succ hedgeP) ?_ ?_
      · intro x hx
        rw [List.mem_singleton.mp hx]
        exact mem_segUniverse_of_key hgPmem
      · unfold fuelOf
        simp only [List.length_singleton]
        omega
      · unfold fuelOf
        simp only [List.length_singleton]
        omega
    rw [← h2, h1]
  unfold sourceBlock
  have hmap1 : ∀ {γ : Type} (crit : Segment → Segment → Segment → γ) (lt : γ → γ → Bool),
      (e.2.map fun s =>
        traceR (buildSegmentGraphFromAdjacencyListOfPoints none (pipelineFrom segments))
          crit lt
          (fuelOf (buildSegmentGraphFromAdjacencyListOfPoints none (pipelineFrom segments)))
          s e.1 [e.1]) =
      (e.2.map fun s =>
        traceR (buildSegmentGraphFromAdjacencyListOfPoints (some P) (pipelineFrom segments))
          crit lt
          (fuelOf (buildSegmentGraphFromAdjacencyListOfPoints (some P)
            (pipelineFrom segments)))
          s e.1 [e.1]) := by
    intro γ crit lt
    apply List.map_congr_left
    intro s hs
    exact htrace crit lt s hs
  rw [hmap1 crit1 crit1Lt, hmap1 crit2 crit2Lt]

/-- Restricting the filtered output of the whole pipeline to one component
class gives exactly the filtered output of that component's own pipeline. -/
theorem component_filter_eq (segments : List Segment) (P : List Point)
    (hP : P ∈ partitionsOf (pipelineFrom segments)) (amin : ℚ) :
    ((filterPolygons
        (segmentTraversal (buildSegmentGraphFromAdjacencyListOfPoints none
          (pipelineFrom segments))).paths amin).filter (inComp P)) =
      filterPolygons
        (segmentTraversal (buildSegmentGraphFromAdjacencyListOfPoints (some P)
          (pipelineFrom segments))).paths amin := by
  obtain ⟨hS, hN, hK, hdeg⟩ := pipelineFrom_inv segments
  have hBT : (bigTrace (buildSegmentGraphFromAdjacencyListOfPoints none
      (pipelineFrom segments))).filter (inComp P) =
      bigTrace (buildSegmentGraphFromAdjacencyListOfPoints (some P)
        (pipelineFrom segments)) := by
    unfold bigTrace
    rw [filter_flatten', List.map_map]
    have hcong : ∀ e ∈ buildSegmentGraphFromAdjacencyListOfPoints none
        (pipelineFrom segments),
        ((fun l => l.filter (inComp P)) ∘
          sourceBlock (buildSegmentGraphFromAdjacencyListOfPoints none
            (pipelineFrom segments))) e =
        (fun e => if (fun e : Segment × List Segment => decide (e.1.2 ∈ P)) e = true then
          sourceBlock (buildSegmentGraphFromAdjacencyListOfPoints (some P)
            (pipelineFrom segments)) e
          else []) e := by
      intro e he
      simp only [Function.comp]
      obtain ⟨P2, hP2, heP2, hbundle⟩ := sourceBlock_component segments e he
      by_cases heP : e.1.2 ∈ P
      · rw [if_pos (by simpa using heP)]
        have hPP : P2 = P :=
          partitions_eq_of_shared (pipelineFrom segments) hS hK hP2 hP heP2 heP
        rw [← sourceBlock_transfer segments P hP e he heP]
        refine List.filter_eq_self.mpr ?_
        intro Q hQ
        obtain ⟨hne, hset, hseq⟩ := hbundle Q hQ
        unfold inComp
        rw [decide_eq_true_eq]
        refine ⟨hne, ?_⟩
        intro x hx
        rw [← hPP]
        exact hset x hx
      · rw [if_neg (by simpa using heP)]
        refine List.filter_eq_nil_iff.mpr ?_
        intro Q hQ
        obtain ⟨hne, hset, hseq⟩ := hbundle Q hQ
        simp only [inComp, decide_eq_true_eq]
        rintro ⟨h1, h2⟩
        obtain ⟨x0, hx0⟩ := List.exists_mem_of_ne_nil Q.set hne
        have hPP : P2 = P :=
          partitions_eq_of_shared (pipelineFrom segments) hS hK hP2 hP (hset x0 hx0)
            (h2 x0 hx0)
        exact heP (by rw [← hPP]; exact heP2)
    rw [List.map_congr_left hcong,
      flatten_map_ite (fun e : Segment × List Segment => decide (e.1.2 ∈ P))
        (sourceBlock (buildSegmentGraphFromAdjacencyListOfPoints (some P)
          (pipelineFrom segments)))
        (buildSegmentGraphFromAdjacencyListOfPoints none (pipelineFrom segments)),
      build_filter_eq]
  have hpaths : ((segmentTraversal (buildSegmentGraphFromAdjacencyListOfPoints none
      (pipelineFrom segments))).paths).filter (inComp P) =
      (segmentTraversal (buildSegmentGraphFromAdjacencyListOfPoints (some P)
        (pipelineFrom segments))).paths := by
    rw [segmentTraversal_paths_char, segmentTraversal_paths_char,
      filter_foldl_insertPath (inComp P) (fun p q h => inComp_polyEq P h), hBT]
    rfl
  have hLmem : ∀ r ∈ sortByArea
      (((segmentTraversal (buildSegmentGraphFromAdjacencyListOfPoints none
        (pipelineFrom segments))).paths).filter
          fun p => decide (amin ≤ p.areaProjected)),
      ∃ Pr ∈ partitionsOf (pipelineFrom segments),
        r.set ≠ [] ∧ (∀ x ∈ r.set, x ∈ Pr) ∧ ∀ x ∈ r.sequence, x ∈ Pr := by
    intro r hr
    have hr2 := List.mem_of_mem_filter (mem_sortByArea.mp hr)
    rw [segmentTraversal_paths_char] at hr2
    rcases mem_pathsFold hr2 with h0 | h0
    · simp at h0
    · rcases List.mem_flatten.mp h0 with ⟨blk, hblk, hrblk⟩
      rcases List.mem_map.mp hblk with ⟨e, he, hblke⟩
      obtain ⟨Pr, hPr, hePr, hbundle⟩ := sourceBlock_component segments e he
      exact ⟨Pr, hPr, hbundle r (by rw [hblke]; exact hrblk)⟩
  have hsep : ∀ p q : Polygon,
      p ∈ sortByArea
        (((segmentTraversal (buildSegmentGraphFromAdjacencyListOfPoints none
          (pipelineFrom segments))).paths).filter
            fun p => decide (amin ≤ p.areaProjected)) →
      (q ∈ ([] : List Polygon) ∨ q ∈ sortByArea
        (((segmentTraversal (buildSegmentGraphFromAdjacencyListOfPoints none
          (pipelineFrom segments))).paths).filter
            fun p => decide (amin ≤ p.areaProjected))) →
      inComp P p = true → inComp P q = false →
      (p.contains q && p.sharesSidesWith q) = false := by
    intro p q hpL hqL hφp hφq
    have hqL2 : q ∈ sortByArea
        (((segmentTraversal (buildSegmentGraphFromAdjacencyListOfPoints none
          (pipelineFrom segments))).paths).filter
            fun p => decide (amin ≤ p.areaProjected)) := by
      rcases hqL with h | h
      · simp at h
      · exact h
    obtain ⟨Pp, hPp, hpne, hpset, hpseq⟩ := hLmem p hpL
    obtain ⟨Pq, hPq, hqne, hqset, hqseq⟩ := hLmem q hqL2
    unfold inComp at hφp
    rw [decide_eq_true_eq] at hφp
    obtain ⟨hpne2, hpP⟩ := hφp
    obtain ⟨xp, hxp⟩ := List.exists_mem_of_ne_nil p.set hpne
    have hPpP : Pp = P :=
      partitions_eq_of_shared (pipelineFrom segments) hS hK hPp hP (hpset xp hxp)
        (hpP xp hxp)
    cases hshares : p.sharesSidesWith q with
    | false => simp [hshares]
    | true =>
        exfalso
        obtain ⟨v, hvp, hvq⟩ := sharesSidesWith_common_vertex hshares
        have hvP : v ∈ P := by rw [← hPpP]; exact hpseq v hvp
        have hvPq : v ∈ Pq := hqseq v hvq
        have hPqP : Pq = P :=
          partitions_eq_of_shared (pipelineFrom segments) hS hK hPq hP hvPq hvP
        unfold inComp at hφq
        have hφq2 : ¬(q.set ≠ [] ∧ ∀ x ∈ q.set, x ∈ P) := of_decide_eq_false hφq
        push_neg at hφq2
        obtain ⟨y, hy, hyP⟩ := hφq2 hqne
        exact hyP (by rw [← hPqP]; exact hqset y hy)
  unfold filterPolygons selectPolygons
  rw [filter_selectFold (inComp P) _ [] hsep, filter_sortByArea, filter_comm', hpaths]
  rfl

set_option maxHeartbeats 1000000 in
/-- C2: for every input segment list and area threshold, the parallel
(per-component) and sequential runs of `polygonalize` return the same set of
polygons, membership taken up to the polygon's vertex-set equality. -/
theorem polygonalize_parallel_eq_sequential (segments : List Segment) (amin : ℚ)
    (q : Polygon) :
    polyMemB q (polygonalize segments true amin) =
      polyMemB q (polygonalize segments false amin) := by
  have hpar : polygonalize segments true amin =
      ((partitionsOf (pipelineFrom segments)).map fun partition =>
        filterPolygons
          (segmentTraversal (buildSegmentGraphFromAdjacencyListOfPoints
            (some partition) (pipelineFrom segments))).paths amin).flatten := rfl
  have hseq : polygonalize segments false amin =
      filterPolygons
        (segmentTraversal (buildSegmentGraphFromAdjacencyListOfPoints none
          (pipelineFrom segments))).paths amin := rfl
  have hsub1 : ∀ r, r ∈ polygonalize segments true amin →
      r ∈ polygonalize segments false amin := by
    intro r hr
    rw [hpar] at hr
    rcases List.mem_flatten.mp hr with ⟨l, hl, hrl⟩
    rcases List.mem_map.mp hl with ⟨P, hPmem, hlP⟩
    rw [← hlP] at hrl
    rw [← component_filter_eq segments P hPmem amin] at hrl
    rw [hseq]
    exact List.mem_of_mem_filter hrl
  have hsub2 : ∀ r, r ∈ polygonalize segments false amin →
      r ∈ polygonalize segments true amin := by
    intro r hr
    rw [hseq] at hr
    have hrp := mem_filterPolygons hr
    rw [segmentTraversal_paths_char] at hrp
    rcases mem_pathsFold hrp with h0 | h0
    · simp at h0
    · rcases List.mem_flatten.mp h0 with ⟨blk, hblk, hrblk⟩
      rcases List.mem_map.mp hblk with ⟨e, he, hblke⟩
      obtain ⟨P, hPmem, heP, hbundle⟩ := sourceBlock_component segments e he
      obtain ⟨hne, hset, hseq2⟩ := hbundle r (by rw [hblke]; exact hrblk)
      have hφ : inComp P r = true := by
        unfold inComp
        rw [decide_eq_true_eq]
        exact ⟨hne, hset⟩
      have hmem : r ∈ (filterPolygons
          (segmentTraversal (buildSegmentGraphFromAdjacencyListOfPoints none
            (pipelineFrom segments))).paths amin).filter (inComp P) :=
        List.mem_filter.mpr ⟨hr, hφ⟩
      rw [component_filter_eq segments P hPmem amin] at hmem
      rw [hpar]
      exact List.mem_flatten.mpr ⟨_, List.mem_map.mpr ⟨P, hPmem, rfl⟩, hmem⟩
  refine bool_eq_of_iff ?_
  unfold polyMemB
  constructor
  · intro h
    rcases List.any_eq_true.mp h with ⟨r, hr, hrq⟩
    exact List.any_eq_true.mpr ⟨r, hsub1 r hr, hrq⟩
  · intro h
    rcases List.any_eq_true.mp h with ⟨r, hr, hrq⟩
    exact List.any_eq_true.mpr ⟨r, hsub2 r hr, hrq⟩

/-- C10: on every segment graph the composite two-pass traversal of
`graph.rs` (`SegmentGraph::segment`) and the interleaved memoising traversal
of `traversal.rs` (`traverse`) produce the same polygon collection, as sets
under the polygon's vertex-set equality. -/
theorem segment_eq_strategy_traversal (g : SegAdj) (q : Polygon) :
    polyMemB q (segmentTraversal g).paths = polyMemB q (runTraversal g).paths := by
  have hmain := traversal_fold_mem g g ⟨[], [], true⟩ ⟨[], [], [], [], true⟩ rfl
    (fun pc v hv => by simp [alookup] at hv)
    (fun pc v hv => by simp [alookup] at hv)
    (fun q => rfl)
  exact hmain.1 q

end Polygonum
